import Mathlib

/-!
Verification of the traditional tiling layout engine
(`src/layout_engine/systems/traditional.rs` and `src/model/selection.rs`).

The engine keeps a forest of nodes together with three component side
tables (selection, layout info, window bindings), kept coherent by an
observer protocol.  We embed one layout tree as an inductive tree of
node ids, with the three component tables as explicit maps in a state
record, and translate the public operations the claims refer to
directly from the source.  `f32`/`f64` arithmetic is embedded as exact
rational arithmetic.

The forest substrate (`model/tree.rs`), the `LayoutKind` / `Direction`
helpers, `GapSettings`, `compute_tiling_area` and the `Round` trait are
not part of the provided sources; they are modelled from the
specification and marked as such in their doc comments.
-/

namespace Rift

/-- Modelled from the spec: `LayoutKind` is the variant set
{ Horizontal, Vertical, HorizontalStack, VerticalStack }. -/
inductive LayoutKind where
  | horizontal
  | vertical
  | horizontalStack
  | verticalStack
deriving DecidableEq, Repr

/-- Modelled from the spec: orientations of containers and directions. -/
inductive Orient where
  | horizontal
  | vertical
deriving DecidableEq, Repr

/-- Modelled from the spec: `Direction` is { Left, Right, Up, Down }. -/
inductive Direction where
  | left
  | right
  | up
  | down
deriving DecidableEq, Repr

/-- Modelled from the spec: `Direction::orientation()`. -/
def Direction.orientation : Direction → Orient
  | .left => .horizontal
  | .right => .horizontal
  | .up => .vertical
  | .down => .vertical

/-- Modelled from the spec: `Direction::opposite()`. -/
def Direction.opposite : Direction → Direction
  | .left => .right
  | .right => .left
  | .up => .down
  | .down => .up

/-- Modelled from the spec: a group (stacked container kind) is
`HorizontalStack` or `VerticalStack`. -/
def LayoutKind.is_group : LayoutKind → Bool
  | .horizontalStack => true
  | .verticalStack => true
  | _ => false

/-- Modelled from the spec: same predicate as `is_group` (the glossary
equates "Group / Stack / Stacked container"). -/
def LayoutKind.is_stacked : LayoutKind → Bool
  | .horizontalStack => true
  | .verticalStack => true
  | _ => false

/-- Modelled from the spec: orientation of a `LayoutKind`. -/
def LayoutKind.orientation : LayoutKind → Orient
  | .horizontal => .horizontal
  | .horizontalStack => .horizontal
  | .vertical => .vertical
  | .verticalStack => .vertical

/-- Modelled from the spec: `LayoutKind::from(orientation)`. -/
def LayoutKind.fromOrient : Orient → LayoutKind
  | .horizontal => .horizontal
  | .vertical => .vertical

/-- Modelled from the spec: `StackDefaultOrientation` is
{ Perpendicular, Same, Horizontal, Vertical }. -/
inductive StackDefaultOrientation where
  | perpendicular
  | same
  | horizontal
  | vertical
deriving DecidableEq, Repr

/-- Modelled from the spec: side on which the stack hairline sits for
horizontal stacks. -/
inductive HorizontalPlacement where
  | top
  | bottom
deriving DecidableEq, Repr

/-- Modelled from the spec: side on which the stack hairline sits for
vertical stacks. -/
inductive VerticalPlacement where
  | leftSide
  | rightSide
deriving DecidableEq, Repr

/-- A `CGRect` with exact rational coordinates: origin `(x, y)` and
size `(w, h)`. -/
structure Rect where
  x : ℚ
  y : ℚ
  w : ℚ
  h : ℚ
deriving DecidableEq, Repr

/-- Modelled from the spec: `GapSettings` holds outer and inner
horizontal and vertical gaps. -/
structure GapSettings where
  outerH : ℚ
  outerV : ℚ
  innerH : ℚ
  innerV : ℚ
deriving DecidableEq, Repr

/-- Modelled from the spec: `tiling_area = screen` shrunk by the outer
gaps on every side. -/
def compute_tiling_area (screen : Rect) (gaps : GapSettings) : Rect :=
  { x := screen.x + gaps.outerH
    y := screen.y + gaps.outerV
    w := screen.w - 2 * gaps.outerH
    h := screen.h - 2 * gaps.outerV }

/-- `LayoutInfo` of `traditional.rs`: per-node fractional size, sum of
children sizes, kind, last non-stacked kind and the two fullscreen
flags. -/
structure LayoutInfo where
  size : ℚ
  total : ℚ
  kind : LayoutKind
  last_ungrouped_kind : LayoutKind
  is_fullscreen : Bool
  is_fullscreen_within_gaps : Bool
deriving DecidableEq, Repr

/-- Modelled from the spec: `LayoutInfo::default()`; scenario 1 of the
spec fixes the default kind of a fresh root as `Horizontal`, and the
observer gives new forest nodes `size = 0.0`. -/
def LayoutInfo.default : LayoutInfo :=
  { size := 0, total := 0, kind := .horizontal, last_ungrouped_kind := .horizontal
    is_fullscreen := false, is_fullscreen_within_gaps := false }

/-- `SelectionInfo` of `model/selection.rs`, keyed by the parent node:
selected child, `stop_here` pin and the optional range. -/
structure SelInfo where
  selected_child : Nat
  stop_here : Bool
  range_start : Option Nat
  range_end : Option Nat
deriving DecidableEq, Repr

/-- Modelled from the spec: the node forest, restricted to one layout
tree.  A node is an id together with its ordered children. -/
inductive LTree where
  | node : Nat → List LTree → LTree

/-- Id of the top node of a subtree. -/
def LTree.topId : LTree → Nat
  | .node i _ => i

/-- Children subtrees of the top node. -/
def LTree.childList : LTree → List LTree
  | .node _ cs => cs

mutual

/-- Number of nodes of a subtree. -/
def LTree.nodeCount : LTree → Nat
  | .node _ cs => 1 + LTree.nodeCountL cs

/-- Number of nodes of a list of subtrees. -/
def LTree.nodeCountL : List LTree → Nat
  | [] => 0
  | t :: ts => LTree.nodeCount t + LTree.nodeCountL ts

end

mutual

/-- All node ids of a subtree, in preorder. -/
def LTree.allIds : LTree → List Nat
  | .node i cs => i :: LTree.allIdsL cs

/-- All node ids of a list of subtrees, in preorder. -/
def LTree.allIdsL : List LTree → List Nat
  | [] => []
  | t :: ts => LTree.allIds t ++ LTree.allIdsL ts

end

mutual

/-- Find the subtree whose top node has the given id. -/
def LTree.findSub (x : Nat) : LTree → Option LTree
  | .node i cs => if i = x then some (.node i cs) else LTree.findSubL x cs

/-- Find a subtree by id within a list of subtrees. -/
def LTree.findSubL (x : Nat) : List LTree → Option LTree
  | [] => none
  | t :: ts =>
    match LTree.findSub x t with
    | some r => some r
    | none => LTree.findSubL x ts

end

/-- Whether the id occurs in the subtree. -/
def LTree.containsId (t : LTree) (x : Nat) : Bool := (t.findSub x).isSome

mutual

/-- Parent id of a node: the id of the node having `x` among its
children ids. -/
def LTree.parentOf (x : Nat) : LTree → Option Nat
  | .node i cs =>
    if (cs.map LTree.topId).contains x then some i else LTree.parentOfL x cs

/-- Parent search within a list of subtrees. -/
def LTree.parentOfL (x : Nat) : List LTree → Option Nat
  | [] => none
  | t :: ts =>
    match LTree.parentOf x t with
    | some p => some p
    | none => LTree.parentOfL x ts

end

mutual

/-- Ids on the path from the top of the tree down to `x`, inclusive,
root first. -/
def LTree.pathTo (x : Nat) : LTree → Option (List Nat)
  | .node i cs =>
    if i = x then some [i]
    else (LTree.pathToL x cs).map (fun p => i :: p)

/-- Path search within a list of subtrees. -/
def LTree.pathToL (x : Nat) : List LTree → Option (List Nat)
  | [] => none
  | t :: ts =>
    match LTree.pathTo x t with
    | some p => some p
    | none => LTree.pathToL x ts

end

/-- Children ids of node `x`. -/
def LTree.childIds (t : LTree) (x : Nat) : List Nat :=
  match t.findSub x with
  | some sub => sub.childList.map LTree.topId
  | none => []

/-- The element directly after the first occurrence of `x`. -/
def listNextAfter (x : Nat) : List Nat → Option Nat
  | [] => none
  | a :: rest => if a = x then rest.head? else listNextAfter x rest

/-- The sibling directly after `x` in its parent's child list. -/
def LTree.nextSibling (t : LTree) (x : Nat) : Option Nat :=
  match t.parentOf x with
  | none => none
  | some p => listNextAfter x (t.childIds p)

/-- The sibling directly before `x` in its parent's child list. -/
def LTree.prevSibling (t : LTree) (x : Nat) : Option Nat :=
  match t.parentOf x with
  | none => none
  | some p => listNextAfter x (t.childIds p).reverse

/-- First child id of node `x`. -/
def LTree.firstChild (t : LTree) (x : Nat) : Option Nat :=
  (t.childIds x).head?

/-- Last child id of node `x`. -/
def LTree.lastChild (t : LTree) (x : Nat) : Option Nat :=
  (t.childIds x).getLast?

/-- Ancestor chain of `x`, self first, root last
(`NodeId::ancestors`). -/
def LTree.ancestors (t : LTree) (x : Nat) : List Nat :=
  match t.pathTo x with
  | some p => p.reverse
  | none => []

mutual

/-- Remove the subtree whose top node is `x` (the first occurrence). -/
def LTree.delSub (x : Nat) : LTree → LTree
  | .node i cs => .node i (LTree.delSubL x cs)

/-- Removal within a list of subtrees. -/
def LTree.delSubL (x : Nat) : List LTree → List LTree
  | [] => []
  | t :: ts =>
    if t.topId = x then ts else LTree.delSub x t :: LTree.delSubL x ts

end

mutual

/-- Insert subtree `sub` directly after the sibling with id `sib`. -/
def LTree.insAfter (sib : Nat) (sub : LTree) : LTree → LTree
  | .node i cs => .node i (LTree.insAfterL sib sub cs)

/-- Insertion-after within a list of subtrees. -/
def LTree.insAfterL (sib : Nat) (sub : LTree) : List LTree → List LTree
  | [] => []
  | t :: ts =>
    if t.topId = sib then t :: sub :: ts
    else LTree.insAfter sib sub t :: LTree.insAfterL sib sub ts

end

mutual

/-- Insert subtree `sub` directly before the sibling with id `sib`. -/
def LTree.insBefore (sib : Nat) (sub : LTree) : LTree → LTree
  | .node i cs => .node i (LTree.insBeforeL sib sub cs)

/-- Insertion-before within a list of subtrees. -/
def LTree.insBeforeL (sib : Nat) (sub : LTree) : List LTree → List LTree
  | [] => []
  | t :: ts =>
    if t.topId = sib then sub :: t :: ts
    else LTree.insBefore sib sub t :: LTree.insBeforeL sib sub ts

end

mutual

/-- Append subtree `sub` as the last child of node `p`. -/
def LTree.pushBack (p : Nat) (sub : LTree) : LTree → LTree
  | .node i cs =>
    if i = p then .node i (cs ++ [sub])
    else .node i (LTree.pushBackL p sub cs)

/-- Push-back within a list of subtrees. -/
def LTree.pushBackL (p : Nat) (sub : LTree) : List LTree → List LTree
  | [] => []
  | t :: ts => LTree.pushBack p sub t :: LTree.pushBackL p sub ts

end

/-- The whole engine state for one layout: the tree together with the
three component tables (`Selection`, `Layout`, `Window` of the
`Components` struct) and the id allocator of the forest.  `windows`
maps node ids to window ids, `windowNodes` maps a window id to its
`(layout, node)` binding pairs. -/
structure LState where
  tree : LTree
  sel : Nat → Option SelInfo
  info : Nat → LayoutInfo
  windows : Nat → Option Nat
  windowNodes : Nat → List (Nat × Nat)
  nextId : Nat

/-- Pointwise update of a map. -/
def updMap {α : Type} (f : Nat → α) (k : Nat) (v : α) : Nat → α :=
  fun n => if n = k then v else f n

mutual

/-- `Selection::current_selection`: walk from the top following
`selected_child` links, stopping at a missing entry or a `stop_here`
pin.  The source chases node ids; because the selection observer keeps
every `selected_child` a child of its key (debug-asserted in
`local_selection`), the walk is structural; a dangling entry stops the
walk at the current node. -/
def curSelT (sel : Nat → Option SelInfo) : LTree → Nat
  | .node i cs =>
    match sel i with
    | none => i
    | some si =>
      if si.stop_here then i
      else curSelL sel si.selected_child i cs

/-- Walk into the child subtree carrying the selected id. -/
def curSelL (sel : Nat → Option SelInfo) (target fallback : Nat) :
    List LTree → Nat
  | [] => fallback
  | t :: ts =>
    if t.topId = target then curSelT sel t
    else curSelL sel target fallback ts

end

/-- The effective selection of the layout (`selection(layout)`). -/
def LState.current_selection (s : LState) : Nat :=
  curSelT s.sel s.tree

/-- `Selection::last_selection`: the recorded child, ignoring
`stop_here`. -/
def LState.last_selection (s : LState) (n : Nat) : Option Nat :=
  (s.sel n).map (·.selected_child)

/-- `Selection::local_selection`: the recorded child when not
pinned by `stop_here`. -/
def LState.local_selection (s : LState) (n : Nat) : Option Nat :=
  match s.sel n with
  | none => none
  | some si => if si.stop_here then none else some si.selected_child

/-- `Selection::select_locally`: insert a fresh entry for `n`'s parent
pointing at `n`; reports whether the selected child changed. -/
def LState.select_locally (s : LState) (n : Nat) : Bool × LState :=
  match s.tree.parentOf n with
  | some p =>
    let changed :=
      match s.sel p with
      | some si => decide (si.selected_child ≠ n)
      | none => true
    let si : SelInfo :=
      { selected_child := n, stop_here := false
        range_start := none, range_end := none }
    (changed, { s with sel := updMap s.sel p (some si) })
  | none => (false, s)

/-- Inner loop of `Selection::select`: walk the ancestors of the
selection, inserting a fresh entry at each parent that points down the
path. -/
def selectLoop (sel : Nat → Option SelInfo) : Nat → List Nat →
    (Nat → Option SelInfo)
  | _, [] => sel
  | child, p :: rest =>
    selectLoop
      (updMap sel p
        (some { selected_child := child, stop_here := false
                range_start := none, range_end := none }))
      p rest

/-- The selection-table update performed by `Selection::select`: pin
`stop_here` on the node's own entry (when present) and re-point every
ancestor at the path to `n`. -/
def selUpd (t : LTree) (sel : Nat → Option SelInfo) (n : Nat) :
    Nat → Option SelInfo :=
  let sel1 :=
    match sel n with
    | some si => updMap sel n (some { si with stop_here := true })
    | none => sel
  match t.ancestors n with
  | [] => sel1
  | _ :: ps => selectLoop sel1 n ps

/-- `Selection::select`. -/
def LState.select (s : LState) (n : Nat) : LState :=
  { s with sel := selUpd s.tree s.sel n }

/-- `Selection::get_range`: the range recorded on `n`'s parent. -/
def LState.get_range (s : LState) (n : Nat) : Option (Nat × Nat) :=
  match s.tree.parentOf n with
  | some p =>
    match s.sel p with
    | some si =>
      match si.range_start, si.range_end with
      | some a, some b => some (a, b)
      | _, _ => none
    | none => none
  | none => none

/-- `Selection::set_range` on `n`'s parent entry, when present. -/
def LState.set_range (s : LState) (n a b : Nat) : LState :=
  match s.tree.parentOf n with
  | some p =>
    match s.sel p with
    | some si =>
      let si2 := { si with range_start := some a, range_end := some b }
      { s with sel := updMap s.sel p (some si2) }
    | none => s
  | none => s

/-- `Selection::clear_range` on `n`'s parent entry, when present. -/
def LState.clear_range (s : LState) (n : Nat) : LState :=
  match s.tree.parentOf n with
  | some p =>
    match s.sel p with
    | some si =>
      let si2 := { si with range_start := none, range_end := none }
      { s with sel := updMap s.sel p (some si2) }
    | none => s
  | none => s

/-- `AddedToForest` observer event: default layout info for the new
node (selection and window components ignore this event). -/
def fireAddedToForest (s : LState) (x : Nat) : LState :=
  { s with info := updMap s.info x LayoutInfo.default }

/-- `AddedToParent` observer event (fired after linking): the layout
component sets the node's `size` to `1.0` and adds `1.0` to its
parent's `total`. -/
def fireAddedToParent (s : LState) (x : Nat) : LState :=
  match s.tree.parentOf x with
  | some p =>
    let i1 := updMap s.info x { s.info x with size := 1 }
    let i2 := updMap i1 p { i1 p with total := (i1 p).total + 1 }
    { s with info := i2 }
  | none => s

/-- `RemovingFromParent` observer event (fired before unlinking): the
selection component migrates the parent's `selected_child` to a
sibling (or drops the entry), and the layout component subtracts the
node's `size` from its parent's `total`. -/
def fireRemovingFromParent (s : LState) (x : Nat) : LState :=
  match s.tree.parentOf x with
  | none => s
  | some p =>
    let sel1 :=
      match s.sel p with
      | some si =>
        if si.selected_child = x then
          match s.tree.nextSibling x with
          | some ns => updMap s.sel p (some { si with selected_child := ns })
          | none =>
            match s.tree.prevSibling x with
            | some ps => updMap s.sel p (some { si with selected_child := ps })
            | none => updMap s.sel p none
        else s.sel
      | none => s.sel
    let i1 := updMap s.info p
      { s.info p with total := (s.info p).total - (s.info x).size }
    { s with sel := sel1, info := i1 }

/-- `RemovedFromForest` observer event: all three components drop
their entries for the node (layout info reverts to the default of an
absent entry; ids are never reused). -/
def fireRemovedFromForest (s : LState) (x : Nat) : LState :=
  let sel1 := updMap s.sel x none
  let i1 := updMap s.info x LayoutInfo.default
  let (w1, wn1) :=
    match s.windows x with
    | some wid =>
      (updMap s.windows x none,
        updMap s.windowNodes wid ((s.windowNodes wid).filter (fun pr => pr.2 ≠ x)))
    | none => (s.windows, s.windowNodes)
  { s with sel := sel1, info := i1, windows := w1, windowNodes := wn1 }

/-- Where a detached node is re-attached. -/
inductive AttachDest where
  | afterSib (sib : Nat)
  | beforeSib (sib : Nat)
  | intoParent (p : Nat)

/-- `mk_node()` followed by an attachment: allocate a fresh id, fire
`AddedToForest`, link the leaf at the destination and fire
`AddedToParent`. -/
def mkNodeAttach (s : LState) (dest : AttachDest) : Nat × LState :=
  let x := s.nextId
  let s1 := fireAddedToForest { s with nextId := x + 1 } x
  let t :=
    match dest with
    | .afterSib sib => LTree.insAfter sib (.node x []) s1.tree
    | .beforeSib sib => LTree.insBefore sib (.node x []) s1.tree
    | .intoParent p => LTree.pushBack p (.node x []) s1.tree
  (x, fireAddedToParent { s1 with tree := t } x)

/-- `detach` followed by a re-attachment elsewhere: fire
`RemovingFromParent`, unlink the subtree, link it at the destination
and fire `AddedToParent`.  Modelled from the spec: a detach that is
immediately followed by a re-attach does not run the auto-collapse
rule (the rule fires on `removed_child`, i.e. when a detached subtree
is removed; in every translated operation the vacated parent either
keeps at least two children, is the root, or is cleaned up
explicitly). -/
def moveNode (s : LState) (x : Nat) (dest : AttachDest) : LState :=
  match s.tree.findSub x with
  | none => s
  | some sub =>
    let s1 := fireRemovingFromParent s x
    let t := LTree.delSub x s1.tree
    let t2 :=
      match dest with
      | .afterSib sib => LTree.insAfter sib sub t
      | .beforeSib sib => LTree.insBefore sib sub t
      | .intoParent p => LTree.pushBack p sub t
    fireAddedToParent { s1 with tree := t2 } x

/-- `Layout::assume_size_of`: the parent's `total` drops by the new
node's size, the new node takes over the old node's `size`, and the
old node's `size` becomes `0.0`. -/
def LState.assume_size_of (s : LState) (new old : Nat) : LState :=
  match s.tree.parentOf new with
  | none => s
  | some p =>
    let i1 := updMap s.info p
      { s.info p with total := (s.info p).total - (s.info new).size }
    let i2 := updMap i1 new { i1 new with size := (i1 old).size }
    let i3 := updMap i2 old { i2 old with size := 0 }
    { s with info := i3 }

mutual

/-- `detach().remove()` of a subtree: fire `RemovingFromParent`,
unlink, fire `RemovedFromForest` for every node of the subtree, then
run the `removed_child` auto-collapse rule on the old parent.  Fuel
bounds the collapse chain; every caller passes at least the node count
of the tree, which the chain (strictly shrinking the tree) never
exhausts.  The root is only removed by `remove_layout`, which is not
translated, so a parentless argument is left untouched. -/
def removeSub (s : LState) (x : Nat) : Nat → LState
  | 0 => s
  | fuel + 1 =>
    match s.tree.findSub x with
    | none => s
    | some sub =>
      match s.tree.parentOf x with
      | none => s
      | some p =>
        let s1 := fireRemovingFromParent s x
        let s2 := { s1 with tree := LTree.delSub x s1.tree }
        let s3 := sub.allIds.foldl fireRemovedFromForest s2
        removedChildHook s3 p fuel

/-- `Components::removed_child`: no effect when the parent is a root;
an emptied parent is detached and removed; a parent left with exactly
one child has that child spliced into its own place (inheriting the
parent's size share), after which the now-empty parent is cleaned up
by the same rule. -/
def removedChildHook (s : LState) (p : Nat) : Nat → LState
  | 0 => s
  | fuel + 1 =>
    match s.tree.parentOf p with
    | none => s
    | some _ =>
      match s.tree.childIds p with
      | [] => removeSub s p fuel
      | [c] =>
        let s1 := moveNode s c (.afterSib p)
        let s2 := s1.assume_size_of c p
        removedChildHook s2 p fuel
      | _ => s

end

/-- `Layout::set_kind`: record the kind, remembering it as
`last_ungrouped_kind` when it is not a stacked kind. -/
def LState.set_kind (s : LState) (n : Nat) (k : LayoutKind) : LState :=
  let i := { s.info n with kind := k }
  let i2 := if k.is_group then i else { i with last_ungrouped_kind := k }
  { s with info := updMap s.info n i2 }

/-- `Layout::set_fullscreen`: setting the flag clears
`is_fullscreen_within_gaps`. -/
def LState.set_fullscreen (s : LState) (n : Nat) (b : Bool) : LState :=
  let i := { s.info n with is_fullscreen := b }
  let i2 := if b then { i with is_fullscreen_within_gaps := false } else i
  { s with info := updMap s.info n i2 }

/-- `Layout::set_fullscreen_within_gaps`: setting the flag clears
`is_fullscreen`. -/
def LState.set_fullscreen_within_gaps (s : LState) (n : Nat) (b : Bool) : LState :=
  let i := { s.info n with is_fullscreen_within_gaps := b }
  let i2 := if b then { i with is_fullscreen := false } else i
  { s with info := updMap s.info n i2 }

/-- `Layout::toggle_fullscreen`: invert the flag; when it becomes set,
clear `is_fullscreen_within_gaps`.  Returns the new flag value. -/
def LState.toggle_fullscreen (s : LState) (n : Nat) : Bool × LState :=
  let b := ! (s.info n).is_fullscreen
  let i := { s.info n with is_fullscreen := b }
  let i2 := if b then { i with is_fullscreen_within_gaps := false } else i
  (b, { s with info := updMap s.info n i2 })

/-- `Layout::toggle_fullscreen_within_gaps`: invert the flag; when it
becomes set, clear `is_fullscreen`.  Returns the new flag value. -/
def LState.toggle_fullscreen_within_gaps (s : LState) (n : Nat) : Bool × LState :=
  let b := ! (s.info n).is_fullscreen_within_gaps
  let i := { s.info n with is_fullscreen_within_gaps := b }
  let i2 := if b then { i with is_fullscreen := false } else i
  (b, { s with info := updMap s.info n i2 })

/-- `Layout::is_effectively_fullscreen`. -/
def LState.is_effectively_fullscreen (s : LState) (n : Nat) : Bool :=
  (s.info n).is_fullscreen || (s.info n).is_fullscreen_within_gaps

/-- `Window::at`. -/
def LState.window_at (s : LState) (n : Nat) : Option Nat :=
  s.windows n

/-- `Window::node_for`: the node bound to the window id within the
given layout. -/
def LState.node_for (s : LState) (layout wid : Nat) : Option Nat :=
  ((s.windowNodes wid).find? (fun pr => pr.1 = layout)).map (·.2)

/-- `Window::set_window`: bind the node (asserted fresh in the source)
and append to the reverse index. -/
def LState.set_window (s : LState) (layout n wid : Nat) : LState :=
  { s with
    windows := updMap s.windows n (some wid)
    windowNodes := updMap s.windowNodes wid (s.windowNodes wid ++ [(layout, n)]) }

/-- A fresh layout as produced by `create_layout`: a root node with no
children and default component entries (`AddedToForest` gives the root
the default layout info). -/
def initState : LState :=
  { tree := .node 0 []
    sel := fun _ => none
    info := fun _ => LayoutInfo.default
    windows := fun _ => none
    windowNodes := fun _ => []
    nextId := 1 }

/-- First-some choice on options (`Option::or`). -/
def optOr (a b : Option Nat) : Option Nat :=
  match a with
  | some v => some v
  | none => b

/-- Local selection read directly off the selection table (the map
argument of the source is only used for a debug assertion). -/
def localSelOf (sel : Nat → Option SelInfo) (i : Nat) : Option Nat :=
  match sel i with
  | none => none
  | some si => if si.stop_here then none else some si.selected_child

/-- One iteration list of `visible_windows_under_internal`: an explicit
stack (top at the head) driven by fuel; groups only reveal their
locally selected child. -/
def visLoop (s : LState) : Nat → List Nat → List Nat → List Nat
  | 0, _, acc => acc
  | _ + 1, [], acc => acc
  | fuel + 1, top :: rest, acc =>
    let ext : List Nat :=
      if (s.info top).kind.is_group then
        match localSelOf s.sel top with
        | some c => [c]
        | none => []
      else s.tree.childIds top
    let acc2 := acc ++ (match s.windows top with | some w => [w] | none => [])
    visLoop s fuel (ext.reverse ++ rest) acc2

/-- `visible_windows_under_internal`: windows reachable under a node,
descending only into the selected member of stacked containers. -/
def LState.visible_windows_under (s : LState) (n : Nat) : List Nat :=
  visLoop s (s.tree.nodeCount + 1) [n] []

/-- `move_over`: step to the adjacent sibling when the parent's
orientation matches the direction. -/
def LState.move_over (s : LState) (x : Nat) (d : Direction) : Option Nat :=
  match s.tree.parentOf x with
  | none => none
  | some p =>
    if (s.info p).kind.orientation = d.orientation then
      match d with
      | .left | .up => s.tree.prevSibling x
      | .right | .down => s.tree.nextSibling x
    else none

mutual

/-- `descend_into_target`: walk down from a traversal target using the
direction-biased child choice of the source (locally selected child
first; otherwise first/last child along the direction; stacks descend
into the selected or first child). -/
def descendT (sel : Nat → Option SelInfo) (info : Nat → LayoutInfo)
    (d : Direction) : LTree → Option Nat
  | .node i cs =>
    if cs.isEmpty then some i
    else
      let kind := (info i).kind
      let ls := localSelOf sel i
      let step1 : Option Nat :=
        match ls with
        | some selected =>
          match kind, d with
          | .horizontal, .up | .horizontal, .down
          | .vertical, .left | .vertical, .right => some selected
          | _, _ => if kind.is_stacked then some selected else none
        | none => none
      match step1 with
      | some selected => descendL sel info d selected i cs
      | none =>
        let firstId := (cs.map LTree.topId).head?
        let lastId := (cs.map LTree.topId).getLast?
        let next_child : Option Nat :=
          match kind, d with
          | .horizontal, .left => optOr ls firstId
          | .horizontal, .right => optOr ls lastId
          | .horizontal, .up => optOr ls firstId
          | .horizontal, .down => optOr ls lastId
          | .vertical, .up => optOr ls firstId
          | .vertical, .down => optOr ls lastId
          | .vertical, .left => optOr ls firstId
          | .vertical, .right => optOr ls lastId
          | _, _ => optOr ls firstId
        match next_child with
        | none => some i
        | some cid => descendL sel info d cid i cs

/-- Continue the descent in the child subtree with the chosen id; the
source jumps by id, which coincides with this structural walk because
selected children are children of their key node. -/
def descendL (sel : Nat → Option SelInfo) (info : Nat → LayoutInfo)
    (d : Direction) (cid fallback : Nat) : List LTree → Option Nat
  | [] => some fallback
  | t :: ts =>
    if t.topId = cid then descendT sel info d t
    else descendL sel info d cid fallback ts

end

mutual

/-- `find_best_focus_target`: the bound window here, or the first
window found under the locally selected child, or under any child in
order. -/
def fbft (windows : Nat → Option Nat) (sel : Nat → Option SelInfo) :
    LTree → Option (Nat × Nat)
  | .node i cs =>
    match windows i with
    | some wid => some (i, wid)
    | none =>
      if cs.isEmpty then none
      else
        let viaSel :=
          match localSelOf sel i with
          | some c => fbftAt windows sel c cs
          | none => none
        match viaSel with
        | some r => some r
        | none => fbftL windows sel cs

/-- Recurse into the child with the given id. -/
def fbftAt (windows : Nat → Option Nat) (sel : Nat → Option SelInfo)
    (cid : Nat) : List LTree → Option (Nat × Nat)
  | [] => none
  | t :: ts =>
    if t.topId = cid then fbft windows sel t
    else fbftAt windows sel cid ts

/-- Try every child in order. -/
def fbftL (windows : Nat → Option Nat) (sel : Nat → Option SelInfo) :
    List LTree → Option (Nat × Nat)
  | [] => none
  | t :: ts =>
    match fbft windows sel t with
    | some r => some r
    | none => fbftL windows sel ts

end

/-- `traverse_internal`: a sibling step, or else the first ancestor
with a sibling step, descended into with the direction bias. -/
def LState.traverse_internal (s : LState) (x : Nat) (d : Direction) :
    Option Nat :=
  match s.move_over x d with
  | some sib => some sib
  | none =>
    (((s.tree.ancestors x).drop 1).findSome?
      (fun a =>
        match s.move_over a d with
        | some target =>
          some (match s.tree.findSub target with
                | some sub => descendT s.sel s.info d sub
                | none => none)
        | none => none)).join

/-- `ancestors_with_parent`: each ancestor paired with its parent
(`none` for the root). -/
def awpPairs : List Nat → List (Nat × Option Nat)
  | [] => []
  | a :: rest => (a, rest.head?) :: awpPairs rest

/-- The ancestor re-selection loop of `move_focus`: skip levels whose
parent is a stack of mismatched orientation; locally re-select the
others, tracking the highest revealed group member. -/
def mfLoop (d : Direction) : List (Nat × Option Nat) → LState → Nat →
    LState × Nat
  | [], s, hi => (s, hi)
  | (node, po) :: rest, s, hi =>
    match po with
    | none => (s, hi)
    | some parent =>
      let pk := (s.info parent).kind
      if pk.is_stacked && (pk.orientation != d.orientation) then
        mfLoop d rest s hi
      else
        let (changed, s2) := s.select_locally node
        let hi2 := if changed && pk.is_group then node else hi
        mfLoop d rest s2 hi2

/-- `move_focus`: clear the range on the selection, traverse, pick the
best focus target, re-select the ancestor path and return the focus
window together with the windows to raise. -/
def LState.move_focus (s : LState) (d : Direction) :
    (Option Nat × List Nat) × LState :=
  let sel0 := s.current_selection
  let s1 := s.clear_range sel0
  match s1.traverse_internal sel0 d with
  | none => ((none, []), s1)
  | some newNode =>
    let ft :=
      match s1.tree.findSub newNode with
      | some sub => fbft s1.windows s1.sel sub
      | none => none
    match ft with
    | none => ((none, []), s1)
    | some (focusNode, focusWindow) =>
      let pairs := awpPairs (s1.tree.ancestors focusNode)
      let (s2, hi) := mfLoop d pairs s1 focusNode
      ((some focusWindow, s2.visible_windows_under hi), s2)

/-- `move_focus_level_restricted`: only a direct sibling step; select
it and report it when it is a window. -/
def LState.move_focus_level_restricted (s : LState) (d : Direction) :
    (Option Nat × List Nat) × LState :=
  let sel0 := s.current_selection
  let s1 := s.clear_range sel0
  match s1.move_over sel0 d with
  | some sibling =>
    let s2 := s1.select sibling
    let raise := s2.visible_windows_under sibling
    match s2.windows sibling with
    | some w => ((some w, raise), s2)
    | none => ((none, raise), s2)
  | none => ((none, []), s1)

/-- `next_sibling_window`: select the next sibling, wrapping to the
first child. -/
def LState.next_sibling_window (s : LState) :
    (Option Nat × List Nat) × LState :=
  let sel0 := s.current_selection
  let s1 := s.clear_range sel0
  match s1.tree.nextSibling sel0 with
  | some nxt =>
    let s2 := s1.select nxt
    let raise := s2.visible_windows_under nxt
    match s2.windows nxt with
    | some w => ((some w, raise), s2)
    | none => ((none, raise), s2)
  | none =>
    match s1.tree.parentOf sel0 with
    | some parent =>
      match s1.tree.firstChild parent with
      | some fc =>
        if fc ≠ sel0 then
          let s2 := s1.select fc
          let raise := s2.visible_windows_under fc
          match s2.windows fc with
          | some w => ((some w, raise), s2)
          | none => ((none, raise), s2)
        else ((none, []), s1)
      | none => ((none, []), s1)
    | none => ((none, []), s1)

/-- `prev_sibling_window`: select the previous sibling, wrapping to
the last child. -/
def LState.prev_sibling_window (s : LState) :
    (Option Nat × List Nat) × LState :=
  let sel0 := s.current_selection
  let s1 := s.clear_range sel0
  match s1.tree.prevSibling sel0 with
  | some prv =>
    let s2 := s1.select prv
    let raise := s2.visible_windows_under prv
    match s2.windows prv with
    | some w => ((some w, raise), s2)
    | none => ((none, raise), s2)
  | none =>
    match s1.tree.parentOf sel0 with
    | some parent =>
      match s1.tree.lastChild parent with
      | some lc =>
        if lc ≠ sel0 then
          let s2 := s1.select lc
          let raise := s2.visible_windows_under lc
          match s2.windows lc with
          | some w => ((some w, raise), s2)
          | none => ((none, raise), s2)
        else ((none, []), s1)
      | none => ((none, []), s1)
    | none => ((none, []), s1)

/-- `ascend_selection`: clear the range, then select the parent when
there is one. -/
def LState.ascend_selection (s : LState) : Bool × LState :=
  let sel0 := s.current_selection
  let s1 := s.clear_range sel0
  match s1.tree.parentOf sel0 with
  | some p => (true, s1.select p)
  | none => (false, s1)

/-- `descend_selection`: clear the range, then select the last
selection within the container, or its first child. -/
def LState.descend_selection (s : LState) : Bool × LState :=
  let sel0 := s.current_selection
  let s1 := s.clear_range sel0
  match s1.last_selection sel0 with
  | some child => (true, s1.select child)
  | none =>
    match s1.tree.firstChild sel0 with
    | some fc => (true, s1.select fc)
    | none => (false, s1)

mutual

/-- `window_in_direction_from`: the bound window at the node, else the
first window found in the children, in reverse order for `Left` and
`Up`. -/
def widf (windows : Nat → Option Nat) (d : Direction) : LTree → Option Nat
  | .node i cs =>
    match windows i with
    | some w => some w
    | none =>
      match d with
      | .right | .down => widfL windows d cs
      | .left | .up => widfR windows d cs

/-- Children scan in list order. -/
def widfL (windows : Nat → Option Nat) (d : Direction) :
    List LTree → Option Nat
  | [] => none
  | t :: ts =>
    match widf windows d t with
    | some w => some w
    | none => widfL windows d ts

/-- Children scan in reversed list order (the source's
`children.reverse()`). -/
def widfR (windows : Nat → Option Nat) (d : Direction) :
    List LTree → Option Nat
  | [] => none
  | t :: ts =>
    match widfR windows d ts with
    | some w => some w
    | none => widf windows d t

end

/-- `window_in_direction`: the directional probe started at the root. -/
def LState.window_in_direction (s : LState) (d : Direction) : Option Nat :=
  widf s.windows d s.tree

/-- `nest_in_container_internal`: wrap a node in a fresh container of
the given kind (re-using and re-tagging the parent when the node is an
only child; wrapping the root replaces the layout root). -/
def LState.nest_in_container_internal (s : LState) (node : Nat)
    (kind : LayoutKind) : Nat × LState :=
  let old_parent := s.tree.parentOf node
  if (s.tree.prevSibling node).isNone && (s.tree.nextSibling node).isNone
      && old_parent.isSome then
    match old_parent with
    | some op => (op, s.set_kind op kind)
    | none => (node, s)
  else
    match old_parent with
    | some op =>
      let is_selection := decide (s.local_selection op = some node)
      let (newParent, s1) := mkNodeAttach s (.beforeSib node)
      let s2 := s1.assume_size_of newParent node
      let s3 := moveNode s2 node (.intoParent newParent)
      let s4 := if is_selection then (s3.select_locally newParent).2 else s3
      let s5 := (s4.select_locally node).2
      (newParent, s5.set_kind newParent kind)
    | none =>
      let x := s.nextId
      let s1 := fireAddedToForest { s with nextId := x + 1 } x
      let oldRootId := s1.tree.topId
      let s2 := { s1 with tree := .node x [s1.tree] }
      let s3 := fireAddedToParent s2 oldRootId
      let s4 := (s3.select_locally node).2
      (x, s4.set_kind x kind)

/-- `add_window_under`: a fresh leaf pushed under the parent, bound to
the window. -/
def LState.add_window_under (s : LState) (layout parent wid : Nat) :
    Nat × LState :=
  let (node, s1) := mkNodeAttach s (.intoParent parent)
  (node, s1.set_window layout node wid)

/-- `smart_window_insertion`: with a crowded (≥ 4 children) non-stack
parent, wrap the selection in a sub-container of the parent's kind and
add the window inside it; otherwise insert directly after the
selection. -/
def LState.smart_window_insertion (s : LState) (layout sel0 wid : Nat) :
    Nat × LState :=
  match s.tree.parentOf sel0 with
  | some p =>
    let pk := (s.info p).kind
    let cnt := (s.tree.childIds p).length
    if 4 ≤ cnt && !pk.is_group then
      let (subContainer, s1) := s.nest_in_container_internal sel0 pk
      let (node, s2) := mkNodeAttach s1 (.intoParent subContainer)
      (node, s2.set_window layout node wid)
    else
      let (node, s1) := mkNodeAttach s (.afterSib sel0)
      (node, s1.set_window layout node wid)
  | none =>
    let (node, s1) := mkNodeAttach s (.afterSib sel0)
    (node, s1.set_window layout node wid)

/-- `add_window_after_selection`: insert via the smart policy (or
under a parentless selection) and select the new node. -/
def LState.add_window_after_selection (s : LState) (layout wid : Nat) :
    LState :=
  let sel0 := s.current_selection
  let (node, s1) :=
    if (s.tree.parentOf sel0).isNone then s.add_window_under layout sel0 wid
    else s.smart_window_insertion layout sel0 wid
  s1.select node

/-- The kind-toggle table of `apply_stacking_to_parent_of_selection`:
stacked kinds flip orientation; unstacked kinds become the stacked kind
chosen by the requested orientation. -/
def stackToggleKind (k : LayoutKind) (orient : StackDefaultOrientation) :
    LayoutKind :=
  match k, orient with
  | .horizontalStack, _ => .verticalStack
  | .verticalStack, _ => .horizontalStack
  | .horizontal, .perpendicular => .verticalStack
  | .horizontal, .same => .horizontalStack
  | .horizontal, .horizontal => .horizontalStack
  | .horizontal, .vertical => .verticalStack
  | .vertical, .perpendicular => .horizontalStack
  | .vertical, .same => .verticalStack
  | .vertical, .horizontal => .horizontalStack
  | .vertical, .vertical => .verticalStack

/-- `apply_stacking_to_parent_of_selection`: toggle the kind of the
selection's target container towards a stacked kind (the source's
`new_layout` is `Some` in every branch); when the new kind is stacked,
select the container's first child; return the windows to raise. -/
def LState.apply_stacking_to_parent_of_selection (s : LState)
    (orient : StackDefaultOrientation) : List Nat × LState :=
  let sel0 := s.current_selection
  let target : Option Nat :=
    if (s.windows sel0).isSome then s.tree.parentOf sel0 else some sel0
  match target with
  | some container =>
    let nl := stackToggleKind (s.info container).kind orient
    let s1 := s.set_kind container nl
    let s2 :=
      if nl.is_stacked then
        match s1.tree.firstChild container with
        | some fc => s1.select fc
        | none => s1
      else s1
    (s2.visible_windows_under container, s2)
  | none => ([], s)

/-- `swap_windows`: exchange the bindings of the two nodes resolved in
the layout; fail (unchanged) when either window does not resolve or
both resolve to the same node. -/
def LState.swap_windows (s : LState) (layout a b : Nat) : Bool × LState :=
  match s.node_for layout a with
  | none => (false, s)
  | some na =>
    match s.node_for layout b with
    | none => (false, s)
    | some nb =>
      if na = nb then (false, s)
      else
        let wa := s.windows na
        let wb := s.windows nb
        match wa, wb with
        | none, none => (false, s)
        | _, _ =>
          let w1 :=
            match wa with
            | some w => updMap s.windows nb (some w)
            | none => updMap s.windows nb none
          let w2 :=
            match wb with
            | some w => updMap w1 na (some w)
            | none => updMap w1 na none
          let wn1 := updMap s.windowNodes a
            ((s.windowNodes a).map (fun pr => if pr.1 = layout then (pr.1, nb) else pr))
          let wn2 := updMap wn1 b
            ((wn1 b).map (fun pr => if pr.1 = layout then (pr.1, na) else pr))
          (true, { s with windows := w2, windowNodes := wn2 })

/-- The siblings strictly after `x` in order. -/
def listAfter (x : Nat) (l : List Nat) : List Nat :=
  (l.dropWhile (fun a => a ≠ x)).drop 1

/-- The siblings strictly before `x` in order. -/
def listBefore (x : Nat) (l : List Nat) : List Nat :=
  l.takeWhile (fun a => a ≠ x)

/-- `remove_unnecessary_container_internal`: a container with at most
one child is dissolved, promoting the child to the container's parent
(a parentless container's child is deleted, as the source warns). -/
def LState.remove_unnecessary_container_internal (s : LState)
    (container : Nat) : LState :=
  let children := s.tree.childIds container
  if children.length ≤ 1 then
    let parent := s.tree.parentOf container
    let s1 := children.foldl
      (fun st child =>
        match parent with
        | some p => moveNode st child (.intoParent p)
        | none => removeSub st child (st.tree.nodeCount + 1)) s
    removeSub s1 container (s1.tree.nodeCount + 1)
  else s

/-- `move_selection_to_sibling_next`: push the selection into the
nearest sibling container (forward first, then backward), keep it
selected, and clean up the vacated parent — collapsing it only when it
has a parent of its own. -/
def LState.move_selection_to_sibling_next (s : LState) : Bool × LState :=
  let sel0 := s.current_selection
  match s.tree.parentOf sel0 with
  | none => (false, s)
  | some parent =>
    let isContainer := fun n =>
      (s.tree.firstChild n).isSome && (s.windows n).isNone
    let target :=
      match (listAfter sel0 (s.tree.childIds parent)).find? isContainer with
      | some t => some t
      | none =>
        (listBefore sel0 (s.tree.childIds parent)).reverse.find? isContainer
    match target with
    | none => (false, s)
    | some sib =>
      let was := decide (s.local_selection parent = some sel0)
      let s1 := moveNode s sel0 (.intoParent sib)
      let s2 := if was then s1.select sel0 else s1
      let cnt := (s2.tree.childIds parent).length
      let s3 :=
        if cnt = 1 then
          if (s2.tree.parentOf parent).isSome then
            s2.remove_unnecessary_container_internal parent
          else s2
        else if cnt = 0 then removeSub s2 parent (s2.tree.nodeCount + 1)
        else s2
      (true, s3)

/-- `select_window`: select the node bound to the window in the
layout. -/
def LState.select_window (s : LState) (layout wid : Nat) : Bool × LState :=
  match s.node_for layout wid with
  | some n => (true, s.select n)
  | none => (false, s)

/-- `increase_selection_right`: extend (or start) the range by the
next sibling of its end. -/
def LState.increase_selection_right (s : LState) : Bool × LState :=
  let sel0 := s.current_selection
  let pr :=
    match s.get_range sel0 with
    | some p => p
    | none => (sel0, sel0)
  match s.tree.nextSibling pr.2 with
  | some nxt => (true, s.set_range sel0 pr.1 nxt)
  | none => (false, s)

/-- `toggle_fullscreen_of_selection`. -/
def LState.toggle_fullscreen_of_selection (s : LState) : List Nat × LState :=
  let n := s.current_selection
  let (b, s1) := s.toggle_fullscreen n
  if b then (s1.visible_windows_under n, s1) else ([], s1)

/-- `toggle_fullscreen_within_gaps_of_selection`. -/
def LState.toggle_fullscreen_within_gaps_of_selection (s : LState) :
    List Nat × LState :=
  let n := s.current_selection
  let (b, s1) := s.toggle_fullscreen_within_gaps n
  if b then (s1.visible_windows_under n, s1) else ([], s1)

/-- Rounding of a scalar to the nearest integer (half rounds up). -/
def roundQ (x : ℚ) : ℚ := ((⌊x + 1/2⌋ : ℤ) : ℚ)

/-- Modelled from the spec: the `Round` impl for rects lives in
`sys::geometry`, which is not among the sources; "Round results" is
modelled as snapping the rect's edges to the nearest integral pixel
boundaries. -/
def Rect.round (r : Rect) : Rect :=
  let x0 := roundQ r.x
  let y0 := roundQ r.y
  { x := x0, y := y0
    w := roundQ (r.x + r.w) - x0
    h := roundQ (r.y + r.h) - y0 }

/-- `StackLayoutResult` of `traditional.rs`. -/
structure StackLayoutResult where
  container_rect : Rect
  stack_offset : ℚ
  is_horizontal : Bool
  window_width : ℚ
  window_height : ℚ
deriving DecidableEq, Repr

/-- `StackLayoutResult::new`: reserve `(n-1) · stack_offset` of title
strip room along the stack axis, with both window dimensions clamped
below by `100.0`. -/
def StackLayoutResult.new (container_rect : Rect) (window_count : Nat)
    (stack_offset : ℚ) (is_horizontal : Bool) : StackLayoutResult :=
  let total_offset_space : ℚ :=
    if 0 < window_count then ((window_count - 1 : ℕ) : ℚ) * stack_offset else 0
  let ww : ℚ :=
    if is_horizontal then max (container_rect.w - total_offset_space) 100
    else max container_rect.w 100
  let wh : ℚ :=
    if is_horizontal then max container_rect.h 100
    else max (container_rect.h - total_offset_space) 100
  { container_rect := container_rect, stack_offset := stack_offset
    is_horizontal := is_horizontal, window_width := ww, window_height := wh }

/-- `StackLayoutResult::get_frame_for_index`: the plain (non-focused)
frame of the child at the index. -/
def StackLayoutResult.get_frame_for_index (l : StackLayoutResult)
    (index : Nat) : Rect :=
  let offset_amount : ℚ := (index : ℚ) * l.stack_offset
  let xo := if l.is_horizontal then offset_amount else 0
  let yo := if l.is_horizontal then 0 else offset_amount
  Rect.round
    { x := l.container_rect.x + xo, y := l.container_rect.y + yo
      w := l.window_width, h := l.window_height }

/-- `StackLayoutResult::get_focused_frame_for_index`: the enlarged,
slightly inset pop-out frame of the focused child, clamped to the
container. -/
def StackLayoutResult.get_focused_frame_for_index (l : StackLayoutResult)
    (index _focused_idx : Nat) : Rect :=
  let focus_size_increase : ℚ := 10
  let focus_offset_decrease : ℚ := 5
  let offset_amount : ℚ := (index : ℚ) * l.stack_offset
  let c := l.container_rect
  let origin_x :=
    if l.is_horizontal then
      (if index = 0 then c.x else c.x + offset_amount - focus_offset_decrease)
    else c.x - focus_offset_decrease
  let origin_y :=
    if l.is_horizontal then c.y - focus_offset_decrease
    else (if index = 0 then c.y else c.y + offset_amount - focus_offset_decrease)
  let width := min (l.window_width + focus_size_increase) c.w
  let height := min (l.window_height + focus_size_increase) c.h
  let min_x := c.x
  let max_x := max (c.x + c.w - width) min_x
  let min_y := c.y
  let max_y := max (c.y + c.h - height) min_y
  let x := min (max origin_x min_x) max_x
  let y := min (max origin_y min_y) max_y
  Rect.round { x := x, y := y, w := width, h := height }

/-- `adjust_stack_container_rect`: reserve the stack hairline along
the non-stack axis on the configured side. -/
def adjust_stack_container_rect (container : Rect) (is_horizontal : Bool)
    (reserve : ℚ) (hplace : HorizontalPlacement) (vplace : VerticalPlacement) :
    Rect :=
  if reserve ≤ 0 then container
  else if is_horizontal then
    let new_h := max (container.h - reserve) 0
    let y2 := if hplace = .top then container.y + reserve else container.y
    { container with y := y2, h := new_h }
  else
    let new_w := max (container.w - reserve) 0
    let x2 := if vplace = .leftSide then container.x + reserve else container.x
    { container with x := x2, w := new_w }

mutual

/-- `Layout::is_focused_in_subtree`: a bound node with a parent is
focused exactly when it is its parent's first child; otherwise search
the children.  `g` is the whole tree (for parent lookups). -/
def isFocusedIn (g : LTree) (windows : Nat → Option Nat) : LTree → Bool
  | .node i cs =>
    match windows i with
    | some _ =>
      match g.parentOf i with
      | some p => decide (g.firstChild p = some i)
      | none => isFocusedInL g windows cs
    | none => isFocusedInL g windows cs

/-- Children search for `is_focused_in_subtree`. -/
def isFocusedInL (g : LTree) (windows : Nat → Option Nat) : List LTree → Bool
  | [] => false
  | t :: ts => isFocusedIn g windows t || isFocusedInL g windows ts

end

/-- The read-only inputs of the geometry walk. -/
structure GeoParams where
  tree : LTree
  windows : Nat → Option Nat
  info : Nat → LayoutInfo
  screen : Rect
  stack_offset : ℚ
  gaps : GapSettings
  stack_line_thickness : ℚ
  hplace : HorizontalPlacement
  vplace : VerticalPlacement

mutual

/-- `Layout::apply_with_gaps`: compute each bound window's frame.  A
fullscreen node takes the screen, a within-gaps fullscreen node the
tiling area; a bound node emits its rect; containers recurse per
kind. -/
def apply_with_gaps (P : GeoParams) : LTree → Rect → List (Nat × Rect)
  | .node i cs, rect0 =>
    let inf := P.info i
    let rect :=
      if inf.is_fullscreen then P.screen
      else if inf.is_fullscreen_within_gaps then
        compute_tiling_area P.screen P.gaps
      else rect0
    match P.windows i with
    | some wid => [(wid, rect)]
    | none =>
      match inf.kind with
      | .horizontalStack | .verticalStack =>
        if cs.isEmpty then []
        else
          let is_horizontal := decide (inf.kind = .horizontalStack)
          let reserve := max P.stack_line_thickness 0
          let container_rect :=
            adjust_stack_container_rect rect is_horizontal reserve P.hplace P.vplace
          let lay :=
            StackLayoutResult.new container_rect cs.length P.stack_offset is_horizontal
          let focused_idx :=
            (cs.findIdx? (fun c => isFocusedIn P.tree P.windows c)).getD 0
          stack_children P lay focused_idx 0 cs
      | .horizontal => layout_axis P i cs rect true
      | .vertical => layout_axis P i cs rect false
termination_by t _ => (sizeOf t, 1)

/-- `Layout::layout_axis` for the container with id `i` and children
`cs` (the source passes the node; the id and children carry the same
data here).  Repairs drifted or overly small child sizes by resetting
every share to `1.0` with `total` equal to the child count, then
apportions the axis.  The source performs the repair by writing
through the size table; the claims do not concern that persistence, so
the repaired sizes are used functionally. -/
def layout_axis (P : GeoParams) (i : Nat) (cs : List LTree) (rect : Rect)
    (horizontal : Bool) : List (Nat × Rect) :=
  if cs.isEmpty then []
  else
    let min_size : ℚ := 1/20
    let expected_total : ℚ := (cs.length : ℚ)
    let actual_total : ℚ := (cs.map (fun c => (P.info c.topId).size)).sum
    let needs_normalization :=
      cs.any (fun c => decide ((P.info c.topId).size < min_size))
    let cond := decide (|actual_total - expected_total| > 1/100) || needs_normalization
    let szOf : LTree → ℚ :=
      if cond then fun _ => 1 else fun c => (P.info c.topId).size
    let total : ℚ := if cond then (cs.length : ℚ) else (P.info i).total
    let inner_gap := if horizontal then P.gaps.innerH else P.gaps.innerV
    let axis_len := if horizontal then rect.w else rect.h
    let total_gap := ((cs.length - 1 : ℕ) : ℚ) * inner_gap
    let usable_axis := if inner_gap = 0 then axis_len else max (axis_len - total_gap) 0
    let start_off := if horizontal then rect.x else rect.y
    axis_children P szOf total inner_gap usable_axis horizontal rect start_off cs
termination_by (sizeOf cs, 1)

/-- The child loop of `layout_axis`: carve `usable · size/total` long
segments along the axis, rounding each child rect, with an inner gap
between consecutive children. -/
def axis_children (P : GeoParams) (szOf : LTree → ℚ)
    (total inner_gap usable : ℚ) (horizontal : Bool) (rect : Rect) :
    ℚ → List LTree → List (Nat × Rect)
  | _, [] => []
  | offset, c :: rest =>
    let seg := usable * (szOf c / total)
    let child_rect := Rect.round
      (if horizontal then { x := offset, y := rect.y, w := seg, h := rect.h }
       else { x := rect.x, y := offset, w := rect.w, h := seg })
    apply_with_gaps P c child_rect ++
      axis_children P szOf total inner_gap usable horizontal rect
        (offset + seg + (if rest.isEmpty then 0 else inner_gap)) rest
termination_by _ l => (sizeOf l, 0)

/-- The child loop of the stack case: the focused child takes the
pop-out frame, the others their plain stacked frames. -/
def stack_children (P : GeoParams) (lay : StackLayoutResult)
    (focused_idx : Nat) : Nat → List LTree → List (Nat × Rect)
  | _, [] => []
  | idx, c :: rest =>
    let frame :=
      if idx = focused_idx then lay.get_focused_frame_for_index idx focused_idx
      else lay.get_frame_for_index idx
    apply_with_gaps P c frame ++ stack_children P lay focused_idx (idx + 1) rest
termination_by _ l => (sizeOf l, 0)

end

/-- `calculate_layout`: run the geometry walk from the root over the
tiling area. -/
def LState.calculate_layout (s : LState) (screen : Rect) (stack_offset : ℚ)
    (gaps : GapSettings) (stack_line_thickness : ℚ)
    (hplace : HorizontalPlacement) (vplace : VerticalPlacement) :
    List (Nat × Rect) :=
  let P : GeoParams :=
    { tree := s.tree, windows := s.windows, info := s.info
      screen := screen, stack_offset := stack_offset, gaps := gaps
      stack_line_thickness := stack_line_thickness
      hplace := hplace, vplace := vplace }
  apply_with_gaps P s.tree (compute_tiling_area screen gaps)

/-- Containment of `inner` within `outer` (claim P6's "never exceed"). -/
def Rect.containsR (outer inner : Rect) : Prop :=
  outer.x ≤ inner.x ∧ inner.x + inner.w ≤ outer.x + outer.w ∧
  outer.y ≤ inner.y ∧ inner.y + inner.h ≤ outer.y + outer.h

instance (outer inner : Rect) : Decidable (Rect.containsR outer inner) := by
  unfold Rect.containsR; infer_instance

/-- A layout with two windows `11` and `12` added after the selection. -/
def exTwoWin : LState :=
  (initState.add_window_after_selection 0 11).add_window_after_selection 0 12

/-- The two-window layout after one `apply_stacking_to_parent_of_selection`
with `Perpendicular`: the root container becomes a vertical stack. -/
def exStacked : LState :=
  (exTwoWin.apply_stacking_to_parent_of_selection .perpendicular).2

/-- The same layout after a second application. -/
def exStackedTwice : LState :=
  (exStacked.apply_stacking_to_parent_of_selection .perpendicular).2

/-- Five windows added after the selection; the fifth insertion wraps
the selection in a sub-container (smart insertion), giving the tree
`root [1, 2, 3, K]` with `K = node 5 [4, 6]`. -/
def exFive : LState :=
  ((((initState.add_window_after_selection 0 21).add_window_after_selection 0 22
    ).add_window_after_selection 0 23).add_window_after_selection 0 24
    ).add_window_after_selection 0 25

/-- `exFive` with the sub-container stacked (selects its first child). -/
def exFiveStacked : LState :=
  (exFive.apply_stacking_to_parent_of_selection .perpendicular).2

/-- `exFiveStacked` with a selection range `(4, 6)` recorded on the
stacked sub-container. -/
def exFiveRanged : LState :=
  exFiveStacked.increase_selection_right |>.2

/-- `exFiveRanged` with window `23` (a sibling of the stacked
container) selected; the range on the stack remains recorded. -/
def exFiveSelW3 : LState :=
  (exFiveRanged.select_window 0 23).2

/-- `exFiveSelW3` after `move_focus Right`: the focus walks into the
stacked container, whose level is skipped by the ancestor re-selection
loop. -/
def exFiveMoved : LState :=
  (exFiveSelW3.move_focus .right).2

/-- C9: the directional probe ignores container orientations; `Right`
and `Down` take the same path. -/
theorem widf_right_eq_down (w : Nat → Option Nat) (t : LTree) :
    widf w .right t = widf w .down t := by
  refine LTree.rec (motive_1 := fun t => widf w .right t = widf w .down t)
    (motive_2 := fun cs => widfL w .right cs = widfL w .down cs) ?_ ?_ ?_ t
  · intro i cs ih
    simp only [widf]
    cases w i
    · simpa using ih
    · rfl
  · rfl
  · intro t ts iht ihts
    simp only [widfL]
    rw [iht, ihts]

/-- C9: `Left` and `Up` take the same path. -/
theorem widf_left_eq_up (w : Nat → Option Nat) (t : LTree) :
    widf w .left t = widf w .up t := by
  refine LTree.rec (motive_1 := fun t => widf w .left t = widf w .up t)
    (motive_2 := fun cs => widfR w .left cs = widfR w .up cs) ?_ ?_ ?_ t
  · intro i cs ih
    simp only [widf]
    cases w i
    · simpa using ih
    · rfl
  · rfl
  · intro t ts iht ihts
    simp only [widfR]
    rw [iht, ihts]

/-- C9: `window_in_direction` depends only on whether the direction is
forward (`Right`/`Down`) or backward (`Left`/`Up`): for every state,
`window_in_direction Right = window_in_direction Down` and
`window_in_direction Left = window_in_direction Up`. -/
theorem C9_window_in_direction_orientation_blind (s : LState) :
    s.window_in_direction .right = s.window_in_direction .down ∧
    s.window_in_direction .left = s.window_in_direction .up :=
  ⟨widf_right_eq_down s.windows s.tree, widf_left_eq_up s.windows s.tree⟩

/-- C2 counterexample: on a fresh horizontal root holding two windows,
`apply_stacking_to_parent_of_selection` twice with `Perpendicular`
ends on `HorizontalStack`, not on the original `Horizontal`: the
second call finds a stacked container and toggles its stack
orientation instead of unstacking. -/
theorem C2_counterexample :
    (exTwoWin.windows exTwoWin.current_selection).isSome = true
    ∧ exTwoWin.tree.parentOf exTwoWin.current_selection = some 0
    ∧ (exTwoWin.info 0).kind = .horizontal
    ∧ (exStacked.info 0).kind = .verticalStack
    ∧ (exStackedTwice.info 0).kind = .horizontalStack
    ∧ ¬ (exStackedTwice.info 0).kind = .horizontal := by decide

/-- C7 counterexample: after setting a range inside a stacked
container, selecting a window outside it and calling
`move_focus Right`, the effective selection is the stack's selected
child and `get_range` on it still returns the old range: `move_focus`
skips re-selecting (and never clears) entries of stacked ancestors
with mismatched orientation. -/
theorem C7_counterexample :
    exFiveMoved.current_selection = 4
    ∧ exFiveMoved.get_range exFiveMoved.current_selection = some (4, 6) := by
  decide

/-- C1 counterexample: on the stacked two-window layout, with a 50×50
screen, zero gaps and stack offset 10, `calculate_layout` emits the
frame `(0, 10, 100, 100)` for window 12 — although no node is
fullscreen in any way — and that frame is not contained in the screen
(the stack layout clamps window dimensions below by `100.0`). -/
theorem C1_counterexample :
    exStacked.calculate_layout ⟨0,0,50,50⟩ 10 ⟨0,0,0,0⟩ 0 .top .leftSide
      = [(11, ⟨0,0,50,50⟩), (12, ⟨0,10,100,100⟩)]
    ∧ exStacked.windows 2 = some 12
    ∧ (∀ n, (exStacked.info n).is_fullscreen = false
        ∧ (exStacked.info n).is_fullscreen_within_gaps = false)
    ∧ ¬ Rect.containsR ⟨0,0,50,50⟩ ⟨0,10,100,100⟩ := by
  refine ⟨?_, by decide, ?_, ?_⟩
  · norm_num [exStacked, exTwoWin, initState, LState.add_window_after_selection,
      LState.apply_stacking_to_parent_of_selection, stackToggleKind, LState.current_selection,
      LState.smart_window_insertion, LState.add_window_under, LState.set_window,
      LState.select, selUpd, LState.set_kind, LState.calculate_layout, apply_with_gaps,
      stack_children, layout_axis, axis_children, StackLayoutResult.new,
      StackLayoutResult.get_frame_for_index, StackLayoutResult.get_focused_frame_for_index,
      adjust_stack_container_rect, compute_tiling_area, isFocusedIn, isFocusedInL,
      mkNodeAttach, fireAddedToForest, fireAddedToParent, updMap, curSelT, curSelL,
      LTree.parentOf, LTree.parentOfL, LTree.topId, LTree.childList, LTree.pushBack,
      LTree.pushBackL, LTree.insAfter, LTree.insAfterL, LTree.firstChild, LTree.childIds,
      LTree.findSub, LTree.findSubL, LTree.ancestors, LTree.pathTo, LTree.pathToL,
      selectLoop, Rect.round, roundQ, LayoutInfo.default, LTree.nextSibling,
      LTree.prevSibling, listNextAfter, LState.visible_windows_under, visLoop,
      localSelOf, LState.nest_in_container_internal, LState.assume_size_of, moveNode,
      LTree.delSub, LTree.delSubL, LState.select_locally, LState.local_selection,
      LTree.nodeCount, LTree.nodeCountL, LayoutKind.is_stacked, LayoutKind.is_group,
      LayoutKind.orientation, Direction.orientation, List.findIdx?, Option.getD,
      GeoParams.mk.injEq]
    simp
    norm_num
  · intro n
    constructor <;> · simp [exStacked, exTwoWin, initState, LState.add_window_after_selection,
      LState.apply_stacking_to_parent_of_selection, stackToggleKind, LState.current_selection,
      LState.smart_window_insertion, LState.add_window_under, LState.set_window,
      LState.select, selUpd, LState.set_kind, mkNodeAttach, fireAddedToForest, fireAddedToParent,
      updMap, curSelT, curSelL, LTree.parentOf, LTree.parentOfL, LTree.topId,
      LTree.childList, LTree.pushBack, LTree.pushBackL, LTree.insAfter, LTree.insAfterL,
      LTree.firstChild, LTree.childIds, LTree.findSub, LTree.findSubL, LTree.ancestors,
      LTree.pathTo, LTree.pathToL, selectLoop, LayoutInfo.default, LTree.nextSibling,
      LTree.prevSibling, listNextAfter, localSelOf, LState.visible_windows_under, visLoop,
      LState.nest_in_container_internal, LState.assume_size_of, moveNode, LTree.delSub,
      LTree.delSubL, LState.select_locally, LState.local_selection, LayoutKind.is_stacked]
      <;> split_ifs <;> rfl
  · intro h
    rcases h with ⟨_, h2, _, _⟩
    norm_num [Rect.containsR] at h2

/-- C3: whenever the children's size sum drifts from the child count
by more than the tolerance `0.01`, or any child's size is below
`0.05`, `layout_axis` apportions from the normalised sizes: every
child's share is `1.0` and the container total is the child count. -/
theorem C3_layout_axis_normalizes (P : GeoParams) (i : Nat) (cs : List LTree)
    (rect : Rect) (horizontal : Bool)
    (hne : cs ≠ [])
    (hdrift : 1/100 < |((cs.map (fun c => (P.info c.topId).size)).sum - (cs.length : ℚ))|
      ∨ ∃ c ∈ cs, (P.info c.topId).size < 1/20) :
    layout_axis P i cs rect horizontal =
      axis_children P (fun _ => 1) ((cs.length : ℚ))
        (if horizontal then P.gaps.innerH else P.gaps.innerV)
        (if (if horizontal then P.gaps.innerH else P.gaps.innerV) = 0
          then (if horizontal then rect.w else rect.h)
          else max ((if horizontal then rect.w else rect.h) -
            ((cs.length - 1 : ℕ) : ℚ) * (if horizontal then P.gaps.innerH else P.gaps.innerV)) 0)
        horizontal rect (if horizontal then rect.x else rect.y) cs := by
  have hcond : (decide (1/100 < |((cs.map (fun c => (P.info c.topId).size)).sum - (cs.length : ℚ))|)
      || cs.any (fun c => decide ((P.info c.topId).size < 1/20))) = true := by
    simp only [Bool.or_eq_true, decide_eq_true_eq, List.any_eq_true]
    rcases hdrift with h | ⟨c, hc, hlt⟩
    · exact Or.inl h
    · exact Or.inr ⟨c, hc, hlt⟩
  rw [layout_axis, if_neg (by simpa using hne)]
  simp only [gt_iff_lt, hcond, if_true]

/-- Inputs of the C3 witness: a horizontal container whose two
children carry sizes `3` and `1` (sum `4`, child count `2`). -/
def c3wP : GeoParams :=
  { tree := .node 0 [.node 1 [], .node 2 []]
    windows := fun n => if n = 1 then some 11 else if n = 2 then some 12 else none
    info := fun n =>
      if n = 1 then { LayoutInfo.default with size := 3 }
      else if n = 2 then { LayoutInfo.default with size := 1 }
      else LayoutInfo.default
    screen := ⟨0,0,100,100⟩, stack_offset := 0, gaps := ⟨0,0,0,0⟩
    stack_line_thickness := 0, hplace := .top, vplace := .leftSide }

/-- Children list of the C3 witness. -/
def c3wCs : List LTree := [.node 1 [], .node 2 []]

/-- Witness for C3 at a concrete drifted container. -/
theorem C3_witness :
    (1/100 < |((c3wCs.map (fun c => (c3wP.info c.topId).size)).sum - (c3wCs.length : ℚ))|
      ∨ ∃ c ∈ c3wCs, (c3wP.info c.topId).size < 1/20)
    ∧ layout_axis c3wP 0 c3wCs ⟨0,0,100,100⟩ true =
      axis_children c3wP (fun _ => 1) ((c3wCs.length : ℚ))
        (if true then c3wP.gaps.innerH else c3wP.gaps.innerV)
        (if (if true then c3wP.gaps.innerH else c3wP.gaps.innerV) = 0
          then (if true then (100:ℚ) else (100:ℚ))
          else max ((if true then (100:ℚ) else (100:ℚ)) -
            ((c3wCs.length - 1 : ℕ) : ℚ) * (if true then c3wP.gaps.innerH else c3wP.gaps.innerV)) 0)
        true ⟨0,0,100,100⟩ (if true then (0:ℚ) else (0:ℚ)) c3wCs := by
  have hyp : (1/100 <
        |((c3wCs.map (fun c => (c3wP.info c.topId).size)).sum - (c3wCs.length : ℚ))|
      ∨ ∃ c ∈ c3wCs, (c3wP.info c.topId).size < 1/20) := by
    left
    norm_num [c3wCs, c3wP, LTree.topId, LayoutInfo.default]
  exact ⟨hyp, C3_layout_axis_normalizes c3wP 0 c3wCs ⟨0,0,100,100⟩ true
    (by simp [c3wCs]) hyp⟩

/-- `find?` over the reverse-index rewrite of `swap_windows` commutes
with the layout filter, since only the node components change. -/
theorem find_swap_map (l : List (Nat × Nat)) (layout nb : Nat) :
    ((l.map (fun pr => if pr.1 = layout then (pr.1, nb) else pr)).find?
        (fun pr => pr.1 = layout)) =
      ((l.find? (fun pr => pr.1 = layout)).map
        (fun pr => if pr.1 = layout then (pr.1, nb) else pr)) := by
  induction l with
  | nil => rfl
  | cons hd tl ih =>
    by_cases h : hd.1 = layout
    · simp [List.find?_cons, h]
    · simp [List.find?_cons, h, ih]

/-- C5: `swap_windows` fails and leaves the state untouched when a
window does not resolve or both resolve to the same node; on two
distinct resolved nodes (with consistent bindings) it succeeds,
exchanges the bindings in both tables and leaves the tree, selection
and layout info unchanged. -/
theorem C5_swap_windows (s : LState) (layout a b : Nat) :
    ((s.node_for layout a = none ∨ s.node_for layout b = none ∨
        s.node_for layout a = s.node_for layout b) →
      s.swap_windows layout a b = (false, s))
    ∧ (∀ na nb, s.node_for layout a = some na → s.node_for layout b = some nb →
        na ≠ nb → s.windows na = some a → s.windows nb = some b →
        (s.swap_windows layout a b).1 = true
        ∧ (s.swap_windows layout a b).2.tree = s.tree
        ∧ (s.swap_windows layout a b).2.sel = s.sel
        ∧ (s.swap_windows layout a b).2.info = s.info
        ∧ (s.swap_windows layout a b).2.nextId = s.nextId
        ∧ (s.swap_windows layout a b).2.windows na = some b
        ∧ (s.swap_windows layout a b).2.windows nb = some a
        ∧ (∀ n, n ≠ na → n ≠ nb → (s.swap_windows layout a b).2.windows n = s.windows n)
        ∧ (s.swap_windows layout a b).2.node_for layout a = some nb
        ∧ (s.swap_windows layout a b).2.node_for layout b = some na) := by
  constructor
  · intro h
    rcases h with h | h | h
    · simp [LState.swap_windows, h]
    · cases h1 : s.node_for layout a with
      | none => simp [LState.swap_windows, h1]
      | some na => simp [LState.swap_windows, h1, h]
    · cases h1 : s.node_for layout a with
      | none => simp [LState.swap_windows, h1]
      | some na =>
        cases h2 : s.node_for layout b with
        | none => simp [LState.swap_windows, h1, h2]
        | some nb =>
          rw [h1, h2] at h
          injection h with hnn
          simp [LState.swap_windows, h1, h2, hnn]
  · intro na nb h1 h2 hne hw1 hw2
    have hab : a ≠ b := by
      intro e
      rw [e, h2] at h1
      injection h1 with h1e
      exact hne h1e.symm
    obtain ⟨pra, hfa, hpa2⟩ : ∃ pr, (s.windowNodes a).find? (fun pr => pr.1 = layout) = some pr ∧ pr.2 = na := by
      unfold LState.node_for at h1
      cases hf : (s.windowNodes a).find? (fun pr => pr.1 = layout) with
      | none => rw [hf] at h1; simp at h1
      | some pr => rw [hf] at h1; exact ⟨pr, rfl, by simpa using h1⟩
    obtain ⟨prb, hfb, hpb2⟩ : ∃ pr, (s.windowNodes b).find? (fun pr => pr.1 = layout) = some pr ∧ pr.2 = nb := by
      unfold LState.node_for at h2
      cases hf : (s.windowNodes b).find? (fun pr => pr.1 = layout) with
      | none => rw [hf] at h2; simp at h2
      | some pr => rw [hf] at h2; exact ⟨pr, rfl, by simpa using h2⟩
    have hpa1 : pra.1 = layout := by
      have := List.find?_some hfa
      simpa using this
    have hpb1 : prb.1 = layout := by
      have := List.find?_some hfb
      simpa using this
    refine ⟨?_, ?_, ?_, ?_, ?_, ?_, ?_, ?_, ?_, ?_⟩
    · simp [LState.swap_windows, h1, h2, hne, hw1, hw2]
    · simp [LState.swap_windows, h1, h2, hne, hw1, hw2]
    · simp [LState.swap_windows, h1, h2, hne, hw1, hw2]
    · simp [LState.swap_windows, h1, h2, hne, hw1, hw2]
    · simp [LState.swap_windows, h1, h2, hne, hw1, hw2]
    · simp [LState.swap_windows, h1, h2, hne, hw1, hw2, updMap, Ne.symm hne]
    · simp [LState.swap_windows, h1, h2, hne, hw1, hw2, updMap, Ne.symm hne]
    · intro n n1 n2
      simp [LState.swap_windows, h1, h2, hne, hw1, hw2, updMap, n1, n2]
    · have hwn : (s.swap_windows layout a b).2.windowNodes a =
          (s.windowNodes a).map (fun pr => if pr.1 = layout then (pr.1, nb) else pr) := by
        simp [LState.swap_windows, h1, h2, hne, hw1, hw2, updMap, hab]
      unfold LState.node_for
      rw [hwn, find_swap_map, hfa]
      simp [hpa1]
    · have hwn : (s.swap_windows layout a b).2.windowNodes b =
          (s.windowNodes b).map (fun pr => if pr.1 = layout then (pr.1, na) else pr) := by
        simp [LState.swap_windows, h1, h2, hne, hw1, hw2, updMap, hab, Ne.symm hab]
      unfold LState.node_for
      rw [hwn, find_swap_map, hfb]
      simp [hpb1]

/-- Witness for C5: swapping the two windows of `exTwoWin` succeeds
and exchanges their bindings; swapping with an unknown window id fails
and returns the state unchanged. -/
theorem C5_witness :
    exTwoWin.node_for 0 11 = some 1 ∧ exTwoWin.node_for 0 12 = some 2
    ∧ exTwoWin.windows 1 = some 11 ∧ exTwoWin.windows 2 = some 12
    ∧ (exTwoWin.swap_windows 0 11 12).1 = true
    ∧ (exTwoWin.swap_windows 0 11 12).2.windows 1 = some 12
    ∧ (exTwoWin.swap_windows 0 11 12).2.windows 2 = some 11
    ∧ (exTwoWin.swap_windows 0 11 12).2.node_for 0 11 = some 2
    ∧ (exTwoWin.swap_windows 0 11 12).2.tree = exTwoWin.tree
    ∧ exTwoWin.swap_windows 0 11 99 = (false, exTwoWin) := by
  have main := (C5_swap_windows exTwoWin 0 11 12).2 1 2 (by decide) (by decide)
    (by decide) (by decide) (by decide)
  refine ⟨by decide, by decide, by decide, by decide, main.1, main.2.2.2.2.2.1,
    main.2.2.2.2.2.2.1, main.2.2.2.2.2.2.2.2.1, main.2.1, ?_⟩
  exact (C5_swap_windows exTwoWin 0 11 99).1 (Or.inr (Or.inl (by decide)))



theorem pathTo_shape (x : Nat) (t : LTree) (p : List Nat)
    (h : t.pathTo x = some p) : ∃ q, p = t.topId :: q := by
  cases t with
  | node i cs =>
    rw [LTree.pathTo] at h
    by_cases hix : i = x
    · rw [if_pos hix] at h
      injection h with h
      exact ⟨[], h.symm⟩
    · rw [if_neg hix] at h
      cases hL : LTree.pathToL x cs with
      | none => rw [hL] at h; simp [Option.map_none'] at h
      | some p' =>
        rw [hL] at h
        simp only [Option.map_some'] at h
        injection h with h
        exact ⟨p', h.symm⟩

theorem pathToL_exists_mem (x : Nat) (cs : List LTree) (p : List Nat)
    (h : LTree.pathToL x cs = some p) : ∃ c ∈ cs, c.pathTo x = some p := by
  induction cs with
  | nil => simp [LTree.pathToL] at h
  | cons c ts ih =>
    rw [LTree.pathToL] at h
    cases hc : c.pathTo x with
    | some p' =>
      rw [hc] at h
      injection h with h
      exact ⟨c, List.mem_cons_self c ts, by rw [hc, h]⟩
    | none =>
      rw [hc] at h
      obtain ⟨c', hmem, hp⟩ := ih h
      exact ⟨c', List.mem_cons_of_mem c hmem, hp⟩

theorem pathTo_getLast (x : Nat) (t : LTree) :
    ∀ p, t.pathTo x = some p → p.getLast? = some x := by
  refine LTree.rec
    (motive_1 := fun t => ∀ p, t.pathTo x = some p → p.getLast? = some x)
    (motive_2 := fun cs => ∀ p, LTree.pathToL x cs = some p → p.getLast? = some x)
    ?_ ?_ ?_ t
  · intro i cs ih p h
    rw [LTree.pathTo] at h
    by_cases hix : i = x
    · rw [if_pos hix] at h
      injection h with h
      rw [← h, hix]
      rfl
    · rw [if_neg hix] at h
      cases hL : LTree.pathToL x cs with
      | none => rw [hL] at h; simp [Option.map_none'] at h
      | some p' =>
        rw [hL] at h
        simp only [Option.map_some'] at h
        injection h with h
        have hlast := ih p' hL
        rw [← h]
        rw [List.getLast?_cons]
        cases p' with
        | nil => simp at hlast
        | cons a q => simpa [List.getLast?_cons] using hlast
  · intro p h
    simp [LTree.pathToL] at h
  · intro c ts ihc ihts p h
    rw [LTree.pathToL] at h
    cases hc : c.pathTo x with
    | some p' =>
      rw [hc] at h
      injection h with h
      exact h ▸ ihc p' hc
    | none =>
      rw [hc] at h
      exact ihts p h



theorem pathTo_sublist (x : Nat) (t : LTree) :
    ∀ p, t.pathTo x = some p → p.Sublist t.allIds := by
  refine LTree.rec
    (motive_1 := fun t => ∀ p, t.pathTo x = some p → p.Sublist t.allIds)
    (motive_2 := fun cs => ∀ p, LTree.pathToL x cs = some p → p.Sublist (LTree.allIdsL cs))
    ?_ ?_ ?_ t
  · intro i cs ih p h
    rw [LTree.pathTo] at h
    by_cases hix : i = x
    · rw [if_pos hix] at h
      injection h with h
      rw [← h, LTree.allIds]
      exact (List.nil_sublist _).cons₂ i
    · rw [if_neg hix] at h
      cases hL : LTree.pathToL x cs with
      | none => rw [hL] at h; simp [Option.map_none'] at h
      | some p' =>
        rw [hL] at h
        simp only [Option.map_some'] at h
        injection h with h
        rw [← h, LTree.allIds]
        exact (ih p' hL).cons₂ i
  · intro p h
    simp [LTree.pathToL] at h
  · intro c ts ihc ihts p h
    rw [LTree.pathToL] at h
    cases hc : c.pathTo x with
    | some p' =>
      rw [hc] at h
      injection h with h
      rw [LTree.allIdsL]
      exact ((h ▸ ihc p' hc).trans (List.sublist_append_left _ _))
    | none =>
      rw [hc] at h
      rw [LTree.allIdsL]
      exact (ihts p h).trans (List.sublist_append_right _ _)

theorem pathTo_isSome_iff_mem (x : Nat) (t : LTree) :
    (t.pathTo x).isSome = true ↔ x ∈ t.allIds := by
  refine LTree.rec
    (motive_1 := fun t => (t.pathTo x).isSome = true ↔ x ∈ t.allIds)
    (motive_2 := fun cs => (LTree.pathToL x cs).isSome = true ↔ x ∈ LTree.allIdsL cs)
    ?_ ?_ ?_ t
  · intro i cs ih
    rw [LTree.pathTo, LTree.allIds]
    by_cases hix : i = x
    · simp [hix]
    · rw [if_neg hix]
      simp only [List.mem_cons]
      rw [Option.isSome_map']
      constructor
      · intro h; exact Or.inr (ih.mp h)
      · intro h
        rcases h with h | h
        · exact absurd h.symm hix
        · exact ih.mpr h
  · simp [LTree.pathToL, LTree.allIdsL]
  · intro c ts ihc ihts
    rw [LTree.pathToL, LTree.allIdsL]
    cases hc : c.pathTo x with
    | some p' =>
      simp only [Option.isSome_some, List.mem_append, true_iff]
      exact Or.inl (ihc.mp (by rw [hc]; rfl))
    | none =>
      simp only [List.mem_append]
      constructor
      · intro h; exact Or.inr (ihts.mp h)
      · intro h
        rcases h with h | h
        · exact absurd (ihc.mpr h) (by rw [hc]; simp)
        · exact ihts.mpr h

theorem selectLoop_not_mem (σ : Nat → Option SelInfo) (c : Nat) (ps : List Nat)
    (j : Nat) (hj : j ∉ ps) : selectLoop σ c ps j = σ j := by
  induction ps generalizing σ c with
  | nil => rfl
  | cons p rest ih =>
    have hne : j ≠ p := fun e => hj (by rw [e]; exact List.mem_cons_self p rest)
    rw [selectLoop]
    rw [ih _ _ (fun hm => hj (List.mem_cons_of_mem p hm))]
    simp only [updMap]
    rw [if_neg hne]

theorem selectLoop_append (σ : Nat → Option SelInfo) (c : Nat) (ps : List Nat)
    (i : Nat) :
    selectLoop σ c (ps ++ [i]) =
      updMap (selectLoop σ c ps) i
        (some { selected_child := ps.getLast?.getD c, stop_here := false
                range_start := none, range_end := none }) := by
  induction ps generalizing σ c with
  | nil => rfl
  | cons p rest ih =>
    rw [List.cons_append, selectLoop, ih, selectLoop]
    cases rest with
    | nil => rfl
    | cons a q => rw [List.getLast?_cons_cons]; rfl

theorem topId_mem_allIds (t : LTree) : t.topId ∈ t.allIds := by
  cases t; rw [LTree.allIds]; exact List.mem_cons_self _ _

theorem topId_mem_allIdsL (cs : List LTree) (c : LTree) (h : c ∈ cs) :
    c.topId ∈ LTree.allIdsL cs := by
  induction cs with
  | nil => cases h
  | cons e us ih =>
    rw [LTree.allIdsL]
    rcases List.mem_cons.mp h with he | he
    · exact List.mem_append_left _ (he ▸ topId_mem_allIds c)
    · exact List.mem_append_right _ (ih he)

theorem curSelL_mem (σ : Nat → Option SelInfo) (cs : List LTree) (c : LTree)
    (fb : Nat) (hmem : c ∈ cs) (hnd : (LTree.allIdsL cs).Nodup) :
    curSelL σ c.topId fb cs = curSelT σ c := by
  induction cs with
  | nil => cases hmem
  | cons d ts ih =>
    rw [curSelL]
    rcases List.mem_cons.mp hmem with h | h
    · rw [← h, if_pos rfl]
    · have hnd2 : (LTree.allIdsL ts).Nodup := by
        rw [LTree.allIdsL] at hnd
        exact hnd.of_append_right
      by_cases hd : d.topId = c.topId
      · exfalso
        have hdc : d.topId ∈ LTree.allIds d := topId_mem_allIds d
        have hcc : c.topId ∈ LTree.allIdsL ts := topId_mem_allIdsL ts c h
        rw [LTree.allIdsL] at hnd
        exact (List.disjoint_of_nodup_append hnd) (hd ▸ hdc) hcc
      · rw [if_neg hd]
        exact ih h hnd2



theorem allIds_sublist_of_mem (cs : List LTree) (c : LTree) (h : c ∈ cs) :
    (LTree.allIds c).Sublist (LTree.allIdsL cs) := by
  induction cs with
  | nil => cases h
  | cons e us ih =>
    rw [LTree.allIdsL]
    rcases List.mem_cons.mp h with he | he
    · exact he ▸ List.sublist_append_left _ _
    · exact (ih he).trans (List.sublist_append_right _ _)

theorem lastD_dropLast_reverse (p' : List Nat) (x c0 : Nat) (q : List Nat)
    (hshape : p' = c0 :: q) (hlast : p'.getLast? = some x) :
    (p'.dropLast.head?.getD x) = c0 := by
  subst hshape
  cases q with
  | nil =>
    simp only [List.getLast?_singleton] at hlast
    injection hlast with h
    simp [h]
  | cons a r =>
    rw [List.dropLast_cons₂]
    rfl

theorem curSelT_selUpd (t : LTree) :
    ∀ (σ σ' : Nat → Option SelInfo) (x : Nat) (p : List Nat),
      t.allIds.Nodup → t.pathTo x = some p →
      (∀ j ∈ t.allIds, σ' j = selUpd t σ x j) →
      curSelT σ' t = x := by
  refine LTree.rec
    (motive_1 := fun t => ∀ (σ σ' : Nat → Option SelInfo) (x : Nat) (p : List Nat),
      t.allIds.Nodup → t.pathTo x = some p →
      (∀ j ∈ t.allIds, σ' j = selUpd t σ x j) →
      curSelT σ' t = x)
    (motive_2 := fun cs => ∀ c ∈ cs,
      ∀ (σ σ' : Nat → Option SelInfo) (x : Nat) (p : List Nat),
      (LTree.allIds c).Nodup → c.pathTo x = some p →
      (∀ j ∈ LTree.allIds c, σ' j = selUpd c σ x j) →
      curSelT σ' c = x)
    ?_ ?_ ?_ t
  · intro i cs ih σ σ' x p hnd hpath hagree
    have hii : i ∈ LTree.allIds (.node i cs) := topId_mem_allIds _
    by_cases hix : i = x
    · -- the selection is the top node itself
      subst hix
      have hanc : LTree.ancestors (.node i cs) i = [i] := by
        rw [LTree.ancestors, LTree.pathTo, if_pos rfl]
        rfl
      have hs : σ' i = selUpd (.node i cs) σ i i := hagree i hii
      rw [selUpd] at hs
      rw [hanc] at hs
      rw [curSelT]
      cases hσ : σ i with
      | none =>
        simp only [hσ, selectLoop] at hs
        rw [hs]
      | some si =>
        simp only [hσ, selectLoop, updMap] at hs
        rw [hs]
        simp
    · -- the selection is deeper
      rw [LTree.pathTo, if_neg hix] at hpath
      cases hL : LTree.pathToL x cs with
      | none => rw [hL] at hpath; simp [Option.map_none'] at hpath
      | some p' =>
        rw [hL] at hpath
        obtain ⟨c0, hc0mem, hc0path⟩ := pathToL_exists_mem x cs p' hL
        obtain ⟨q, hq⟩ := pathTo_shape x c0 p' hc0path
        have hlast : p'.getLast? = some x := pathTo_getLast x c0 p' hc0path
        have hp'ne : p' ≠ [] := by rw [hq]; exact List.cons_ne_nil _ _
        -- decompose the reversed path
        have hrev : p'.reverse = x :: p'.dropLast.reverse := by
          conv_lhs => rw [← List.dropLast_append_getLast hp'ne]
          rw [List.reverse_append, List.reverse_singleton]
          have hgl := List.getLast?_eq_getLast p' hp'ne
          rw [hgl] at hlast
          injection hlast with h
          rw [h]
          rfl
        have hanc : LTree.ancestors (.node i cs) x
            = x :: (p'.dropLast.reverse ++ [i]) := by
          rw [LTree.ancestors, LTree.pathTo, if_neg hix, hL]
          simp only [Option.map_some']
          rw [List.reverse_cons, hrev]
          rfl
        have hndcs : (LTree.allIdsL cs).Nodup ∧ i ∉ LTree.allIdsL cs := by
          rw [LTree.allIds] at hnd
          exact ⟨hnd.of_cons, (List.nodup_cons.mp hnd).1⟩
        -- the entry stored at the top node points at c0
        have htop : σ' i = some (⟨c0.topId, false, none, none⟩ : SelInfo) := by
          rw [hagree i hii, selUpd, hanc]
          simp only
          rw [selectLoop_append]
          have hlam := lastD_dropLast_reverse p' x c0.topId q (by rw [hq]) hlast
          simp [updMap, hlam]
        rw [curSelT, htop]
        simp only
        rw [curSelL_mem σ' cs c0 i hc0mem hndcs.1]
        -- apply the member induction hypothesis
        refine ih c0 hc0mem σ σ' x p' ((allIds_sublist_of_mem cs c0 hc0mem).nodup hndcs.1) hc0path ?_
        intro j hj
        have hjt : j ∈ LTree.allIds (.node i cs) := by
          rw [LTree.allIds]
          exact List.mem_cons_of_mem i ((allIds_sublist_of_mem cs c0 hc0mem).mem hj)
        have hji : j ≠ i := by
          intro e
          exact hndcs.2 (e ▸ (allIds_sublist_of_mem cs c0 hc0mem).mem hj)
        rw [hagree j hjt]
        rw [selUpd, hanc, selUpd]
        simp only
        have hancc : LTree.ancestors c0 x = x :: p'.dropLast.reverse := by
          rw [LTree.ancestors, hc0path]
          exact hrev
        rw [hancc]
        simp only
        rw [selectLoop_append]
        simp only [updMap]
        rw [if_neg hji]
  · intro c hc; cases hc
  · intro c ts ihc ihts d hd
    rcases List.mem_cons.mp hd with h | h
    · exact h ▸ ihc
    · exact ihts d h



theorem parentOf_none_of_not_mem (x : Nat) (t : LTree) :
    x ∉ t.allIds → LTree.parentOf x t = none := by
  refine LTree.rec
    (motive_1 := fun t => x ∉ t.allIds → LTree.parentOf x t = none)
    (motive_2 := fun cs => x ∉ LTree.allIdsL cs → LTree.parentOfL x cs = none)
    ?_ ?_ ?_ t
  · intro i cs ih hx
    rw [LTree.allIds] at hx
    rw [LTree.parentOf]
    have hxcs : x ∉ LTree.allIdsL cs := fun h => hx (List.mem_cons_of_mem _ h)
    rw [if_neg ?_]
    · exact ih hxcs
    · intro hc
      have : x ∈ cs.map LTree.topId := by
        simpa using hc
      obtain ⟨c, hcm, hct⟩ := List.mem_map.mp this
      exact hxcs (hct ▸ topId_mem_allIdsL cs c hcm)
  · intro _; rfl
  · intro c ts ihc ihts hx
    rw [LTree.allIdsL] at hx
    rw [LTree.parentOfL]
    rw [ihc (fun h => hx (List.mem_append_left _ h))]
    exact ihts (fun h => hx (List.mem_append_right _ h))

theorem parentOfL_none_of_not_mem (x : Nat) (cs : List LTree)
    (hx : x ∉ LTree.allIdsL cs) : LTree.parentOfL x cs = none := by
  induction cs with
  | nil => rfl
  | cons c ts ih =>
    rw [LTree.allIdsL] at hx
    rw [LTree.parentOfL]
    rw [parentOf_none_of_not_mem x c (fun h => hx (List.mem_append_left _ h))]
    exact ih (fun h => hx (List.mem_append_right _ h))

theorem allIds_disjoint_of_ne (cs : List LTree) (hnd : (LTree.allIdsL cs).Nodup)
    (c d : LTree) (hc : c ∈ cs) (hd : d ∈ cs) (hne : c ≠ d) :
    ∀ j, j ∈ c.allIds → j ∈ d.allIds → False := by
  induction cs with
  | nil => cases hc
  | cons e us ih =>
    rw [LTree.allIdsL] at hnd
    intro j hjc hjd
    rcases List.mem_cons.mp hc with hce | hce
    · rcases List.mem_cons.mp hd with hde | hde
      · exact hne (hce.trans hde.symm)
      · exact (List.disjoint_of_nodup_append hnd) (hce ▸ hjc)
          ((allIds_sublist_of_mem us d hde).mem hjd)
    · rcases List.mem_cons.mp hd with hde | hde
      · exact (List.disjoint_of_nodup_append hnd) (hde ▸ hjd)
          ((allIds_sublist_of_mem us c hce).mem hjc)
      · exact ih hnd.of_append_right hce hde j hjc hjd

theorem parentOf_path (x : Nat) (t : LTree) :
    ∀ p, t.allIds.Nodup → t.pathTo x = some p →
      LTree.parentOf x t = p.dropLast.getLast? := by
  refine LTree.rec
    (motive_1 := fun t => ∀ p, t.allIds.Nodup → t.pathTo x = some p →
      LTree.parentOf x t = p.dropLast.getLast?)
    (motive_2 := fun cs => ∀ p, (LTree.allIdsL cs).Nodup →
      LTree.pathToL x cs = some p →
      LTree.parentOfL x cs = p.dropLast.getLast?)
    ?_ ?_ ?_ t
  · intro i cs ih p hnd hpath
    rw [LTree.allIds] at hnd
    have hnotin : i ∉ LTree.allIdsL cs := (List.nodup_cons.mp hnd).1
    have hndcs : (LTree.allIdsL cs).Nodup := (List.nodup_cons.mp hnd).2
    rw [LTree.pathTo] at hpath
    by_cases hix : i = x
    · rw [if_pos hix] at hpath
      injection hpath with hp
      rw [← hp]
      simp only [List.dropLast_single, List.getLast?_nil]
      rw [LTree.parentOf]
      rw [if_neg ?_]
      · exact parentOfL_none_of_not_mem x cs (hix ▸ hnotin)
      · intro hc
        obtain ⟨c, hcm, hct⟩ := List.mem_map.mp (by simpa using hc)
        exact (hix ▸ hnotin) (hct ▸ topId_mem_allIdsL cs c hcm)
    · rw [if_neg hix] at hpath
      cases hL : LTree.pathToL x cs with
      | none => rw [hL] at hpath; simp [Option.map_none'] at hpath
      | some p' =>
        rw [hL] at hpath
        simp only [Option.map_some'] at hpath
        injection hpath with hp
        rw [← hp]
        obtain ⟨c0, hc0mem, hc0path⟩ := pathToL_exists_mem x cs p' hL
        obtain ⟨q, hq⟩ := pathTo_shape x c0 p' hc0path
        have hlast : p'.getLast? = some x := pathTo_getLast x c0 p' hc0path
        cases hq' : q with
        | nil =>
          -- x is a direct child of i
          have htopx : c0.topId = x := by
            rw [hq, hq'] at hlast
            simp only [List.getLast?_singleton] at hlast
            injection hlast
          have hxmem : x ∈ cs.map LTree.topId :=
            List.mem_map.mpr ⟨c0, hc0mem, htopx⟩
          rw [LTree.parentOf, if_pos (List.elem_eq_true_of_mem hxmem)]
          rw [hq, hq', htopx]
          rfl
        | cons a r =>
          -- x is deeper than one level
          have hxc0 : x ∈ LTree.allIds c0 :=
            (pathTo_isSome_iff_mem x c0).mp (by rw [hc0path]; rfl)
          have htopne : c0.topId ≠ x := by
            intro e
            cases c0 with
            | node ci ccs =>
              rw [LTree.pathTo] at hc0path
              simp only [LTree.topId] at e
              rw [if_pos e] at hc0path
              injection hc0path with hpp
              rw [← hpp, hq'] at hq
              simp [LTree.topId] at hq
          have hxnot : x ∉ cs.map LTree.topId := by
            intro hm
            obtain ⟨d, hdm, hdt⟩ := List.mem_map.mp hm
            have hdne : c0 ≠ d := by
              intro e
              exact htopne (e ▸ hdt)
            exact allIds_disjoint_of_ne cs hndcs c0 d hc0mem hdm hdne x hxc0
              (hdt ▸ topId_mem_allIds d)
          rw [LTree.parentOf]
          rw [if_neg (by simpa using hxnot)]
          rw [ih p' hndcs hL]
          rw [hq, hq']
          simp only [List.dropLast_cons₂, List.getLast?_cons_cons]
  · intro p hnd h
    simp [LTree.pathToL] at h
  · intro c ts ihc ihts p hnd hpath
    rw [LTree.allIdsL] at hnd
    rw [LTree.pathToL] at hpath
    rw [LTree.parentOfL]
    cases hc : c.pathTo x with
    | some p' =>
      rw [hc] at hpath
      injection hpath with hp
      subst hp
      rw [ihc p' hnd.of_append_left hc]
      cases hpl : p'.dropLast.getLast? with
      | some pa => rfl
      | none =>
        have hxc : x ∈ LTree.allIds c := (pathTo_isSome_iff_mem x c).mp (by rw [hc]; rfl)
        have hxts : x ∉ LTree.allIdsL ts :=
          fun h => (List.disjoint_of_nodup_append hnd) hxc h
        exact parentOfL_none_of_not_mem x ts hxts
    | none =>
      rw [hc] at hpath
      have hxc : x ∉ LTree.allIds c := by
        intro hm
        have := (pathTo_isSome_iff_mem x c).mpr hm
        rw [hc] at this
        simp at this
      rw [parentOf_none_of_not_mem x c hxc]
      exact ihts p hnd.of_append_right hpath



theorem reverse_of_getLast (l : List Nat) (x : Nat) (h : l.getLast? = some x) :
    l.reverse = x :: l.dropLast.reverse := by
  have hne : l ≠ [] := by
    intro e; rw [e] at h; simp at h
  conv_lhs => rw [← List.dropLast_append_getLast hne]
  rw [List.reverse_append, List.reverse_singleton]
  have hgl := List.getLast?_eq_getLast l hne
  rw [hgl] at h
  injection h with h
  rw [h]
  rfl

theorem selUpd_at_parent (t : LTree) (σ : Nat → Option SelInfo) (x pa : Nat)
    (p : List Nat) (hnd : t.allIds.Nodup) (hpath : t.pathTo x = some p)
    (hpa : LTree.parentOf x t = some pa) :
    selUpd t σ x pa = some (⟨x, false, none, none⟩ : SelInfo) := by
  have hlast : p.getLast? = some x := pathTo_getLast x t p hpath
  have hpa2 : p.dropLast.getLast? = some pa := by
    rw [parentOf_path x t p hnd hpath] at hpa
    exact hpa
  have hrev : p.reverse = x :: p.dropLast.reverse :=
    reverse_of_getLast p x hlast
  have hrev2 : p.dropLast.reverse = pa :: p.dropLast.dropLast.reverse :=
    reverse_of_getLast p.dropLast pa hpa2
  have hanc : t.ancestors x = x :: (pa :: p.dropLast.dropLast.reverse) := by
    rw [LTree.ancestors, hpath]
    show p.reverse = _
    rw [hrev, hrev2]
  have hndp : p.Nodup := (pathTo_sublist x t p hpath).nodup hnd
  have hnddl : p.dropLast.reverse.Nodup :=
    List.nodup_reverse.mpr ((List.dropLast_sublist p).nodup hndp)
  have hpanot : pa ∉ p.dropLast.dropLast.reverse := by
    rw [hrev2] at hnddl
    exact (List.nodup_cons.mp hnddl).1
  rw [selUpd, hanc]
  simp only
  rw [selectLoop]
  rw [selectLoop_not_mem _ _ _ _ hpanot]
  simp [updMap]

theorem current_selection_select (s : LState) (x : Nat) (p : List Nat)
    (hnd : s.tree.allIds.Nodup) (hpath : s.tree.pathTo x = some p) :
    (s.select x).current_selection = x := by
  show curSelT (selUpd s.tree s.sel x) s.tree = x
  exact curSelT_selUpd s.tree s.sel _ x p hnd hpath (fun j _ => rfl)

theorem get_range_select (s : LState) (x : Nat) (p : List Nat)
    (hnd : s.tree.allIds.Nodup) (hpath : s.tree.pathTo x = some p) :
    (s.select x).get_range x = none := by
  rw [LState.get_range]
  cases hpa : LTree.parentOf x (s.select x).tree with
  | none => rfl
  | some pa =>
    have hpa' : LTree.parentOf x s.tree = some pa := hpa
    have := selUpd_at_parent s.tree s.sel x pa p hnd hpath hpa'
    show (match (selUpd s.tree s.sel x) pa with
      | some si =>
        match si.range_start, si.range_end with
        | some a, some b => some (a, b)
        | _, _ => none
      | none => none) = none
    rw [this]

end Rift

namespace Rift

theorem mem_allIds_of_findSub (y : Nat) (t : LTree) :
    ∀ sub, t.findSub y = some sub → ∀ j ∈ sub.allIds, j ∈ t.allIds := by
  refine LTree.rec
    (motive_1 := fun t => ∀ sub, t.findSub y = some sub → ∀ j ∈ sub.allIds, j ∈ t.allIds)
    (motive_2 := fun cs => ∀ sub, LTree.findSubL y cs = some sub →
      ∀ j ∈ sub.allIds, j ∈ LTree.allIdsL cs)
    ?_ ?_ ?_ t
  · intro i cs ih sub hf j hj
    rw [LTree.findSub] at hf
    by_cases hiy : i = y
    · rw [if_pos hiy] at hf
      injection hf with hf
      exact hf ▸ hj
    · rw [if_neg hiy] at hf
      rw [LTree.allIds]
      exact List.mem_cons_of_mem i (ih sub hf j hj)
  · intro sub hf
    simp [LTree.findSubL] at hf
  · intro c ts ihc ihts sub hf j hj
    rw [LTree.findSubL] at hf
    rw [LTree.allIdsL]
    cases hc : c.findSub y with
    | some r =>
      rw [hc] at hf
      injection hf with hf
      exact List.mem_append_left _ (ihc sub (by rw [hc, hf]) j hj)
    | none =>
      rw [hc] at hf
      exact List.mem_append_right _ (ihts sub hf j hj)

theorem childIds_subset_allIds (t : LTree) (x y : Nat)
    (h : y ∈ t.childIds x) : y ∈ t.allIds := by
  rw [LTree.childIds] at h
  cases hf : t.findSub x with
  | none => rw [hf] at h; cases h
  | some sub =>
    rw [hf] at h
    obtain ⟨c, hcm, hct⟩ := List.mem_map.mp h
    refine mem_allIds_of_findSub x t sub hf y ?_
    cases sub with
    | node i cs =>
      rw [LTree.allIds]
      exact List.mem_cons_of_mem i (hct ▸ topId_mem_allIdsL cs c hcm)

theorem parentOf_mem (x : Nat) (t : LTree) :
    ∀ p, LTree.parentOf x t = some p → p ∈ t.allIds := by
  refine LTree.rec
    (motive_1 := fun t => ∀ p, LTree.parentOf x t = some p → p ∈ t.allIds)
    (motive_2 := fun cs => ∀ p, LTree.parentOfL x cs = some p → p ∈ LTree.allIdsL cs)
    ?_ ?_ ?_ t
  · intro i cs ih p hp
    rw [LTree.parentOf] at hp
    rw [LTree.allIds]
    by_cases hc : (cs.map LTree.topId).contains x
    · rw [if_pos hc] at hp
      injection hp with hp
      exact hp ▸ List.mem_cons_self _ _
    · rw [if_neg hc] at hp
      exact List.mem_cons_of_mem i (ih p hp)
  · intro p hp
    exact Option.noConfusion hp
  · intro c ts ihc ihts p hp
    rw [LTree.parentOfL] at hp
    rw [LTree.allIdsL]
    cases hc : LTree.parentOf x c with
    | some q =>
      rw [hc] at hp
      injection hp with hp
      exact List.mem_append_left _ (ihc p (by rw [hc, hp]))
    | none =>
      rw [hc] at hp
      exact List.mem_append_right _ (ihts p hp)

theorem curSelT_mem (σ : Nat → Option SelInfo) (t : LTree) :
    curSelT σ t ∈ t.allIds := by
  refine LTree.rec
    (motive_1 := fun t => curSelT σ t ∈ t.allIds)
    (motive_2 := fun cs => ∀ target fb, fb ∈ LTree.allIdsL cs ∨ True →
      curSelL σ target fb cs = fb ∨ curSelL σ target fb cs ∈ LTree.allIdsL cs)
    ?_ ?_ ?_ t
  · intro i cs ih
    rw [curSelT, LTree.allIds]
    cases σ i with
    | none => exact List.mem_cons_self _ _
    | some si =>
      by_cases hst : si.stop_here
      · simp only [hst, if_true]
        exact List.mem_cons_self _ _
      · simp only [if_neg hst]
        rcases ih si.selected_child i (Or.inr trivial) with h | h
        · rw [h]
          exact List.mem_cons_self _ _
        · exact List.mem_cons_of_mem i h
  · intro target fb _
    left; rfl
  · intro c ts ihc ihts target fb _
    rw [curSelL]
    by_cases hct : c.topId = target
    · rw [if_pos hct]
      right
      rw [LTree.allIdsL]
      exact List.mem_append_left _ ihc
    · rw [if_neg hct]
      rcases ihts target fb (Or.inr trivial) with h | h
      · exact Or.inl h
      · right
        rw [LTree.allIdsL]
        exact List.mem_append_right _ h

/-- Two selection tables that agree on `selected_child` and
`stop_here` everywhere (ranges may differ). -/
def sameSelCore (a b : Option SelInfo) : Prop :=
  match a, b with
  | none, none => True
  | some x, some y => x.selected_child = y.selected_child ∧ x.stop_here = y.stop_here
  | _, _ => False

theorem curSelT_congr (σ σ' : Nat → Option SelInfo)
    (hag : ∀ j, sameSelCore (σ j) (σ' j)) (t : LTree) :
    curSelT σ t = curSelT σ' t := by
  refine LTree.rec
    (motive_1 := fun t => curSelT σ t = curSelT σ' t)
    (motive_2 := fun cs => ∀ target fb, curSelL σ target fb cs = curSelL σ' target fb cs)
    ?_ ?_ ?_ t
  · intro i cs ih
    rw [curSelT, curSelT]
    have := hag i
    cases h1 : σ i with
    | none =>
      cases h2 : σ' i with
      | none => rfl
      | some y => rw [h1, h2] at this; cases this
    | some x =>
      cases h2 : σ' i with
      | none => rw [h1, h2] at this; cases this
      | some y =>
        rw [h1, h2] at this
        obtain ⟨hsc, hsh⟩ := this
        show (if x.stop_here = true then i else curSelL σ x.selected_child i cs)
          = (if y.stop_here = true then i else curSelL σ' y.selected_child i cs)
        rw [hsc, hsh]
        by_cases hst : y.stop_here = true
        · rw [if_pos hst, if_pos hst]
        · rw [if_neg hst, if_neg hst]
          exact ih y.selected_child i
  · intro target fb; rfl
  · intro c ts ihc ihts target fb
    rw [curSelL, curSelL]
    by_cases hct : c.topId = target
    · rw [if_pos hct, if_pos hct]
      exact ihc
    · rw [if_neg hct, if_neg hct]
      exact ihts target fb

theorem listNextAfter_mem (x : Nat) (l : List Nat) (y : Nat)
    (h : listNextAfter x l = some y) : y ∈ l := by
  induction l with
  | nil => simp [listNextAfter] at h
  | cons a rest ih =>
    rw [listNextAfter] at h
    by_cases hax : a = x
    · rw [if_pos hax] at h
      cases rest with
      | nil => simp at h
      | cons b q =>
        simp only [List.head?_cons] at h
        injection h with h
        exact h ▸ List.mem_cons_of_mem a (List.mem_cons_self b q)
    · rw [if_neg hax] at h
      exact List.mem_cons_of_mem a (ih h)

theorem sameSelCore_refl (a : Option SelInfo) : sameSelCore a a := by
  cases a with
  | none => trivial
  | some si => exact ⟨rfl, rfl⟩

theorem clear_range_core (s : LState) (x j : Nat) :
    sameSelCore (s.sel j) ((s.clear_range x).sel j) := by
  rw [LState.clear_range]
  cases hp : s.tree.parentOf x with
  | none => exact sameSelCore_refl _
  | some p =>
    show sameSelCore (s.sel j)
      ((match s.sel p with
        | some si => { s with sel := updMap s.sel p (some { si with range_start := none, range_end := none }) }
        | none => s).sel j)
    cases hsp : s.sel p with
    | none => exact sameSelCore_refl _
    | some si =>
      show sameSelCore (s.sel j)
        (updMap s.sel p (some { si with range_start := none, range_end := none }) j)
      rw [updMap]
      by_cases hjp : j = p
      · rw [if_pos hjp, hjp, hsp]
        exact ⟨rfl, rfl⟩
      · rw [if_neg hjp]
        exact sameSelCore_refl _

theorem clear_range_get_range (s : LState) (x : Nat) :
    (s.clear_range x).get_range x = none := by
  rw [LState.get_range, LState.clear_range]
  cases hp : s.tree.parentOf x with
  | none => simp [hp]
  | some p =>
    cases hsp : s.sel p with
    | none => simp [hp, hsp]
    | some si => simp [hp, hsp, updMap]

/-- Bounded well-formedness of the selection table: every recorded
`selected_child` of a node in the tree is one of its children
(invariant 2 of the spec, maintained by the observer). -/
def selWFb (s : LState) : Bool :=
  s.tree.allIds.all (fun j =>
    match s.sel j with
    | some si => (s.tree.childIds j).contains si.selected_child
    | none => true)

theorem selWFb_spec (s : LState) (hwf : selWFb s = true) (j : Nat)
    (hj : j ∈ s.tree.allIds) (si : SelInfo) (hsi : s.sel j = some si) :
    si.selected_child ∈ s.tree.childIds j := by
  have := List.all_eq_true.mp hwf j hj
  rw [hsi] at this
  exact List.mem_of_elem_eq_true this

end Rift

namespace Rift

theorem stackToggleKind_is_stacked (k : LayoutKind)
    (o : StackDefaultOrientation) :
    (stackToggleKind k o).is_stacked = true := by
  cases k <;> cases o <;> rfl

/-- When the target container resolves and has a first child,
`apply_stacking_to_parent_of_selection` sets the toggled kind on the
container and selects its first child. -/
theorem apply_stacking_state (s : LState) (o : StackDefaultOrientation)
    (container fc : Nat)
    (htarget : (if (s.windows s.current_selection).isSome then
        s.tree.parentOf s.current_selection else some s.current_selection)
      = some container)
    (hfc : s.tree.firstChild container = some fc) :
    (s.apply_stacking_to_parent_of_selection o).2 =
      (s.set_kind container
        (stackToggleKind (s.info container).kind o)).select fc := by
  rw [LState.apply_stacking_to_parent_of_selection]
  rw [htarget]
  have hst := stackToggleKind_is_stacked (s.info container).kind o
  have hfc2 : (s.set_kind container
      (stackToggleKind (s.info container).kind o)).tree.firstChild container
      = some fc := hfc
  show (if (stackToggleKind (s.info container).kind o).is_stacked = true then
      (match (s.set_kind container
          (stackToggleKind (s.info container).kind o)).tree.firstChild container with
        | some fc => (s.set_kind container
            (stackToggleKind (s.info container).kind o)).select fc
        | none => s.set_kind container (stackToggleKind (s.info container).kind o))
    else s.set_kind container (stackToggleKind (s.info container).kind o)) =
    (s.set_kind container (stackToggleKind (s.info container).kind o)).select fc
  rw [if_pos hst, hfc2]

end Rift

namespace Rift

theorem set_kind_info_kind (s : LState) (n : Nat) (k : LayoutKind) :
    ((s.set_kind n k).info n).kind = k := by
  by_cases hg : k.is_group = true
  · simp [LState.set_kind, hg, updMap]
  · simp [LState.set_kind, hg, updMap]

theorem firstChild_mem_childIds (t : LTree) (x fc : Nat)
    (hfc : t.firstChild x = some fc) : fc ∈ t.childIds x := by
  rw [LTree.firstChild] at hfc
  cases hl : t.childIds x with
  | nil => rw [hl] at hfc; cases hfc
  | cons a rest =>
    rw [hl, List.head?_cons] at hfc
    injection hfc with h
    rw [← h]
    exact List.mem_cons_self a rest

/-- C10: whenever `apply_stacking_to_parent_of_selection` resolves a
target container (with at least one child), it sets a stacked kind on
the container and moves the selection to the container's first child,
so the first child becomes the effective selection. -/
theorem C10_apply_stacking_selects_first_child (s : LState)
    (o : StackDefaultOrientation) (container fc : Nat)
    (hnd : s.tree.allIds.Nodup)
    (htarget : (if (s.windows s.current_selection).isSome then
        s.tree.parentOf s.current_selection else some s.current_selection)
      = some container)
    (hfc : s.tree.firstChild container = some fc) :
    ((s.apply_stacking_to_parent_of_selection o).2.info container).kind.is_stacked
        = true
    ∧ (s.apply_stacking_to_parent_of_selection o).2.current_selection = fc := by
  rw [apply_stacking_state s o container fc htarget hfc]
  constructor
  · show (((s.set_kind container
        (stackToggleKind (s.info container).kind o)).info container)).kind.is_stacked = true
    rw [set_kind_info_kind]
    exact stackToggleKind_is_stacked _ _
  · have hmem : fc ∈ s.tree.allIds :=
      childIds_subset_allIds s.tree container fc (firstChild_mem_childIds s.tree container fc hfc)
    have hps : (s.tree.pathTo fc).isSome = true :=
      (pathTo_isSome_iff_mem fc s.tree).mpr hmem
    obtain ⟨p, hp⟩ := Option.isSome_iff_exists.mp hps
    exact current_selection_select
      (s.set_kind container (stackToggleKind (s.info container).kind o)) fc p hnd hp

theorem C10_witness :
    exTwoWin.tree.allIds.Nodup
    ∧ ((if (exTwoWin.windows exTwoWin.current_selection).isSome then
        exTwoWin.tree.parentOf exTwoWin.current_selection
        else some exTwoWin.current_selection) = some 0)
    ∧ exTwoWin.tree.firstChild 0 = some 1
    ∧ (((exTwoWin.apply_stacking_to_parent_of_selection .perpendicular).2.info 0).kind.is_stacked = true
      ∧ (exTwoWin.apply_stacking_to_parent_of_selection .perpendicular).2.current_selection = 1) :=
  ⟨by decide, by decide, by decide,
    C10_apply_stacking_selects_first_child exTwoWin .perpendicular 0 1
      (by decide) (by decide) (by decide)⟩

end Rift

namespace Rift

/-- C2 corrected: applying `apply_stacking_to_parent_of_selection`
twice with `Perpendicular` to the same resolved container does NOT
restore the original unstacked kind: a `Horizontal` container becomes
`VerticalStack` then `HorizontalStack`, and a `Vertical` container
becomes `HorizontalStack` then `VerticalStack` — it stays stacked. -/
theorem C2_amended_double_stacking (s : LState) (container fc : Nat)
    (hnd : s.tree.allIds.Nodup)
    (htarget : (if (s.windows s.current_selection).isSome then
        s.tree.parentOf s.current_selection else some s.current_selection)
      = some container)
    (hfc : s.tree.firstChild container = some fc)
    (hfcw : (s.windows fc).isSome = true)
    (hpar : s.tree.parentOf fc = some container) :
    ((s.info container).kind = .horizontal →
      (((s.apply_stacking_to_parent_of_selection .perpendicular).2.info container).kind = .verticalStack
      ∧ ((((s.apply_stacking_to_parent_of_selection .perpendicular).2.apply_stacking_to_parent_of_selection .perpendicular).2.info container).kind = .horizontalStack)))
    ∧ ((s.info container).kind = .vertical →
      (((s.apply_stacking_to_parent_of_selection .perpendicular).2.info container).kind = .horizontalStack
      ∧ ((((s.apply_stacking_to_parent_of_selection .perpendicular).2.apply_stacking_to_parent_of_selection .perpendicular).2.info container).kind = .verticalStack))) := by
  have hs1 : (s.apply_stacking_to_parent_of_selection .perpendicular).2
      = (s.set_kind container
          (stackToggleKind (s.info container).kind .perpendicular)).select fc :=
    apply_stacking_state s .perpendicular container fc htarget hfc
  rw [hs1]
  set st1 := (s.set_kind container
      (stackToggleKind (s.info container).kind .perpendicular)).select fc with hst1def
  have hmem : fc ∈ s.tree.allIds :=
    childIds_subset_allIds s.tree container fc (firstChild_mem_childIds s.tree container fc hfc)
  obtain ⟨p, hp⟩ := Option.isSome_iff_exists.mp
    ((pathTo_isSome_iff_mem fc s.tree).mpr hmem)
  have hsel1 : st1.current_selection = fc :=
    current_selection_select
      (s.set_kind container (stackToggleKind (s.info container).kind .perpendicular))
      fc p hnd hp
  have htarget2 : (if (st1.windows st1.current_selection).isSome then
      st1.tree.parentOf st1.current_selection else some st1.current_selection)
      = some container := by
    rw [hsel1]
    show (if (s.windows fc).isSome = true then s.tree.parentOf fc else some fc)
      = some container
    rw [if_pos hfcw]
    exact hpar
  have hs2 : (st1.apply_stacking_to_parent_of_selection .perpendicular).2
      = (st1.set_kind container
          (stackToggleKind (st1.info container).kind .perpendicular)).select fc :=
    apply_stacking_state st1 .perpendicular container fc htarget2 hfc
  rw [hs2]
  have hkind1 : (st1.info container).kind
      = stackToggleKind (s.info container).kind .perpendicular := by
    show ((s.set_kind container
        (stackToggleKind (s.info container).kind .perpendicular)).info container).kind = _
    exact set_kind_info_kind s container _
  have hkind2 : (((st1.set_kind container
      (stackToggleKind (st1.info container).kind .perpendicular)).select fc).info container).kind
      = stackToggleKind (st1.info container).kind .perpendicular := by
    show ((st1.set_kind container
        (stackToggleKind (st1.info container).kind .perpendicular)).info container).kind = _
    exact set_kind_info_kind st1 container _
  constructor
  · intro hk
    rw [hkind2, hkind1, hk]
    exact ⟨rfl, rfl⟩
  · intro hk
    rw [hkind2, hkind1, hk]
    exact ⟨rfl, rfl⟩

theorem C2_amended_witness :
    exTwoWin.tree.allIds.Nodup
    ∧ ((if (exTwoWin.windows exTwoWin.current_selection).isSome then
        exTwoWin.tree.parentOf exTwoWin.current_selection
        else some exTwoWin.current_selection) = some 0)
    ∧ exTwoWin.tree.firstChild 0 = some 1
    ∧ (exTwoWin.windows 1).isSome = true
    ∧ exTwoWin.tree.parentOf 1 = some 0
    ∧ ((exTwoWin.info 0).kind = .horizontal →
      (((exTwoWin.apply_stacking_to_parent_of_selection .perpendicular).2.info 0).kind = .verticalStack
      ∧ ((((exTwoWin.apply_stacking_to_parent_of_selection .perpendicular).2.apply_stacking_to_parent_of_selection .perpendicular).2.info 0).kind = .horizontalStack))) :=
  ⟨by decide, by decide, by decide, by decide, by decide,
    (C2_amended_double_stacking exTwoWin 0 1
      (by decide) (by decide) (by decide) (by decide) (by decide)).1⟩

end Rift

namespace Rift

theorem clear_range_tree (s : LState) (x : Nat) :
    (s.clear_range x).tree = s.tree := by
  rw [LState.clear_range]
  cases hp : s.tree.parentOf x with
  | none => rfl
  | some p =>
    show (match s.sel p with
      | some si => { s with sel := updMap s.sel p (some { si with range_start := none, range_end := none }) }
      | none => s).tree = s.tree
    cases hsp : s.sel p <;> rfl

theorem clear_range_windows (s : LState) (x : Nat) :
    (s.clear_range x).windows = s.windows := by
  rw [LState.clear_range]
  cases hp : s.tree.parentOf x with
  | none => rfl
  | some p =>
    show (match s.sel p with
      | some si => { s with sel := updMap s.sel p (some { si with range_start := none, range_end := none }) }
      | none => s).windows = s.windows
    cases hsp : s.sel p <;> rfl

theorem clear_range_info (s : LState) (x : Nat) :
    (s.clear_range x).info = s.info := by
  rw [LState.clear_range]
  cases hp : s.tree.parentOf x with
  | none => rfl
  | some p =>
    show (match s.sel p with
      | some si => { s with sel := updMap s.sel p (some { si with range_start := none, range_end := none }) }
      | none => s).info = s.info
    cases hsp : s.sel p <;> rfl

theorem clear_range_current_selection (s : LState) (x : Nat) :
    (s.clear_range x).current_selection = s.current_selection := by
  show curSelT (s.clear_range x).sel (s.clear_range x).tree
    = curSelT s.sel s.tree
  rw [clear_range_tree]
  exact (curSelT_congr s.sel (s.clear_range x).sel
    (fun j => clear_range_core s x j) s.tree).symm

theorem clear_range_last_selection (s : LState) (x j : Nat) :
    (s.clear_range x).last_selection j = s.last_selection j := by
  have h := clear_range_core s x j
  rw [LState.last_selection, LState.last_selection]
  cases h1 : s.sel j with
  | none =>
    cases h2 : (s.clear_range x).sel j with
    | none => rfl
    | some si => rw [h1, h2] at h; cases h
  | some si =>
    cases h2 : (s.clear_range x).sel j with
    | none => rw [h1, h2] at h; cases h
    | some si2 =>
      rw [h1, h2] at h
      rw [Option.map_some', Option.map_some', h.1]

theorem nextSibling_mem (t : LTree) (x y : Nat)
    (h : t.nextSibling x = some y) : y ∈ t.allIds := by
  rw [LTree.nextSibling] at h
  cases hp : t.parentOf x with
  | none => rw [hp] at h; cases h
  | some p =>
    rw [hp] at h
    exact childIds_subset_allIds t p y (listNextAfter_mem x _ y h)

theorem prevSibling_mem (t : LTree) (x y : Nat)
    (h : t.prevSibling x = some y) : y ∈ t.allIds := by
  rw [LTree.prevSibling] at h
  cases hp : t.parentOf x with
  | none => rw [hp] at h; cases h
  | some p =>
    rw [hp] at h
    exact childIds_subset_allIds t p y
      (List.mem_reverse.mp (listNextAfter_mem x _ y h))

theorem lastChild_mem (t : LTree) (x y : Nat)
    (h : t.lastChild x = some y) : y ∈ t.allIds := by
  rw [LTree.lastChild] at h
  exact childIds_subset_allIds t x y (List.mem_of_mem_getLast? h)

theorem firstChild_mem (t : LTree) (x y : Nat)
    (h : t.firstChild x = some y) : y ∈ t.allIds :=
  childIds_subset_allIds t x y (firstChild_mem_childIds t x y h)

theorem move_over_mem (s : LState) (x y : Nat) (d : Direction)
    (h : s.move_over x d = some y) : y ∈ s.tree.allIds := by
  rw [LState.move_over.eq_def] at h
  cases hp : s.tree.parentOf x with
  | none => simp only [hp] at h; cases h
  | some p =>
    simp only [hp] at h
    by_cases ho : (s.info p).kind.orientation = d.orientation
    · rw [if_pos ho] at h
      cases d with
      | left => exact prevSibling_mem s.tree x y h
      | up => exact prevSibling_mem s.tree x y h
      | right => exact nextSibling_mem s.tree x y h
      | down => exact nextSibling_mem s.tree x y h
    · rw [if_neg ho] at h
      cases h

theorem select_sel_none (s : LState) (x : Nat) (hnd : s.tree.allIds.Nodup)
    (hmem : x ∈ s.tree.allIds) :
    (s.select x).current_selection = x ∧ (s.select x).get_range x = none := by
  obtain ⟨p, hp⟩ := Option.isSome_iff_exists.mp
    ((pathTo_isSome_iff_mem x s.tree).mpr hmem)
  exact ⟨current_selection_select s x p hnd hp, get_range_select s x p hnd hp⟩

/-- The two-sided step shape shared by the sibling-navigation
operations: either the state is just the range-cleared one, or it is
the range-cleared state with some tree node selected. -/
theorem range_free_step (s : LState) (hnd : s.tree.allIds.Nodup)
    (s' : LState)
    (h : s' = s.clear_range s.current_selection ∨
      ∃ y, y ∈ s.tree.allIds ∧
        s' = (s.clear_range s.current_selection).select y) :
    s'.get_range s'.current_selection = none := by
  rcases h with h | ⟨y, hy, h⟩
  · rw [h, clear_range_current_selection]
    exact clear_range_get_range s s.current_selection
  · have ht := clear_range_tree s s.current_selection
    have hnd1 : (s.clear_range s.current_selection).tree.allIds.Nodup := by
      rw [ht]; exact hnd
    have hy1 : y ∈ (s.clear_range s.current_selection).tree.allIds := by
      rw [ht]; exact hy
    obtain ⟨h1, h2⟩ :=
      select_sel_none (s.clear_range s.current_selection) y hnd1 hy1
    rw [h, h1]
    exact h2

end Rift


namespace Rift

theorem mflr_cases (s : LState) (d : Direction) :
    (s.move_focus_level_restricted d).2 = s.clear_range s.current_selection ∨
    ∃ y, y ∈ s.tree.allIds ∧
      (s.move_focus_level_restricted d).2
        = (s.clear_range s.current_selection).select y := by
  simp only [LState.move_focus_level_restricted]
  split
  · rename_i sib hm
    right
    refine ⟨sib, ?_, ?_⟩
    · have := move_over_mem _ _ _ _ hm
      rw [clear_range_tree] at this
      exact this
    · split <;> rfl
  · left; rfl

end Rift

namespace Rift

theorem nsw_cases (s : LState) :
    (s.next_sibling_window).2 = s.clear_range s.current_selection ∨
    ∃ y, y ∈ s.tree.allIds ∧
      (s.next_sibling_window).2
        = (s.clear_range s.current_selection).select y := by
  simp only [LState.next_sibling_window]
  split
  · rename_i nxt hm
    right
    refine ⟨nxt, ?_, ?_⟩
    · have := nextSibling_mem _ _ _ hm
      rw [clear_range_tree] at this
      exact this
    · split <;> rfl
  · rename_i hm
    split
    · rename_i parent hp
      split
      · rename_i fc hf
        split
        · rename_i hne
          right
          refine ⟨fc, ?_, ?_⟩
          · have := firstChild_mem _ _ _ hf
            rw [clear_range_tree] at this
            exact this
          · split <;> rfl
        · left; rfl
      · left; rfl
    · left; rfl

theorem psw_cases (s : LState) :
    (s.prev_sibling_window).2 = s.clear_range s.current_selection ∨
    ∃ y, y ∈ s.tree.allIds ∧
      (s.prev_sibling_window).2
        = (s.clear_range s.current_selection).select y := by
  simp only [LState.prev_sibling_window]
  split
  · rename_i prv hm
    right
    refine ⟨prv, ?_, ?_⟩
    · have := prevSibling_mem _ _ _ hm
      rw [clear_range_tree] at this
      exact this
    · split <;> rfl
  · rename_i hm
    split
    · rename_i parent hp
      split
      · rename_i lc hf
        split
        · rename_i hne
          right
          refine ⟨lc, ?_, ?_⟩
          · have := lastChild_mem _ _ _ hf
            rw [clear_range_tree] at this
            exact this
          · split <;> rfl
        · left; rfl
      · left; rfl
    · left; rfl

theorem ascend_cases (s : LState) :
    (s.ascend_selection).2 = s.clear_range s.current_selection ∨
    ∃ y, y ∈ s.tree.allIds ∧
      (s.ascend_selection).2
        = (s.clear_range s.current_selection).select y := by
  simp only [LState.ascend_selection]
  split
  · rename_i p hp
    right
    refine ⟨p, ?_, rfl⟩
    have := parentOf_mem s.current_selection _ p hp
    rw [clear_range_tree] at this
    exact this
  · left; rfl

theorem descend_cases (s : LState) (hwf : selWFb s = true) :
    (s.descend_selection).2 = s.clear_range s.current_selection ∨
    ∃ y, y ∈ s.tree.allIds ∧
      (s.descend_selection).2
        = (s.clear_range s.current_selection).select y := by
  simp only [LState.descend_selection]
  split
  · rename_i child hc
    right
    refine ⟨child, ?_, rfl⟩
    rw [clear_range_last_selection] at hc
    rw [LState.last_selection] at hc
    cases hsi : s.sel s.current_selection with
    | none => rw [hsi, Option.map_none'] at hc; cases hc
    | some si =>
      rw [hsi, Option.map_some'] at hc
      injection hc with hc
      have hm : s.current_selection ∈ s.tree.allIds := curSelT_mem s.sel s.tree
      have := selWFb_spec s hwf s.current_selection hm si hsi
      rw [hc] at this
      exact childIds_subset_allIds s.tree s.current_selection child this
  · rename_i hc
    split
    · rename_i fc hf
      right
      refine ⟨fc, ?_, rfl⟩
      have := firstChild_mem _ _ _ hf
      rw [clear_range_tree] at this
      exact this
    · left; rfl

end Rift

namespace Rift

/-- An entry that cannot produce a range: one of its endpoints is
`none`. -/
def rangeFreeEntry (a : Option SelInfo) : Prop :=
  match a with
  | none => True
  | some si => si.range_start = none ∨ si.range_end = none

theorem get_range_none_of_rangeFree (s : LState) (x : Nat)
    (h : ∀ q, s.tree.parentOf x = some q → rangeFreeEntry (s.sel q)) :
    s.get_range x = none := by
  rw [LState.get_range]
  cases hp : s.tree.parentOf x with
  | none => rfl
  | some q =>
    have hq := h q hp
    show (match s.sel q with
      | some si =>
        match si.range_start, si.range_end with
        | some a, some b => some (a, b)
        | _, _ => none
      | none => none) = none
    cases hsq : s.sel q with
    | none => rfl
    | some si =>
      rw [hsq] at hq
      show (match si.range_start, si.range_end with
        | some a, some b => some (a, b)
        | _, _ => none) = none
      cases hrs : si.range_start with
      | none => rfl
      | some a =>
        cases hre : si.range_end with
        | none => rfl
        | some b =>
          rcases hq with h1 | h1
          · rw [hrs] at h1; cases h1
          · rw [hre] at h1; cases h1

theorem clear_range_rangeFree_parent (s : LState) (x q : Nat)
    (hq : s.tree.parentOf x = some q) :
    rangeFreeEntry ((s.clear_range x).sel q) := by
  rw [LState.clear_range, hq]
  show rangeFreeEntry ((match s.sel q with
    | some si => { s with sel := updMap s.sel q (some { si with range_start := none, range_end := none }) }
    | none => s).sel q)
  cases hsq : s.sel q with
  | none =>
    show rangeFreeEntry (s.sel q)
    rw [hsq]
    trivial
  | some si =>
    show rangeFreeEntry
      (updMap s.sel q (some { si with range_start := none, range_end := none }) q)
    rw [updMap, if_pos rfl]
    exact Or.inl rfl

theorem select_locally_rangeFree (s : LState) (n q : Nat)
    (h : rangeFreeEntry (s.sel q)) :
    rangeFreeEntry ((s.select_locally n).2.sel q) := by
  rw [LState.select_locally]
  cases hp : s.tree.parentOf n with
  | none => exact h
  | some p =>
    show rangeFreeEntry (updMap s.sel p
      (some { selected_child := n, stop_here := false, range_start := none, range_end := none }) q)
    rw [updMap]
    by_cases hqp : q = p
    · rw [if_pos hqp]
      exact Or.inl rfl
    · rw [if_neg hqp]
      exact h

theorem select_locally_tree (s : LState) (n : Nat) :
    (s.select_locally n).2.tree = s.tree := by
  rw [LState.select_locally]
  cases hp : s.tree.parentOf n with
  | none => rfl
  | some p => rfl

theorem mfLoop_rangeFree (d : Direction) (pairs : List (Nat × Option Nat)) :
    ∀ (s : LState) (hi q : Nat), rangeFreeEntry (s.sel q) →
      rangeFreeEntry ((mfLoop d pairs s hi).1.sel q) := by
  induction pairs with
  | nil => intro s hi q h; exact h
  | cons a rest ih =>
    intro s hi q h
    obtain ⟨node, po⟩ := a
    cases po with
    | none => exact h
    | some parent =>
      show rangeFreeEntry
        ((if ((s.info parent).kind.is_stacked
            && ((s.info parent).kind.orientation != d.orientation)) = true
          then mfLoop d rest s hi
          else mfLoop d rest (s.select_locally node).2
            (if ((s.select_locally node).1 && (s.info parent).kind.is_group) = true
              then node else hi)).1.sel q)
      by_cases hc : ((s.info parent).kind.is_stacked
          && ((s.info parent).kind.orientation != d.orientation)) = true
      · rw [if_pos hc]
        exact ih s hi q h
      · rw [if_neg hc]
        exact ih (s.select_locally node).2 _ q (select_locally_rangeFree s node q h)

theorem mfLoop_tree (d : Direction) (pairs : List (Nat × Option Nat)) :
    ∀ (s : LState) (hi : Nat), (mfLoop d pairs s hi).1.tree = s.tree := by
  induction pairs with
  | nil => intro s hi; rfl
  | cons a rest ih =>
    intro s hi
    obtain ⟨node, po⟩ := a
    cases po with
    | none => rfl
    | some parent =>
      show (if ((s.info parent).kind.is_stacked
            && ((s.info parent).kind.orientation != d.orientation)) = true
          then mfLoop d rest s hi
          else mfLoop d rest (s.select_locally node).2
            (if ((s.select_locally node).1 && (s.info parent).kind.is_group) = true
              then node else hi)).1.tree = s.tree
      by_cases hc : ((s.info parent).kind.is_stacked
          && ((s.info parent).kind.orientation != d.orientation)) = true
      · rw [if_pos hc]
        exact ih s hi
      · rw [if_neg hc]
        rw [ih (s.select_locally node).2 _]
        exact select_locally_tree s node

theorem move_focus_range_cleared (s : LState) (d : Direction) :
    (s.move_focus d).2.get_range s.current_selection = none := by
  simp only [LState.move_focus]
  split
  · rename_i hm
    apply get_range_none_of_rangeFree
    intro q hq
    rw [clear_range_tree] at hq
    exact clear_range_rangeFree_parent s s.current_selection q hq
  · rename_i newNode hm
    split
    · rename_i hft
      apply get_range_none_of_rangeFree
      intro q hq
      rw [clear_range_tree] at hq
      exact clear_range_rangeFree_parent s s.current_selection q hq
    · rename_i fn fw hft
      apply get_range_none_of_rangeFree
      intro q hq
      rw [mfLoop_tree, clear_range_tree] at hq
      exact mfLoop_rangeFree d _ _ _ q
        (clear_range_rangeFree_parent s s.current_selection q hq)

end Rift

namespace Rift

/-- C7 corrected: the five sibling/level navigation operations leave
the resulting effective selection without a recorded range (they clear
the old range and any re-selection writes range-free entries);
`move_focus` is only guaranteed to clear the range recorded for the
pre-call effective selection — the counterexample shows it can leave a
stale range on the post-call effective selection. -/
theorem C7_amended_range_clearing (s : LState) (d : Direction)
    (hnd : s.tree.allIds.Nodup) (hwf : selWFb s = true) :
    ((s.move_focus_level_restricted d).2.get_range
        (s.move_focus_level_restricted d).2.current_selection = none)
    ∧ ((s.next_sibling_window).2.get_range
        (s.next_sibling_window).2.current_selection = none)
    ∧ ((s.prev_sibling_window).2.get_range
        (s.prev_sibling_window).2.current_selection = none)
    ∧ ((s.ascend_selection).2.get_range
        (s.ascend_selection).2.current_selection = none)
    ∧ ((s.descend_selection).2.get_range
        (s.descend_selection).2.current_selection = none)
    ∧ ((s.move_focus d).2.get_range s.current_selection = none) :=
  ⟨range_free_step s hnd _ (mflr_cases s d),
   range_free_step s hnd _ (nsw_cases s),
   range_free_step s hnd _ (psw_cases s),
   range_free_step s hnd _ (ascend_cases s),
   range_free_step s hnd _ (descend_cases s hwf),
   move_focus_range_cleared s d⟩

theorem C7_amended_witness :
    exTwoWin.tree.allIds.Nodup ∧ selWFb exTwoWin = true
    ∧ (((exTwoWin.move_focus_level_restricted .right).2.get_range
        (exTwoWin.move_focus_level_restricted .right).2.current_selection = none)
      ∧ ((exTwoWin.next_sibling_window).2.get_range
        (exTwoWin.next_sibling_window).2.current_selection = none)
      ∧ ((exTwoWin.prev_sibling_window).2.get_range
        (exTwoWin.prev_sibling_window).2.current_selection = none)
      ∧ ((exTwoWin.ascend_selection).2.get_range
        (exTwoWin.ascend_selection).2.current_selection = none)
      ∧ ((exTwoWin.descend_selection).2.get_range
        (exTwoWin.descend_selection).2.current_selection = none)
      ∧ ((exTwoWin.move_focus .right).2.get_range
        exTwoWin.current_selection = none)) :=
  ⟨by decide, by decide,
    C7_amended_range_clearing exTwoWin .right (by decide) (by decide)⟩

end Rift

namespace Rift

/-- Flag exclusivity for a single layout-info entry (invariant 6 /
P5). -/
def fsOK (i : LayoutInfo) : Prop :=
  ¬(i.is_fullscreen = true ∧ i.is_fullscreen_within_gaps = true)

/-- P5 as a state invariant: no node has both fullscreen flags set. -/
def fsInv (s : LState) : Prop := ∀ n, fsOK (s.info n)

theorem fsOK_updMap (f : Nat → LayoutInfo) (h : ∀ n, fsOK (f n))
    (k : Nat) (v : LayoutInfo) (hv : fsOK v) (n : Nat) :
    fsOK (updMap f k v n) := by
  rw [updMap]
  by_cases hk : n = k
  · rw [if_pos hk]; exact hv
  · rw [if_neg hk]; exact h n

theorem fsOK_set_size (i : LayoutInfo) (q : ℚ) (h : fsOK i) :
    fsOK { i with size := q } := h

theorem fsOK_set_total (i : LayoutInfo) (q : ℚ) (h : fsOK i) :
    fsOK { i with total := q } := h

theorem fsOK_set_kindF (i : LayoutInfo) (k : LayoutKind) (h : fsOK i) :
    fsOK { i with kind := k } := h

theorem fsOK_set_lug (i : LayoutInfo) (k : LayoutKind) (h : fsOK i) :
    fsOK { i with last_ungrouped_kind := k } := h

theorem fsInv_select (s : LState) (x : Nat) (h : fsInv s) :
    fsInv (s.select x) := h

theorem fsInv_clear_range (s : LState) (x : Nat) (h : fsInv s) :
    fsInv (s.clear_range x) := by
  intro n
  rw [clear_range_info]
  exact h n

theorem select_locally_info (s : LState) (n : Nat) :
    (s.select_locally n).2.info = s.info := by
  rw [LState.select_locally]
  cases hp : s.tree.parentOf n <;> rfl

theorem fsInv_select_locally (s : LState) (x : Nat) (h : fsInv s) :
    fsInv (s.select_locally x).2 := by
  intro n
  rw [select_locally_info]
  exact h n

theorem set_range_info (s : LState) (x a b : Nat) :
    (s.set_range x a b).info = s.info := by
  rw [LState.set_range]
  cases hp : s.tree.parentOf x with
  | none => rfl
  | some p =>
    show (match s.sel p with
      | some si => { s with sel := updMap s.sel p (some { si with range_start := some a, range_end := some b }) }
      | none => s).info = s.info
    cases hsp : s.sel p <;> rfl

theorem fsInv_set_range (s : LState) (x a b : Nat) (h : fsInv s) :
    fsInv (s.set_range x a b) := by
  intro n
  rw [set_range_info]
  exact h n

theorem fsInv_set_window (s : LState) (layout x wid : Nat) (h : fsInv s) :
    fsInv (s.set_window layout x wid) := h

theorem fsInv_fireAddedToForest (s : LState) (x : Nat) (h : fsInv s) :
    fsInv (fireAddedToForest s x) :=
  fun n => fsOK_updMap s.info h x _ (fun hc => Bool.noConfusion hc.1) n

theorem fsInv_fireAddedToParent (s : LState) (x : Nat) (h : fsInv s) :
    fsInv (fireAddedToParent s x) := by
  intro n
  rw [fireAddedToParent.eq_def]
  cases hp : s.tree.parentOf x with
  | none => exact h n
  | some p =>
    apply fsOK_updMap
    · intro m
      exact fsOK_updMap s.info h x _ (fsOK_set_size _ _ (h x)) m
    · exact fsOK_set_total _ _
        (fsOK_updMap s.info h x _ (fsOK_set_size _ _ (h x)) p)

theorem fsInv_fireRemovingFromParent (s : LState) (x : Nat) (h : fsInv s) :
    fsInv (fireRemovingFromParent s x) := by
  intro n
  rw [fireRemovingFromParent.eq_def]
  cases hp : s.tree.parentOf x with
  | none => exact h n
  | some p =>
    exact fsOK_updMap s.info h p _ (fsOK_set_total _ _ (h p)) n

theorem fsInv_fireRemovedFromForest (s : LState) (x : Nat) (h : fsInv s) :
    fsInv (fireRemovedFromForest s x) :=
  fun n => fsOK_updMap s.info h x _ (fun hc => Bool.noConfusion hc.1) n

theorem fsInv_assume_size_of (s : LState) (a b : Nat) (h : fsInv s) :
    fsInv (s.assume_size_of a b) := by
  intro n
  rw [LState.assume_size_of.eq_def]
  cases hp : s.tree.parentOf a with
  | none => exact h n
  | some p =>
    apply fsOK_updMap
    · intro m
      apply fsOK_updMap
      · intro m2
        exact fsOK_updMap s.info h p _ (fsOK_set_total _ _ (h p)) m2
      · exact fsOK_set_size _ _
          (fsOK_updMap s.info h p _ (fsOK_set_total _ _ (h p)) a)
    · apply fsOK_set_size
      apply fsOK_updMap
      · intro m2
        exact fsOK_updMap s.info h p _ (fsOK_set_total _ _ (h p)) m2
      · exact fsOK_set_size _ _
          (fsOK_updMap s.info h p _ (fsOK_set_total _ _ (h p)) a)

theorem fsInv_set_kind (s : LState) (x : Nat) (k : LayoutKind)
    (h : fsInv s) : fsInv (s.set_kind x k) := by
  intro m
  apply fsOK_updMap s.info h x
  by_cases hg : k.is_group = true
  · rw [if_pos hg]
    exact fsOK_set_kindF _ _ (h x)
  · rw [if_neg hg]
    exact fsOK_set_lug _ _ (fsOK_set_kindF _ _ (h x))

theorem fsInv_set_fullscreen (s : LState) (x : Nat) (b : Bool)
    (h : fsInv s) : fsInv (s.set_fullscreen x b) := by
  intro m
  apply fsOK_updMap s.info h x
  cases b with
  | true =>
    rw [if_pos rfl]
    intro hc
    exact Bool.noConfusion hc.2
  | false =>
    rw [if_neg (by decide)]
    intro hc
    exact Bool.noConfusion hc.1

theorem fsInv_set_fullscreen_within_gaps (s : LState) (x : Nat) (b : Bool)
    (h : fsInv s) : fsInv (s.set_fullscreen_within_gaps x b) := by
  intro m
  apply fsOK_updMap s.info h x
  cases b with
  | true =>
    rw [if_pos rfl]
    intro hc
    exact Bool.noConfusion hc.1
  | false =>
    rw [if_neg (by decide)]
    intro hc
    exact Bool.noConfusion hc.2

theorem fsInv_toggle_fullscreen (s : LState) (x : Nat) (h : fsInv s) :
    fsInv (s.toggle_fullscreen x).2 := by
  intro m
  apply fsOK_updMap s.info h x
  cases hb : (! (s.info x).is_fullscreen) with
  | true =>
    rw [if_pos rfl]
    intro hc
    exact Bool.noConfusion hc.2
  | false =>
    rw [if_neg (by decide)]
    intro hc
    exact Bool.noConfusion hc.1

theorem fsInv_toggle_fullscreen_within_gaps (s : LState) (x : Nat)
    (h : fsInv s) : fsInv (s.toggle_fullscreen_within_gaps x).2 := by
  intro m
  apply fsOK_updMap s.info h x
  cases hb : (! (s.info x).is_fullscreen_within_gaps) with
  | true =>
    rw [if_pos rfl]
    intro hc
    exact Bool.noConfusion hc.1
  | false =>
    rw [if_neg (by decide)]
    intro hc
    exact Bool.noConfusion hc.2

end Rift

namespace Rift

theorem fsInv_mkNodeAttach (s : LState) (dest : AttachDest) (h : fsInv s) :
    fsInv (mkNodeAttach s dest).2 := by
  apply fsInv_fireAddedToParent
  exact fsInv_fireAddedToForest _ _ h

theorem fsInv_moveNode (s : LState) (x : Nat) (dest : AttachDest)
    (h : fsInv s) : fsInv (moveNode s x dest) := by
  rw [moveNode.eq_def]
  cases hf : s.tree.findSub x with
  | none => exact h
  | some sub =>
    apply fsInv_fireAddedToParent
    exact fsInv_fireRemovingFromParent s x h

theorem fsInv_foldl (g : LState → Nat → LState)
    (hg : ∀ st c, fsInv st → fsInv (g st c)) :
    ∀ (l : List Nat) (s : LState), fsInv s → fsInv (l.foldl g s) := by
  intro l
  induction l with
  | nil => intro s h; exact h
  | cons a rest ih => intro s h; exact ih _ (hg s a h)

theorem removeSub_succ (s : LState) (x fuel : Nat) :
    removeSub s x (fuel + 1) =
      match s.tree.findSub x with
      | none => s
      | some sub =>
        match s.tree.parentOf x with
        | none => s
        | some p =>
          removedChildHook
            (sub.allIds.foldl fireRemovedFromForest
              { fireRemovingFromParent s x with
                tree := LTree.delSub x (fireRemovingFromParent s x).tree })
            p fuel := rfl

theorem removedChildHook_succ (s : LState) (p fuel : Nat) :
    removedChildHook s p (fuel + 1) =
      match s.tree.parentOf p with
      | none => s
      | some _ =>
        match s.tree.childIds p with
        | [] => removeSub s p fuel
        | [c] =>
          removedChildHook
            ((moveNode s c (.afterSib p)).assume_size_of c p) p fuel
        | _ => s := rfl

theorem fsInv_removeSub_hook : ∀ fuel : Nat,
    (∀ s x, fsInv s → fsInv (removeSub s x fuel))
    ∧ (∀ s p, fsInv s → fsInv (removedChildHook s p fuel)) := by
  intro fuel
  induction fuel with
  | zero => exact ⟨fun s x h => h, fun s p h => h⟩
  | succ n ih =>
    constructor
    · intro s x h
      rw [removeSub_succ]
      cases hf : s.tree.findSub x with
      | none => exact h
      | some sub =>
        cases hp : s.tree.parentOf x with
        | none => exact h
        | some p =>
          apply ih.2
          apply fsInv_foldl fireRemovedFromForest fsInv_fireRemovedFromForest
          exact fsInv_fireRemovingFromParent s x h
    · intro s p h
      rw [removedChildHook_succ]
      cases hp : s.tree.parentOf p with
      | none => exact h
      | some q =>
        cases hc : s.tree.childIds p with
        | nil => exact ih.1 s p h
        | cons c rest =>
          cases rest with
          | nil =>
            apply ih.2
            apply fsInv_assume_size_of
            exact fsInv_moveNode s c _ h
          | cons c2 rest2 => exact h

theorem fsInv_ruci (s : LState) (container : Nat) (h : fsInv s) :
    fsInv (s.remove_unnecessary_container_internal container) := by
  rw [LState.remove_unnecessary_container_internal]
  by_cases hc : (s.tree.childIds container).length ≤ 1
  · rw [if_pos hc]
    apply (fsInv_removeSub_hook _).1
    apply fsInv_foldl
    · intro st c hst
      show fsInv (match s.tree.parentOf container with
        | some p => moveNode st c (.intoParent p)
        | none => removeSub st c (st.tree.nodeCount + 1))
      cases hp : s.tree.parentOf container with
      | some p => exact fsInv_moveNode st c _ hst
      | none => exact (fsInv_removeSub_hook _).1 st c hst
    · exact h
  · rw [if_neg hc]
    exact h

end Rift

namespace Rift

theorem fsInv_nest_in_container_internal (s : LState) (node : Nat)
    (kind : LayoutKind) (h : fsInv s) :
    fsInv (s.nest_in_container_internal node kind).2 := by
  cases hP : LTree.parentOf node s.tree with
  | some op =>
    simp only [LState.nest_in_container_internal, hP]
    split
    · exact fsInv_set_kind _ _ _ h
    · apply fsInv_set_kind
      apply fsInv_select_locally
      split
      · apply fsInv_select_locally
        apply fsInv_moveNode
        apply fsInv_assume_size_of
        exact fsInv_mkNodeAttach s (.beforeSib node) h
      · apply fsInv_moveNode
        apply fsInv_assume_size_of
        exact fsInv_mkNodeAttach s (.beforeSib node) h
  | none =>
    simp only [LState.nest_in_container_internal, hP]
    split
    · exact h
    · apply fsInv_set_kind
      apply fsInv_select_locally
      apply fsInv_fireAddedToParent
      exact fsInv_fireAddedToForest _ _ h

theorem fsInv_add_window_under (s : LState) (layout parent wid : Nat)
    (h : fsInv s) : fsInv (s.add_window_under layout parent wid).2 := by
  apply fsInv_set_window
  exact fsInv_mkNodeAttach s (.intoParent parent) h

theorem fsInv_smart_window_insertion (s : LState) (layout sel0 wid : Nat)
    (h : fsInv s) : fsInv (s.smart_window_insertion layout sel0 wid).2 := by
  cases hP : LTree.parentOf sel0 s.tree with
  | some p =>
    simp only [LState.smart_window_insertion, hP]
    split
    · exact fsInv_set_window _ layout _ wid
        (fsInv_mkNodeAttach (s.nest_in_container_internal sel0 ((s.info p).kind)).2
          (.intoParent (s.nest_in_container_internal sel0 ((s.info p).kind)).1)
          (fsInv_nest_in_container_internal s sel0 ((s.info p).kind) h))
    · exact fsInv_set_window _ layout _ wid
        (fsInv_mkNodeAttach s (.afterSib sel0) h)
  | none =>
    simp only [LState.smart_window_insertion, hP]
    exact fsInv_set_window _ layout _ wid
      (fsInv_mkNodeAttach s (.afterSib sel0) h)

theorem fsInv_add_window_after_selection (s : LState) (layout wid : Nat)
    (h : fsInv s) : fsInv (s.add_window_after_selection layout wid) := by
  rw [LState.add_window_after_selection]
  apply fsInv_select
  cases hP : (LTree.parentOf s.current_selection s.tree).isNone with
  | true => exact fsInv_add_window_under s layout s.current_selection wid h
  | false => exact fsInv_smart_window_insertion s layout s.current_selection wid h

theorem fsInv_apply_stacking (s : LState) (o : StackDefaultOrientation)
    (h : fsInv s) : fsInv (s.apply_stacking_to_parent_of_selection o).2 := by
  rw [LState.apply_stacking_to_parent_of_selection]
  cases htarget : (if (s.windows s.current_selection).isSome = true
      then LTree.parentOf s.current_selection s.tree
      else some s.current_selection) with
  | none => exact h
  | some container =>
    show fsInv (if (stackToggleKind (s.info container).kind o).is_stacked = true then
        (match (s.set_kind container
            (stackToggleKind (s.info container).kind o)).tree.firstChild container with
          | some fc => (s.set_kind container
              (stackToggleKind (s.info container).kind o)).select fc
          | none => s.set_kind container (stackToggleKind (s.info container).kind o))
      else s.set_kind container (stackToggleKind (s.info container).kind o))
    split
    · split
      · exact fsInv_select _ _ (fsInv_set_kind _ _ _ h)
      · exact fsInv_set_kind _ _ _ h
    · exact fsInv_set_kind _ _ _ h

theorem fsInv_swap_windows (s : LState) (layout a b : Nat) (h : fsInv s) :
    fsInv (s.swap_windows layout a b).2 := by
  rw [LState.swap_windows.eq_def]
  split
  · exact h
  · rename_i na hna
    split
    · exact h
    · rename_i nb hnb
      split
      · exact h
      · cases hwa : s.windows na <;> cases hwb : s.windows nb <;> exact h

theorem fsInv_mstsn (s : LState) (h : fsInv s) :
    fsInv (s.move_selection_to_sibling_next).2 := by
  simp only [LState.move_selection_to_sibling_next]
  split
  · exact h
  · split
    · exact h
    · repeat' split
      all_goals
        first
        | exact h
        | exact fsInv_ruci _ _ (fsInv_select _ _ (fsInv_moveNode s _ _ h))
        | exact fsInv_ruci _ _ (fsInv_moveNode s _ _ h)
        | exact (fsInv_removeSub_hook _).1 _ _
            (fsInv_select _ _ (fsInv_moveNode s _ _ h))
        | exact (fsInv_removeSub_hook _).1 _ _ (fsInv_moveNode s _ _ h)
        | exact fsInv_select _ _ (fsInv_moveNode s _ _ h)
        | exact fsInv_moveNode s _ _ h

theorem fsInv_select_window (s : LState) (layout wid : Nat) (h : fsInv s) :
    fsInv (s.select_window layout wid).2 := by
  rw [LState.select_window.eq_def]
  split
  · exact fsInv_select _ _ h
  · exact h

theorem fsInv_increase_selection_right (s : LState) (h : fsInv s) :
    fsInv (s.increase_selection_right).2 := by
  simp only [LState.increase_selection_right]
  split
  · exact fsInv_set_range _ _ _ _ h
  · exact h

theorem fsInv_toggle_fullscreen_of_selection (s : LState) (h : fsInv s) :
    fsInv (s.toggle_fullscreen_of_selection).2 := by
  simp only [LState.toggle_fullscreen_of_selection]
  split
  · exact fsInv_toggle_fullscreen s s.current_selection h
  · exact fsInv_toggle_fullscreen s s.current_selection h

theorem fsInv_toggle_fullscreen_within_gaps_of_selection (s : LState)
    (h : fsInv s) :
    fsInv (s.toggle_fullscreen_within_gaps_of_selection).2 := by
  simp only [LState.toggle_fullscreen_within_gaps_of_selection]
  split
  · exact fsInv_toggle_fullscreen_within_gaps s s.current_selection h
  · exact fsInv_toggle_fullscreen_within_gaps s s.current_selection h

theorem fsInv_mfLoop (d : Direction) (pairs : List (Nat × Option Nat)) :
    ∀ (s : LState) (hi : Nat), fsInv s → fsInv (mfLoop d pairs s hi).1 := by
  induction pairs with
  | nil => intro s hi h; exact h
  | cons a rest ih =>
    intro s hi h
    obtain ⟨node, po⟩ := a
    cases po with
    | none => exact h
    | some parent =>
      show fsInv
        ((if ((s.info parent).kind.is_stacked
            && ((s.info parent).kind.orientation != d.orientation)) = true
          then mfLoop d rest s hi
          else mfLoop d rest (s.select_locally node).2
            (if ((s.select_locally node).1 && (s.info parent).kind.is_group) = true
              then node else hi)).1)
      split
      · exact ih s hi h
      · exact ih _ _ (fsInv_select_locally s node h)

theorem fsInv_move_focus (s : LState) (d : Direction) (h : fsInv s) :
    fsInv (s.move_focus d).2 := by
  simp only [LState.move_focus]
  split
  · exact fsInv_clear_range _ _ h
  · split
    · exact fsInv_clear_range _ _ h
    · exact fsInv_mfLoop d _ _ _ (fsInv_clear_range _ _ h)

theorem fsInv_mflr (s : LState) (d : Direction) (h : fsInv s) :
    fsInv (s.move_focus_level_restricted d).2 := by
  rcases mflr_cases s d with hc | ⟨y, _, hc⟩ <;> rw [hc]
  · exact fsInv_clear_range _ _ h
  · exact fsInv_select _ _ (fsInv_clear_range _ _ h)

theorem fsInv_nsw (s : LState) (h : fsInv s) :
    fsInv (s.next_sibling_window).2 := by
  rcases nsw_cases s with hc | ⟨y, _, hc⟩ <;> rw [hc]
  · exact fsInv_clear_range _ _ h
  · exact fsInv_select _ _ (fsInv_clear_range _ _ h)

theorem fsInv_psw (s : LState) (h : fsInv s) :
    fsInv (s.prev_sibling_window).2 := by
  rcases psw_cases s with hc | ⟨y, _, hc⟩ <;> rw [hc]
  · exact fsInv_clear_range _ _ h
  · exact fsInv_select _ _ (fsInv_clear_range _ _ h)

theorem fsInv_ascend (s : LState) (h : fsInv s) :
    fsInv (s.ascend_selection).2 := by
  rcases ascend_cases s with hc | ⟨y, _, hc⟩ <;> rw [hc]
  · exact fsInv_clear_range _ _ h
  · exact fsInv_select _ _ (fsInv_clear_range _ _ h)

theorem descend_cases_weak (s : LState) :
    (s.descend_selection).2 = s.clear_range s.current_selection ∨
    ∃ y, (s.descend_selection).2
      = (s.clear_range s.current_selection).select y := by
  simp only [LState.descend_selection]
  split
  · rename_i child hc
    right; exact ⟨child, rfl⟩
  · split
    · rename_i fc hf
      right; exact ⟨fc, rfl⟩
    · left; rfl

theorem fsInv_descend (s : LState) (h : fsInv s) :
    fsInv (s.descend_selection).2 := by
  rcases descend_cases_weak s with hc | ⟨y, hc⟩ <;> rw [hc]
  · exact fsInv_clear_range _ _ h
  · exact fsInv_select _ _ (fsInv_clear_range _ _ h)

end Rift

namespace Rift

/-- The public mutating operations of the traditional layout system,
as translated above. -/
inductive Op where
  | addWindow (layout wid : Nat)
  | applyStacking (o : StackDefaultOrientation)
  | swapWin (layout a b : Nat)
  | moveToSiblingNext
  | moveFocus (d : Direction)
  | moveFocusLR (d : Direction)
  | nextSibWin
  | prevSibWin
  | ascendSel
  | descendSel
  | selectWin (layout wid : Nat)
  | increaseSelRight
  | toggleFs
  | toggleFsWG

/-- Run one public operation, keeping only the resulting state. -/
def applyOp (s : LState) : Op → LState
  | .addWindow l w => s.add_window_after_selection l w
  | .applyStacking o => (s.apply_stacking_to_parent_of_selection o).2
  | .swapWin l a b => (s.swap_windows l a b).2
  | .moveToSiblingNext => (s.move_selection_to_sibling_next).2
  | .moveFocus d => (s.move_focus d).2
  | .moveFocusLR d => (s.move_focus_level_restricted d).2
  | .nextSibWin => (s.next_sibling_window).2
  | .prevSibWin => (s.prev_sibling_window).2
  | .ascendSel => (s.ascend_selection).2
  | .descendSel => (s.descend_selection).2
  | .selectWin l w => (s.select_window l w).2
  | .increaseSelRight => (s.increase_selection_right).2
  | .toggleFs => (s.toggle_fullscreen_of_selection).2
  | .toggleFsWG => (s.toggle_fullscreen_within_gaps_of_selection).2

/-- Run a sequence of public operations. -/
def runOps : List Op → LState → LState
  | [], s => s
  | op :: rest, s => runOps rest (applyOp s op)

theorem fsInv_applyOp (s : LState) (op : Op) (h : fsInv s) :
    fsInv (applyOp s op) := by
  cases op with
  | addWindow l w => exact fsInv_add_window_after_selection s l w h
  | applyStacking o => exact fsInv_apply_stacking s o h
  | swapWin l a b => exact fsInv_swap_windows s l a b h
  | moveToSiblingNext => exact fsInv_mstsn s h
  | moveFocus d => exact fsInv_move_focus s d h
  | moveFocusLR d => exact fsInv_mflr s d h
  | nextSibWin => exact fsInv_nsw s h
  | prevSibWin => exact fsInv_psw s h
  | ascendSel => exact fsInv_ascend s h
  | descendSel => exact fsInv_descend s h
  | selectWin l w => exact fsInv_select_window s l w h
  | increaseSelRight => exact fsInv_increase_selection_right s h
  | toggleFs => exact fsInv_toggle_fullscreen_of_selection s h
  | toggleFsWG => exact fsInv_toggle_fullscreen_within_gaps_of_selection s h

/-- C8: after any sequence of public operations from a state in which
no node has both fullscreen flags set (in particular from a fresh
layout), still no node has `is_fullscreen` and
`is_fullscreen_within_gaps` simultaneously true: every write either
leaves the flags unchanged, resets them to the default, or sets one
while clearing the other. -/
theorem C8_fullscreen_flags_exclusive (ops : List Op) (s : LState)
    (h : fsInv s) : fsInv (runOps ops s) := by
  induction ops generalizing s with
  | nil => exact h
  | cons op rest ih => exact ih (applyOp s op) (fsInv_applyOp s op h)

theorem C8_witness :
    fsInv initState
    ∧ fsInv (runOps
        [Op.addWindow 0 10, Op.addWindow 0 11, Op.toggleFs,
         Op.toggleFsWG, Op.applyStacking .perpendicular, Op.toggleFs]
        initState) :=
  ⟨fun n hc => Bool.noConfusion hc.1,
    C8_fullscreen_flags_exclusive
      [Op.addWindow 0 10, Op.addWindow 0 11, Op.toggleFs,
       Op.toggleFsWG, Op.applyStacking .perpendicular, Op.toggleFs]
      initState (fun n hc => Bool.noConfusion hc.1)⟩

end Rift

namespace Rift

theorem allIdsL_append (l1 l2 : List LTree) :
    LTree.allIdsL (l1 ++ l2) = LTree.allIdsL l1 ++ LTree.allIdsL l2 := by
  induction l1 with
  | nil => rfl
  | cons c ts ih =>
    show LTree.allIds c ++ LTree.allIdsL (ts ++ l2)
      = (LTree.allIds c ++ LTree.allIdsL ts) ++ LTree.allIdsL l2
    rw [ih, List.append_assoc]

theorem fireRemovingFromParent_tree (s : LState) (x : Nat) :
    (fireRemovingFromParent s x).tree = s.tree := by
  rw [fireRemovingFromParent.eq_def]
  cases hp : s.tree.parentOf x <;> rfl

theorem fireAddedToParent_tree (s : LState) (x : Nat) :
    (fireAddedToParent s x).tree = s.tree := by
  rw [fireAddedToParent.eq_def]
  cases hp : s.tree.parentOf x <;> rfl

theorem moveNode_tree_intoParent (s : LState) (x p : Nat) (sub : LTree)
    (hf : s.tree.findSub x = some sub) :
    (moveNode s x (.intoParent p)).tree
      = LTree.pushBack p sub (LTree.delSub x s.tree) := by
  rw [moveNode.eq_def, hf]
  show (fireAddedToParent
    { fireRemovingFromParent s x with
      tree := LTree.pushBack p sub
        (LTree.delSub x (fireRemovingFromParent s x).tree) } x).tree
    = LTree.pushBack p sub (LTree.delSub x s.tree)
  rw [fireAddedToParent_tree]
  show LTree.pushBack p sub (LTree.delSub x (fireRemovingFromParent s x).tree)
    = LTree.pushBack p sub (LTree.delSub x s.tree)
  rw [fireRemovingFromParent_tree]

end Rift

namespace Rift

/-- C6: with a root having exactly two children — a selected leaf `S`
and a container sibling `C` with children — `move_selection_to_sibling_next`
reports success and moves `S` to the end of `C`: afterwards `C` is
still a child of the root and keeps all of its previous children; the
collapse rule does not fire because the root has no parent. -/
theorem C6_move_to_sibling_keeps_container (s : LState)
    (r sid cid : Nat) (c0 : LTree) (cs0 : List LTree)
    (htree : s.tree = .node r [.node sid [], .node cid (c0 :: cs0)])
    (hsel : s.current_selection = sid)
    (hwcid : s.windows cid = none)
    (hrs : r ≠ sid) (hrc : r ≠ cid) (hsc : sid ≠ cid)
    (hrcs : r ∉ LTree.allIdsL (c0 :: cs0)) :
    (s.move_selection_to_sibling_next).1 = true
    ∧ (s.move_selection_to_sibling_next).2.tree
      = .node r [.node cid ((c0 :: cs0) ++ [.node sid []])] := by
  have hpar : LTree.parentOf sid
      (LTree.node r [LTree.node sid [], LTree.node cid (c0 :: cs0)])
      = some r := by
    simp [LTree.parentOf, LTree.topId]
  have hchr : (LTree.node r [LTree.node sid [], LTree.node cid (c0 :: cs0)]).childIds r
      = [sid, cid] := by
    simp [LTree.childIds, LTree.findSub, LTree.childList, LTree.topId]
  have hafter : listAfter sid [sid, cid] = [cid] := by
    simp [listAfter]
  have hfsubC : (LTree.node r [LTree.node sid [], LTree.node cid (c0 :: cs0)]).findSub cid
      = some (.node cid (c0 :: cs0)) := by
    simp [LTree.findSub, LTree.findSubL, hrc, hsc]
  have hfc : (LTree.node r [LTree.node sid [], LTree.node cid (c0 :: cs0)]).firstChild cid
      = some c0.topId := by
    rw [LTree.firstChild, LTree.childIds, hfsubC]
    rfl
  have hfsubS : s.tree.findSub sid = some (.node sid []) := by
    rw [htree]
    simp [LTree.findSub, LTree.findSubL, hrs]
  have hdel : LTree.delSub sid
      (LTree.node r [LTree.node sid [], LTree.node cid (c0 :: cs0)])
      = LTree.node r [LTree.node cid (c0 :: cs0)] := by
    simp [LTree.delSub, LTree.delSubL, LTree.topId]
  have hpush : LTree.pushBack cid (LTree.node sid [])
      (LTree.node r [LTree.node cid (c0 :: cs0)])
      = LTree.node r [LTree.node cid ((c0 :: cs0) ++ [LTree.node sid []])] := by
    simp [LTree.pushBack, LTree.pushBackL, hrc]
  have hmvt : (moveNode s sid (.intoParent cid)).tree
      = LTree.node r [LTree.node cid ((c0 :: cs0) ++ [LTree.node sid []])] := by
    rw [moveNode_tree_intoParent s sid cid (.node sid []) hfsubS, htree, hdel, hpush]
  have hch2 : (LTree.node r [LTree.node cid ((c0 :: cs0) ++ [LTree.node sid []])]).childIds r
      = [cid] := by
    simp [LTree.childIds, LTree.findSub, LTree.childList, LTree.topId]
  have hnotm : r ∉ LTree.allIds (LTree.node cid ((c0 :: cs0) ++ [LTree.node sid []])) := by
    rw [LTree.allIds, allIdsL_append]
    simp [LTree.allIds, LTree.allIdsL, hrc, hrs, List.mem_append]
    constructor
    · intro hm
      exact hrcs (List.mem_append_left _ hm)
    · intro hm
      exact hrcs (List.mem_append_right _ hm)
  have hparR : LTree.parentOf r
      (LTree.node r [LTree.node cid ((c0 :: cs0) ++ [LTree.node sid []])])
      = none := by
    rw [LTree.parentOf]
    rw [if_neg ?_]
    · rw [LTree.parentOfL, parentOf_none_of_not_mem r _ hnotm]
      rfl
    · intro hc
      have h1 : r ∈ [LTree.node cid ((c0 :: cs0) ++ [LTree.node sid []])].map LTree.topId := by
        simpa using hc
      simp [LTree.topId] at h1
      exact hrc h1
  simp only [LState.move_selection_to_sibling_next, hsel, htree, hpar, hchr,
    hafter, List.find?, hfc, hwcid, Option.isSome_some, Option.isNone_none,
    Bool.and_true, Bool.and_self]
  refine ⟨trivial, ?_⟩
  have hs2t : (if s.local_selection r = some sid
      then (moveNode s sid (AttachDest.intoParent cid)).select sid
      else moveNode s sid (AttachDest.intoParent cid)).tree
      = LTree.node r [LTree.node cid (c0 :: cs0 ++ [LTree.node sid []])] := by
    by_cases hw : s.local_selection r = some sid
    · rw [if_pos hw]
      show (moveNode s sid (AttachDest.intoParent cid)).tree
        = LTree.node r [LTree.node cid (c0 :: cs0 ++ [LTree.node sid []])]
      exact hmvt
    · rw [if_neg hw]
      exact hmvt
  simp only [decide_eq_true_eq]
  rw [hs2t, hch2, hparR]
  simp only [List.length_cons, List.length_nil, Option.isSome_none,
    Bool.false_eq_true, if_false, if_true, reduceIte]
  exact hs2t

/-- A concrete two-children-root state: root `0` with selected window
leaf `1` and container `2` holding window leaves `3` and `4`. -/
def c6State : LState :=
  { tree := .node 0 [.node 1 [], .node 2 [.node 3 [], .node 4 []]]
    sel := fun n => if n = 0 then some ⟨1, false, none, none⟩ else none
    info := fun _ => LayoutInfo.default
    windows := fun n =>
      if n = 1 then some 10
      else if n = 3 then some 11
      else if n = 4 then some 12
      else none
    windowNodes := fun w =>
      if w = 10 then [(0, 1)]
      else if w = 11 then [(0, 3)]
      else if w = 12 then [(0, 4)]
      else []
    nextId := 5 }

theorem C6_witness :
    (c6State.tree = .node 0 [.node 1 [], .node 2 [.node 3 [], .node 4 []]]
      ∧ c6State.current_selection = 1
      ∧ c6State.windows 2 = none
      ∧ (0 : Nat) ≠ 1 ∧ (0 : Nat) ≠ 2 ∧ (1 : Nat) ≠ 2
      ∧ 0 ∉ LTree.allIdsL [LTree.node 3 [], LTree.node 4 []])
    ∧ ((c6State.move_selection_to_sibling_next).1 = true
      ∧ (c6State.move_selection_to_sibling_next).2.tree
        = .node 0 [.node 2 ([LTree.node 3 [], LTree.node 4 []] ++ [.node 1 []])]) :=
  ⟨⟨rfl, by decide, by decide, by decide, by decide, by decide, by decide⟩,
    C6_move_to_sibling_keeps_container c6State 0 1 2 (.node 3 []) [.node 4 []]
      rfl (by decide) (by decide) (by decide) (by decide) (by decide) (by decide)⟩

end Rift

namespace Rift

theorem topId_insAfter (sib : Nat) (sub t : LTree) :
    (LTree.insAfter sib sub t).topId = t.topId := by
  cases t
  rfl

theorem topId_insBefore (sib : Nat) (sub t : LTree) :
    (LTree.insBefore sib sub t).topId = t.topId := by
  cases t
  rfl

theorem topId_pushBack (p : Nat) (sub t : LTree) :
    (LTree.pushBack p sub t).topId = t.topId := by
  cases t with
  | node i cs =>
    rw [LTree.pushBack]
    by_cases hip : i = p
    · rw [if_pos hip]
      rfl
    · rw [if_neg hip]
      rfl

theorem insAfter_not_mem (sib : Nat) (sub : LTree) (t : LTree)
    (hx : sib ∉ t.allIds) : LTree.insAfter sib sub t = t := by
  refine LTree.rec
    (motive_1 := fun t => sib ∉ t.allIds → LTree.insAfter sib sub t = t)
    (motive_2 := fun cs => sib ∉ LTree.allIdsL cs →
      LTree.insAfterL sib sub cs = cs)
    ?_ ?_ ?_ t hx
  · intro i cs ih hm
    rw [LTree.allIds] at hm
    rw [LTree.insAfter]
    rw [ih (fun h => hm (List.mem_cons_of_mem i h))]
  · intro _
    rfl
  · intro c ts ihc ihts hm
    rw [LTree.allIdsL] at hm
    rw [LTree.insAfterL]
    rw [if_neg ?_]
    · rw [ihc (fun h => hm (List.mem_append_left _ h)),
        ihts (fun h => hm (List.mem_append_right _ h))]
    · intro hct
      apply hm
      apply List.mem_append_left
      cases c with
      | node j cs2 =>
        rw [LTree.topId] at hct
        rw [LTree.allIds, hct]
        exact List.mem_cons_self _ _

theorem insAfterL_not_mem (sib : Nat) (sub : LTree) (cs : List LTree)
    (hx : sib ∉ LTree.allIdsL cs) : LTree.insAfterL sib sub cs = cs := by
  induction cs with
  | nil => rfl
  | cons c ts ih =>
    rw [LTree.allIdsL] at hx
    rw [LTree.insAfterL]
    rw [if_neg ?_]
    · rw [insAfter_not_mem sib sub c (fun h => hx (List.mem_append_left _ h)),
        ih (fun h => hx (List.mem_append_right _ h))]
    · intro hct
      apply hx
      apply List.mem_append_left
      cases c with
      | node j cs2 =>
        rw [LTree.topId] at hct
        rw [LTree.allIds, hct]
        exact List.mem_cons_self _ _

theorem insBefore_not_mem (sib : Nat) (sub : LTree) (t : LTree)
    (hx : sib ∉ t.allIds) : LTree.insBefore sib sub t = t := by
  refine LTree.rec
    (motive_1 := fun t => sib ∉ t.allIds → LTree.insBefore sib sub t = t)
    (motive_2 := fun cs => sib ∉ LTree.allIdsL cs →
      LTree.insBeforeL sib sub cs = cs)
    ?_ ?_ ?_ t hx
  · intro i cs ih hm
    rw [LTree.allIds] at hm
    rw [LTree.insBefore]
    rw [ih (fun h => hm (List.mem_cons_of_mem i h))]
  · intro _
    rfl
  · intro c ts ihc ihts hm
    rw [LTree.allIdsL] at hm
    rw [LTree.insBeforeL]
    rw [if_neg ?_]
    · rw [ihc (fun h => hm (List.mem_append_left _ h)),
        ihts (fun h => hm (List.mem_append_right _ h))]
    · intro hct
      apply hm
      apply List.mem_append_left
      cases c with
      | node j cs2 =>
        rw [LTree.topId] at hct
        rw [LTree.allIds, hct]
        exact List.mem_cons_self _ _

theorem insBeforeL_not_mem (sib : Nat) (sub : LTree) (cs : List LTree)
    (hx : sib ∉ LTree.allIdsL cs) : LTree.insBeforeL sib sub cs = cs := by
  induction cs with
  | nil => rfl
  | cons c ts ih =>
    rw [LTree.allIdsL] at hx
    rw [LTree.insBeforeL]
    rw [if_neg ?_]
    · rw [insBefore_not_mem sib sub c (fun h => hx (List.mem_append_left _ h)),
        ih (fun h => hx (List.mem_append_right _ h))]
    · intro hct
      apply hx
      apply List.mem_append_left
      cases c with
      | node j cs2 =>
        rw [LTree.topId] at hct
        rw [LTree.allIds, hct]
        exact List.mem_cons_self _ _

theorem findSub_none_of_not_mem (x : Nat) (t : LTree)
    (hx : x ∉ t.allIds) : t.findSub x = none := by
  refine LTree.rec
    (motive_1 := fun t => x ∉ t.allIds → t.findSub x = none)
    (motive_2 := fun cs => x ∉ LTree.allIdsL cs → LTree.findSubL x cs = none)
    ?_ ?_ ?_ t hx
  · intro i cs ih hm
    rw [LTree.allIds] at hm
    rw [LTree.findSub]
    rw [if_neg (fun h => hm (by rw [← h]; exact List.mem_cons_self i _))]
    exact ih (fun h => hm (List.mem_cons_of_mem i h))
  · intro _
    rfl
  · intro c ts ihc ihts hm
    rw [LTree.allIdsL] at hm
    rw [LTree.findSubL]
    rw [ihc (fun h => hm (List.mem_append_left _ h))]
    exact ihts (fun h => hm (List.mem_append_right _ h))

theorem findSubL_none_of_not_mem (x : Nat) (cs : List LTree)
    (hx : x ∉ LTree.allIdsL cs) : LTree.findSubL x cs = none := by
  induction cs with
  | nil => rfl
  | cons c ts ih =>
    rw [LTree.allIdsL] at hx
    rw [LTree.findSubL]
    rw [findSub_none_of_not_mem x c (fun h => hx (List.mem_append_left _ h))]
    exact ih (fun h => hx (List.mem_append_right _ h))

theorem parentOfL_mem (x : Nat) (cs : List LTree) (p : Nat)
    (hp : LTree.parentOfL x cs = some p) : p ∈ LTree.allIdsL cs := by
  induction cs with
  | nil => exact Option.noConfusion hp
  | cons c ts ih =>
    rw [LTree.parentOfL] at hp
    rw [LTree.allIdsL]
    cases hc : LTree.parentOf x c with
    | some q =>
      rw [hc] at hp
      injection hp with hp
      exact List.mem_append_left _ (parentOf_mem x c p (by rw [hc, hp]))
    | none =>
      rw [hc] at hp
      exact List.mem_append_right _ (ih hp)

theorem parentOf_arg_mem (x : Nat) (t : LTree) (p : Nat)
    (hp : LTree.parentOf x t = some p) : x ∈ t.allIds := by
  refine LTree.rec
    (motive_1 := fun t => ∀ p, LTree.parentOf x t = some p → x ∈ t.allIds)
    (motive_2 := fun cs => ∀ p, LTree.parentOfL x cs = some p →
      x ∈ LTree.allIdsL cs)
    ?_ ?_ ?_ t p hp
  · intro i cs ih q hq
    rw [LTree.parentOf] at hq
    rw [LTree.allIds]
    by_cases hc : (cs.map LTree.topId).contains x
    · have : x ∈ cs.map LTree.topId := by
        simpa using hc
      obtain ⟨c, hcm, hct⟩ := List.mem_map.mp this
      exact List.mem_cons_of_mem i (hct ▸ topId_mem_allIdsL cs c hcm)
    · rw [if_neg hc] at hq
      exact List.mem_cons_of_mem i (ih q hq)
  · intro q hq
    exact Option.noConfusion hq
  · intro c ts ihc ihts q hq
    rw [LTree.parentOfL] at hq
    rw [LTree.allIdsL]
    cases hc : LTree.parentOf x c with
    | some w =>
      exact List.mem_append_left _ (ihc w hc)
    | none =>
      rw [hc] at hq
      exact List.mem_append_right _ (ihts q hq)

theorem parentOf_topId_none (t : LTree) (hnd : t.allIds.Nodup) :
    LTree.parentOf t.topId t = none := by
  cases t with
  | node i cs =>
    rw [LTree.allIds] at hnd
    have hni : i ∉ LTree.allIdsL cs := (List.nodup_cons.mp hnd).1
    rw [LTree.topId, LTree.parentOf]
    rw [if_neg ?_]
    · exact parentOfL_none_of_not_mem i cs hni
    · intro hc
      have : i ∈ cs.map LTree.topId := by
        simpa using hc
      obtain ⟨c, hcm, hct⟩ := List.mem_map.mp this
      exact hni (hct ▸ topId_mem_allIdsL cs c hcm)

theorem parentOfL_append (x : Nat) (l1 l2 : List LTree) :
    LTree.parentOfL x (l1 ++ l2)
      = match LTree.parentOfL x l1 with
        | some p => some p
        | none => LTree.parentOfL x l2 := by
  induction l1 with
  | nil => rfl
  | cons c ts ih =>
    show LTree.parentOfL x (c :: (ts ++ l2)) = _
    rw [LTree.parentOfL, LTree.parentOfL]
    cases hc : LTree.parentOf x c with
    | some q => rfl
    | none => exact ih

end Rift

namespace Rift

/-- Insert `y` directly after the first occurrence of `sib`. -/
def insertAfterId (sib y : Nat) : List Nat → List Nat
  | [] => []
  | a :: rest => if a = sib then a :: y :: rest else a :: insertAfterId sib y rest

/-- Insert `y` directly before the first occurrence of `sib`. -/
def insertBeforeId (sib y : Nat) : List Nat → List Nat
  | [] => []
  | a :: rest => if a = sib then y :: a :: rest else a :: insertBeforeId sib y rest

theorem mapTopId_insAfterL (sib : Nat) (sub : LTree) (cs : List LTree) :
    (LTree.insAfterL sib sub cs).map LTree.topId
      = insertAfterId sib sub.topId (cs.map LTree.topId) := by
  induction cs with
  | nil => rfl
  | cons c ts ih =>
    rw [LTree.insAfterL]
    by_cases hct : c.topId = sib
    · rw [if_pos hct]
      show c.topId :: sub.topId :: ts.map LTree.topId
        = insertAfterId sib sub.topId (c.topId :: ts.map LTree.topId)
      rw [insertAfterId, if_pos hct]
    · rw [if_neg hct]
      show (LTree.insAfter sib sub c).topId :: (LTree.insAfterL sib sub ts).map LTree.topId
        = insertAfterId sib sub.topId (c.topId :: ts.map LTree.topId)
      rw [insertAfterId, if_neg hct, topId_insAfter, ih]

theorem mapTopId_insBeforeL (sib : Nat) (sub : LTree) (cs : List LTree) :
    (LTree.insBeforeL sib sub cs).map LTree.topId
      = insertBeforeId sib sub.topId (cs.map LTree.topId) := by
  induction cs with
  | nil => rfl
  | cons c ts ih =>
    rw [LTree.insBeforeL]
    by_cases hct : c.topId = sib
    · rw [if_pos hct]
      show sub.topId :: c.topId :: ts.map LTree.topId
        = insertBeforeId sib sub.topId (c.topId :: ts.map LTree.topId)
      rw [insertBeforeId, if_pos hct]
    · rw [if_neg hct]
      show (LTree.insBefore sib sub c).topId :: (LTree.insBeforeL sib sub ts).map LTree.topId
        = insertBeforeId sib sub.topId (c.topId :: ts.map LTree.topId)
      rw [insertBeforeId, if_neg hct, topId_insBefore, ih]

theorem mapTopId_pushBackL (p : Nat) (sub : LTree) (cs : List LTree) :
    (LTree.pushBackL p sub cs).map LTree.topId = cs.map LTree.topId := by
  induction cs with
  | nil => rfl
  | cons c ts ih =>
    rw [LTree.pushBackL]
    show (LTree.pushBack p sub c).topId :: (LTree.pushBackL p sub ts).map LTree.topId
      = c.topId :: ts.map LTree.topId
    rw [topId_pushBack, ih]

theorem listNextAfter_insertAfterId (sib y : Nat) (l : List Nat)
    (hm : sib ∈ l) : listNextAfter sib (insertAfterId sib y l) = some y := by
  induction l with
  | nil => cases hm
  | cons a rest ih =>
    rw [insertAfterId]
    by_cases ha : a = sib
    · rw [if_pos ha]
      rw [listNextAfter, if_pos ha]
      rfl
    · rw [if_neg ha]
      rw [listNextAfter, if_neg ha]
      exact ih ((List.mem_cons.mp hm).resolve_left (fun h => ha h.symm))

theorem mem_insertAfterId (sib y a : Nat) (l : List Nat) (hm : a ∈ l) :
    a ∈ insertAfterId sib y l := by
  induction l with
  | nil => cases hm
  | cons b rest ih =>
    rw [insertAfterId]
    by_cases hb : b = sib
    · rw [if_pos hb]
      rcases List.mem_cons.mp hm with h | h
      · exact h ▸ List.mem_cons_self _ _
      · exact List.mem_cons_of_mem _ (List.mem_cons_of_mem _ h)
    · rw [if_neg hb]
      rcases List.mem_cons.mp hm with h | h
      · exact h ▸ List.mem_cons_self _ _
      · exact List.mem_cons_of_mem _ (ih h)

theorem sub_mem_insAfterL (sib : Nat) (sub : LTree) (cs : List LTree)
    (hm : sib ∈ cs.map LTree.topId) : sub ∈ LTree.insAfterL sib sub cs := by
  induction cs with
  | nil => cases hm
  | cons c ts ih =>
    rw [LTree.insAfterL]
    by_cases hct : c.topId = sib
    · rw [if_pos hct]
      exact List.mem_cons_of_mem _ (List.mem_cons_self _ _)
    · rw [if_neg hct]
      rcases List.mem_cons.mp hm with h | h
      · exact absurd h.symm hct
      · exact List.mem_cons_of_mem _ (ih h)

theorem sub_mem_insBeforeL (sib : Nat) (sub : LTree) (cs : List LTree)
    (hm : sib ∈ cs.map LTree.topId) : sub ∈ LTree.insBeforeL sib sub cs := by
  induction cs with
  | nil => cases hm
  | cons c ts ih =>
    rw [LTree.insBeforeL]
    by_cases hct : c.topId = sib
    · rw [if_pos hct]
      exact List.mem_cons_self _ _
    · rw [if_neg hct]
      rcases List.mem_cons.mp hm with h | h
      · exact absurd h.symm hct
      · exact List.mem_cons_of_mem _ (ih h)

end Rift

namespace Rift

theorem not_mem_insertAfterId (sib y a : Nat) (l : List Nat)
    (hl : a ∉ l) (hy : a ≠ y) : a ∉ insertAfterId sib y l := by
  induction l with
  | nil => intro h; cases h
  | cons b rest ih =>
    rw [insertAfterId]
    by_cases hb : b = sib
    · rw [if_pos hb]
      intro h
      rcases List.mem_cons.mp h with h1 | h1
      · exact hl (h1 ▸ List.mem_cons_self b rest)
      · rcases List.mem_cons.mp h1 with h2 | h2
        · exact hy h2
        · exact hl (List.mem_cons_of_mem b h2)
    · rw [if_neg hb]
      intro h
      rcases List.mem_cons.mp h with h1 | h1
      · exact hl (h1 ▸ List.mem_cons_self b rest)
      · exact ih (fun h2 => hl (List.mem_cons_of_mem b h2)) h1

theorem not_mem_insertBeforeId (sib y a : Nat) (l : List Nat)
    (hl : a ∉ l) (hy : a ≠ y) : a ∉ insertBeforeId sib y l := by
  induction l with
  | nil => intro h; cases h
  | cons b rest ih =>
    rw [insertBeforeId]
    by_cases hb : b = sib
    · rw [if_pos hb]
      intro h
      rcases List.mem_cons.mp h with h1 | h1
      · exact hy h1
      · rcases List.mem_cons.mp h1 with h2 | h2
        · exact hl (h2 ▸ List.mem_cons_self b rest)
        · exact hl (List.mem_cons_of_mem b h2)
    · rw [if_neg hb]
      intro h
      rcases List.mem_cons.mp h with h1 | h1
      · exact hl (h1 ▸ List.mem_cons_self b rest)
      · exact ih (fun h2 => hl (List.mem_cons_of_mem b h2)) h1

theorem parentOfL_arg_mem (x : Nat) (cs : List LTree) (p : Nat)
    (hp : LTree.parentOfL x cs = some p) : x ∈ LTree.allIdsL cs := by
  induction cs with
  | nil => exact Option.noConfusion hp
  | cons c ts ih =>
    rw [LTree.parentOfL] at hp
    rw [LTree.allIdsL]
    cases hc : LTree.parentOf x c with
    | some q =>
      exact List.mem_append_left _ (parentOf_arg_mem x c q hc)
    | none =>
      rw [hc] at hp
      exact List.mem_append_right _ (ih hp)

theorem parentOf_none_root (x : Nat) (t : LTree)
    (hnone : LTree.parentOf x t = none) (hm : x ∈ t.allIds) :
    x = t.topId := by
  refine LTree.rec
    (motive_1 := fun t => LTree.parentOf x t = none → x ∈ t.allIds →
      x = t.topId)
    (motive_2 := fun cs => LTree.parentOfL x cs = none →
      x ∈ LTree.allIdsL cs → x ∈ cs.map LTree.topId)
    ?_ ?_ ?_ t hnone hm
  · intro i cs ih hn hmem
    rw [LTree.parentOf] at hn
    rw [LTree.allIds] at hmem
    by_cases hc : (cs.map LTree.topId).contains x
    · rw [if_pos hc] at hn
      exact Option.noConfusion hn
    · rw [if_neg hc] at hn
      rcases List.mem_cons.mp hmem with h | h
      · exact h
      · exact absurd (List.elem_eq_true_of_mem (ih hn h)) (by simpa using hc)
  · intro _ hmem
    cases hmem
  · intro c ts ihc ihts hn hmem
    rw [LTree.parentOfL] at hn
    rw [LTree.allIdsL] at hmem
    cases hc : LTree.parentOf x c with
    | some q => rw [hc] at hn; exact Option.noConfusion hn
    | none =>
      rw [hc] at hn
      rcases List.mem_append.mp hmem with h | h
      · rw [List.map_cons]
        exact List.mem_cons.mpr (Or.inl (ihc hc h))
      · rw [List.map_cons]
        exact List.mem_cons_of_mem _ (ihts hn h)

theorem parentOfL_cons_none (x : Nat) (c : LTree) (ts : List LTree)
    (hc : LTree.parentOf x c = none) :
    LTree.parentOfL x (c :: ts) = LTree.parentOfL x ts := by
  rw [LTree.parentOfL, hc]

end Rift

namespace Rift

/-- Inserting a fresh subtree after `sib` under duplicate-free ids:
`sib` keeps its parent, and the parent's subtree gets the insertion
applied to its child list. -/
theorem insAfter_parent_findSub (sib : Nat) (sub : LTree)
    (hsib : sib ∉ sub.allIds) (t : LTree) :
    t.allIds.Nodup → ∀ p, LTree.parentOf sib t = some p →
      LTree.parentOf sib (LTree.insAfter sib sub t) = some p
      ∧ ∃ csp, LTree.findSub p t = some (.node p csp)
          ∧ LTree.findSub p (LTree.insAfter sib sub t)
            = some (.node p (LTree.insAfterL sib sub csp))
          ∧ sib ∈ csp.map LTree.topId := by
  refine LTree.rec
    (motive_1 := fun t => t.allIds.Nodup → ∀ p, LTree.parentOf sib t = some p →
      LTree.parentOf sib (LTree.insAfter sib sub t) = some p
      ∧ ∃ csp, LTree.findSub p t = some (.node p csp)
          ∧ LTree.findSub p (LTree.insAfter sib sub t)
            = some (.node p (LTree.insAfterL sib sub csp))
          ∧ sib ∈ csp.map LTree.topId)
    (motive_2 := fun cs => (LTree.allIdsL cs).Nodup →
      ∀ p, LTree.parentOfL sib cs = some p →
      LTree.parentOfL sib (LTree.insAfterL sib sub cs) = some p
      ∧ ∃ csp, LTree.findSubL p cs = some (.node p csp)
          ∧ LTree.findSubL p (LTree.insAfterL sib sub cs)
            = some (.node p (LTree.insAfterL sib sub csp))
          ∧ sib ∈ csp.map LTree.topId)
    ?_ ?_ ?_ t
  · intro i cs ih hnd p hp
    rw [LTree.allIds] at hnd
    have hi : i ∉ LTree.allIdsL cs := (List.nodup_cons.mp hnd).1
    have hndcs : (LTree.allIdsL cs).Nodup := (List.nodup_cons.mp hnd).2
    rw [LTree.parentOf] at hp
    rw [LTree.insAfter]
    by_cases hc : (cs.map LTree.topId).contains sib
    · rw [if_pos hc] at hp
      injection hp with hp
      subst hp
      have hmemc : sib ∈ cs.map LTree.topId := by simpa using hc
      constructor
      · rw [LTree.parentOf]
        rw [if_pos ?_]
        · rw [mapTopId_insAfterL]
          exact List.elem_eq_true_of_mem
            (mem_insertAfterId sib sub.topId sib _ hmemc)
      · refine ⟨cs, ?_, ?_, hmemc⟩
        · rw [LTree.findSub, if_pos rfl]
        · rw [LTree.findSub, if_pos rfl]
    · rw [if_neg hc] at hp
      obtain ⟨ihpar, csp, f1, f2, hmem⟩ := ih hndcs p hp
      have hip : i ≠ p := by
        intro hipeq
        exact hi (hipeq ▸ parentOfL_mem sib cs p hp)
      constructor
      · rw [LTree.parentOf]
        rw [if_neg ?_]
        · exact ihpar
        · intro hc2
          apply hc
          rw [mapTopId_insAfterL] at hc2
          have hsibtop : sib ≠ sub.topId := by
            intro heq
            exact hsib (heq ▸ topId_mem_allIds sub)
          have : sib ∈ insertAfterId sib sub.topId (cs.map LTree.topId) := by
            simpa using hc2
          by_cases hin : sib ∈ cs.map LTree.topId
          · exact List.elem_eq_true_of_mem hin
          · exact absurd this (not_mem_insertAfterId sib sub.topId sib _ hin hsibtop)
      · refine ⟨csp, ?_, ?_, hmem⟩
        · rw [LTree.findSub, if_neg hip]
          exact f1
        · rw [LTree.findSub, if_neg hip]
          exact f2
  · intro _ p hp
    exact Option.noConfusion hp
  · intro c ts ihc ihts hnd p hp
    rw [LTree.allIdsL] at hnd
    obtain ⟨hnc, hnts, hdisj⟩ := List.nodup_append.mp hnd
    rw [LTree.parentOfL] at hp
    rw [LTree.insAfterL]
    by_cases hct : c.topId = sib
    · exfalso
      have hpc : LTree.parentOf sib c = none := by
        have := parentOf_topId_none c hnc
        rw [hct] at this
        exact this
      rw [hpc] at hp
      have hsibts : sib ∈ LTree.allIdsL ts := parentOfL_arg_mem sib ts p hp
      exact hdisj (hct ▸ topId_mem_allIds c) hsibts
    · rw [if_neg hct]
      cases hpc : LTree.parentOf sib c with
      | some q =>
        rw [hpc] at hp
        injection hp with hp
        subst hp
        obtain ⟨ihpar, csp, f1, f2, hmem⟩ := ihc hnc q hpc
        constructor
        · rw [LTree.parentOfL, ihpar]
        · refine ⟨csp, ?_, ?_, hmem⟩
          · rw [LTree.findSubL, f1]
          · rw [LTree.findSubL, f2]
      | none =>
        rw [hpc] at hp
        obtain ⟨ihpar, csp, f1, f2, hmem⟩ := ihts hnts p hp
        have hsibc : sib ∉ c.allIds := by
          intro hin
          exact hct (parentOf_none_root sib c hpc hin).symm
        have hcunch : LTree.insAfter sib sub c = c := insAfter_not_mem sib sub c hsibc
        have hpts : p ∈ LTree.allIdsL ts := parentOfL_mem sib ts p hp
        have hpc2 : LTree.findSub p c = none :=
          findSub_none_of_not_mem p c (fun hin => hdisj hin hpts)
        constructor
        · rw [LTree.parentOfL, hcunch, hpc]
          exact ihpar
        · refine ⟨csp, ?_, ?_, hmem⟩
          · rw [LTree.findSubL, hpc2]
            exact f1
          · rw [LTree.findSubL, hcunch, hpc2]
            exact f2

end Rift

namespace Rift

/-- Inserting a fresh subtree before `sib` under duplicate-free ids:
`sib` keeps its parent, and the parent's subtree gets the insertion
applied to its child list. -/
theorem insBefore_parent_findSub (sib : Nat) (sub : LTree)
    (hsib : sib ∉ sub.allIds) (t : LTree) :
    t.allIds.Nodup → ∀ p, LTree.parentOf sib t = some p →
      LTree.parentOf sib (LTree.insBefore sib sub t) = some p
      ∧ ∃ csp, LTree.findSub p t = some (.node p csp)
          ∧ LTree.findSub p (LTree.insBefore sib sub t)
            = some (.node p (LTree.insBeforeL sib sub csp))
          ∧ sib ∈ csp.map LTree.topId := by
  refine LTree.rec
    (motive_1 := fun t => t.allIds.Nodup → ∀ p, LTree.parentOf sib t = some p →
      LTree.parentOf sib (LTree.insBefore sib sub t) = some p
      ∧ ∃ csp, LTree.findSub p t = some (.node p csp)
          ∧ LTree.findSub p (LTree.insBefore sib sub t)
            = some (.node p (LTree.insBeforeL sib sub csp))
          ∧ sib ∈ csp.map LTree.topId)
    (motive_2 := fun cs => (LTree.allIdsL cs).Nodup →
      ∀ p, LTree.parentOfL sib cs = some p →
      LTree.parentOfL sib (LTree.insBeforeL sib sub cs) = some p
      ∧ ∃ csp, LTree.findSubL p cs = some (.node p csp)
          ∧ LTree.findSubL p (LTree.insBeforeL sib sub cs)
            = some (.node p (LTree.insBeforeL sib sub csp))
          ∧ sib ∈ csp.map LTree.topId)
    ?_ ?_ ?_ t
  · intro i cs ih hnd p hp
    rw [LTree.allIds] at hnd
    have hi : i ∉ LTree.allIdsL cs := (List.nodup_cons.mp hnd).1
    have hndcs : (LTree.allIdsL cs).Nodup := (List.nodup_cons.mp hnd).2
    rw [LTree.parentOf] at hp
    rw [LTree.insBefore]
    by_cases hc : (cs.map LTree.topId).contains sib
    · rw [if_pos hc] at hp
      injection hp with hp
      subst hp
      have hmemc : sib ∈ cs.map LTree.topId := by simpa using hc
      constructor
      · rw [LTree.parentOf]
        rw [if_pos ?_]
        · rw [mapTopId_insBeforeL]
          have : sib ∈ insertBeforeId sib sub.topId (cs.map LTree.topId) := by
            clear hc hi hndcs hnd ih
            induction cs with
            | nil => cases hmemc
            | cons e us ihe =>
              rw [List.map_cons] at hmemc
              rw [List.map_cons, insertBeforeId]
              by_cases he : e.topId = sib
              · rw [if_pos he]
                exact List.mem_cons_of_mem _ (List.mem_cons.mpr (Or.inl he.symm))
              · rw [if_neg he]
                rcases List.mem_cons.mp hmemc with h | h
                · exact absurd h.symm he
                · exact List.mem_cons_of_mem _ (ihe h)
          exact List.elem_eq_true_of_mem this
      · refine ⟨cs, ?_, ?_, hmemc⟩
        · rw [LTree.findSub, if_pos rfl]
        · rw [LTree.findSub, if_pos rfl]
    · rw [if_neg hc] at hp
      obtain ⟨ihpar, csp, f1, f2, hmem⟩ := ih hndcs p hp
      have hip : i ≠ p := by
        intro hipeq
        exact hi (hipeq ▸ parentOfL_mem sib cs p hp)
      constructor
      · rw [LTree.parentOf]
        rw [if_neg ?_]
        · exact ihpar
        · intro hc2
          apply hc
          rw [mapTopId_insBeforeL] at hc2
          have hsibtop : sib ≠ sub.topId := by
            intro heq
            exact hsib (heq ▸ topId_mem_allIds sub)
          have : sib ∈ insertBeforeId sib sub.topId (cs.map LTree.topId) := by
            simpa using hc2
          by_cases hin : sib ∈ cs.map LTree.topId
          · exact List.elem_eq_true_of_mem hin
          · exact absurd this (not_mem_insertBeforeId sib sub.topId sib _ hin hsibtop)
      · refine ⟨csp, ?_, ?_, hmem⟩
        · rw [LTree.findSub, if_neg hip]
          exact f1
        · rw [LTree.findSub, if_neg hip]
          exact f2
  · intro _ p hp
    exact Option.noConfusion hp
  · intro c ts ihc ihts hnd p hp
    rw [LTree.allIdsL] at hnd
    obtain ⟨hnc, hnts, hdisj⟩ := List.nodup_append.mp hnd
    rw [LTree.parentOfL] at hp
    rw [LTree.insBeforeL]
    by_cases hct : c.topId = sib
    · exfalso
      have hpc : LTree.parentOf sib c = none := by
        have := parentOf_topId_none c hnc
        rw [hct] at this
        exact this
      rw [hpc] at hp
      have hsibts : sib ∈ LTree.allIdsL ts := parentOfL_arg_mem sib ts p hp
      exact hdisj (hct ▸ topId_mem_allIds c) hsibts
    · rw [if_neg hct]
      cases hpc : LTree.parentOf sib c with
      | some q =>
        rw [hpc] at hp
        injection hp with hp
        subst hp
        obtain ⟨ihpar, csp, f1, f2, hmem⟩ := ihc hnc q hpc
        constructor
        · rw [LTree.parentOfL, ihpar]
        · refine ⟨csp, ?_, ?_, hmem⟩
          · rw [LTree.findSubL, f1]
          · rw [LTree.findSubL, f2]
      | none =>
        rw [hpc] at hp
        obtain ⟨ihpar, csp, f1, f2, hmem⟩ := ihts hnts p hp
        have hsibc : sib ∉ c.allIds := by
          intro hin
          exact hct (parentOf_none_root sib c hpc hin).symm
        have hcunch : LTree.insBefore sib sub c = c := insBefore_not_mem sib sub c hsibc
        have hpts : p ∈ LTree.allIdsL ts := parentOfL_mem sib ts p hp
        have hpc2 : LTree.findSub p c = none :=
          findSub_none_of_not_mem p c (fun hin => hdisj hin hpts)
        constructor
        · rw [LTree.parentOfL, hcunch, hpc]
          exact ihpar
        · refine ⟨csp, ?_, ?_, hmem⟩
          · rw [LTree.findSubL, hpc2]
            exact f1
          · rw [LTree.findSubL, hcunch, hpc2]
            exact f2

end Rift

namespace Rift

theorem pushBack_not_mem (p : Nat) (sub : LTree) (t : LTree)
    (hx : p ∉ t.allIds) : LTree.pushBack p sub t = t := by
  refine LTree.rec
    (motive_1 := fun t => p ∉ t.allIds → LTree.pushBack p sub t = t)
    (motive_2 := fun cs => p ∉ LTree.allIdsL cs →
      LTree.pushBackL p sub cs = cs)
    ?_ ?_ ?_ t hx
  · intro i cs ih hm
    rw [LTree.allIds] at hm
    rw [LTree.pushBack]
    rw [if_neg (fun h => hm (by rw [h]; exact List.mem_cons_self p _))]
    rw [ih (fun h => hm (List.mem_cons_of_mem i h))]
  · intro _
    rfl
  · intro c ts ihc ihts hm
    rw [LTree.allIdsL] at hm
    rw [LTree.pushBackL]
    rw [ihc (fun h => hm (List.mem_append_left _ h)),
      ihts (fun h => hm (List.mem_append_right _ h))]

theorem pushBackL_not_mem (p : Nat) (sub : LTree) (cs : List LTree)
    (hx : p ∉ LTree.allIdsL cs) : LTree.pushBackL p sub cs = cs := by
  induction cs with
  | nil => rfl
  | cons c ts ih =>
    rw [LTree.allIdsL] at hx
    rw [LTree.pushBackL]
    rw [pushBack_not_mem p sub c (fun h => hx (List.mem_append_left _ h)),
      ih (fun h => hx (List.mem_append_right _ h))]

theorem delSub_not_mem (x : Nat) (t : LTree)
    (hx : x ∉ t.allIds) : LTree.delSub x t = t := by
  refine LTree.rec
    (motive_1 := fun t => x ∉ t.allIds → LTree.delSub x t = t)
    (motive_2 := fun cs => x ∉ LTree.allIdsL cs →
      LTree.delSubL x cs = cs)
    ?_ ?_ ?_ t hx
  · intro i cs ih hm
    rw [LTree.allIds] at hm
    rw [LTree.delSub]
    rw [ih (fun h => hm (List.mem_cons_of_mem i h))]
  · intro _
    rfl
  · intro c ts ihc ihts hm
    rw [LTree.allIdsL] at hm
    rw [LTree.delSubL]
    rw [if_neg ?_]
    · rw [ihc (fun h => hm (List.mem_append_left _ h)),
        ihts (fun h => hm (List.mem_append_right _ h))]
    · intro hct
      exact hm (List.mem_append_left _ (hct ▸ topId_mem_allIds c))

theorem delSubL_not_mem (x : Nat) (cs : List LTree)
    (hx : x ∉ LTree.allIdsL cs) : LTree.delSubL x cs = cs := by
  induction cs with
  | nil => rfl
  | cons c ts ih =>
    rw [LTree.allIdsL] at hx
    rw [LTree.delSubL]
    rw [if_neg ?_]
    · rw [delSub_not_mem x c (fun h => hx (List.mem_append_left _ h)),
        ih (fun h => hx (List.mem_append_right _ h))]
    · intro hct
      exact hx (List.mem_append_left _ (hct ▸ topId_mem_allIds c))

theorem findSub_isSome_of_mem (x : Nat) (t : LTree)
    (hm : x ∈ t.allIds) : (t.findSub x).isSome = true := by
  refine LTree.rec
    (motive_1 := fun t => x ∈ t.allIds → (t.findSub x).isSome = true)
    (motive_2 := fun cs => x ∈ LTree.allIdsL cs →
      (LTree.findSubL x cs).isSome = true)
    ?_ ?_ ?_ t hm
  · intro i cs ih hmem
    rw [LTree.allIds] at hmem
    rw [LTree.findSub]
    by_cases hix : i = x
    · rw [if_pos hix]
      rfl
    · rw [if_neg hix]
      exact ih ((List.mem_cons.mp hmem).resolve_left (fun h => hix h.symm))
  · intro hmem
    cases hmem
  · intro c ts ihc ihts hmem
    rw [LTree.allIdsL] at hmem
    rw [LTree.findSubL]
    rcases List.mem_append.mp hmem with h | h
    · cases hc : c.findSub x with
      | some r => rfl
      | none =>
        rw [hc] at ihc
        exact absurd (ihc h) (by simp)
    · cases hc : c.findSub x with
      | some r => rfl
      | none => exact ihts h

theorem findSub_topId (x : Nat) (t : LTree) (r : LTree)
    (hf : t.findSub x = some r) : r.topId = x := by
  refine LTree.rec
    (motive_1 := fun t => ∀ r, t.findSub x = some r → r.topId = x)
    (motive_2 := fun cs => ∀ r, LTree.findSubL x cs = some r → r.topId = x)
    ?_ ?_ ?_ t r hf
  · intro i cs ih r2 hf2
    rw [LTree.findSub] at hf2
    by_cases hix : i = x
    · rw [if_pos hix] at hf2
      injection hf2 with hf2
      rw [← hf2, LTree.topId, hix]
    · rw [if_neg hix] at hf2
      exact ih r2 hf2
  · intro r2 hf2
    exact Option.noConfusion hf2
  · intro c ts ihc ihts r2 hf2
    rw [LTree.findSubL] at hf2
    cases hc : c.findSub x with
    | some q =>
      rw [hc] at hf2
      injection hf2 with hf2
      exact ihc r2 (by rw [hc, hf2])
    | none =>
      rw [hc] at hf2
      exact ihts r2 hf2

end Rift

namespace Rift

theorem perm_shuffle2 (a b s : List Nat) :
    ((a ++ s) ++ b).Perm ((a ++ b) ++ s) := by
  rw [List.append_assoc, List.append_assoc]
  exact List.Perm.append_left a (List.perm_append_comm)

theorem perm_shuffle3 (a b s x : List Nat) (h : x.Perm (b ++ s)) :
    (a ++ x).Perm ((a ++ b) ++ s) := by
  rw [List.append_assoc]
  exact List.Perm.append_left a (h.trans List.perm_append_comm |>.trans List.perm_append_comm)

theorem perm_shuffle4 (a b s x : List Nat) (h : x.Perm (a ++ s)) :
    (x ++ b).Perm ((a ++ b) ++ s) :=
  (List.Perm.append_right b h).trans (perm_shuffle2 a b s)

theorem allIdsL_insAfterL_perm_of_top (sib : Nat) (sub : LTree)
    (cs : List LTree) (hnd : (LTree.allIdsL cs).Nodup)
    (hm : sib ∈ cs.map LTree.topId) :
    (LTree.allIdsL (LTree.insAfterL sib sub cs)).Perm
      (LTree.allIdsL cs ++ sub.allIds) := by
  induction cs with
  | nil => cases hm
  | cons c ts ih =>
    rw [LTree.allIdsL] at hnd
    obtain ⟨hnc, hnts, hdisj⟩ := List.nodup_append.mp hnd
    rw [LTree.insAfterL]
    by_cases hct : c.topId = sib
    · rw [if_pos hct]
      show (LTree.allIds c ++ (sub.allIds ++ LTree.allIdsL ts)).Perm
        ((LTree.allIds c ++ LTree.allIdsL ts) ++ sub.allIds)
      exact perm_shuffle3 _ _ _ _ List.perm_append_comm
    · rw [if_neg hct]
      have hmts : sib ∈ ts.map LTree.topId := by
        rw [List.map_cons] at hm
        rcases List.mem_cons.mp hm with h | h
        · exact absurd h.symm hct
        · exact h
      have hsibt : sib ∈ LTree.allIdsL ts := by
        obtain ⟨e, hem, het⟩ := List.mem_map.mp hmts
        exact het ▸ topId_mem_allIdsL ts e hem
      have hsc : sib ∉ c.allIds := fun h => hdisj h hsibt
      rw [insAfter_not_mem sib sub c hsc]
      show (LTree.allIds c ++ LTree.allIdsL (LTree.insAfterL sib sub ts)).Perm
        ((LTree.allIds c ++ LTree.allIdsL ts) ++ sub.allIds)
      exact perm_shuffle3 _ _ _ _ (ih hnts hmts)

theorem allIds_insAfter_perm (sib : Nat) (sub : LTree) (t : LTree) :
    t.allIds.Nodup → ∀ p, LTree.parentOf sib t = some p →
      (LTree.insAfter sib sub t).allIds.Perm (t.allIds ++ sub.allIds) := by
  refine LTree.rec
    (motive_1 := fun t => t.allIds.Nodup → ∀ p, LTree.parentOf sib t = some p →
      (LTree.insAfter sib sub t).allIds.Perm (t.allIds ++ sub.allIds))
    (motive_2 := fun cs => (LTree.allIdsL cs).Nodup →
      ∀ p, LTree.parentOfL sib cs = some p →
      (LTree.allIdsL (LTree.insAfterL sib sub cs)).Perm
        (LTree.allIdsL cs ++ sub.allIds))
    ?_ ?_ ?_ t
  · intro i cs ih hnd p hp
    rw [LTree.allIds] at hnd
    have hndcs : (LTree.allIdsL cs).Nodup := (List.nodup_cons.mp hnd).2
    rw [LTree.parentOf] at hp
    rw [LTree.insAfter]
    show (i :: LTree.allIdsL (LTree.insAfterL sib sub cs)).Perm
      ((i :: LTree.allIdsL cs) ++ sub.allIds)
    by_cases hc : (cs.map LTree.topId).contains sib
    · have hmemc : sib ∈ cs.map LTree.topId := by simpa using hc
      exact List.Perm.cons i (allIdsL_insAfterL_perm_of_top sib sub cs hndcs hmemc)
    · rw [if_neg hc] at hp
      exact List.Perm.cons i (ih hndcs p hp)
  · intro _ p hp
    exact Option.noConfusion hp
  · intro c ts ihc ihts hnd p hp
    rw [LTree.allIdsL] at hnd
    obtain ⟨hnc, hnts, hdisj⟩ := List.nodup_append.mp hnd
    rw [LTree.parentOfL] at hp
    rw [LTree.insAfterL]
    by_cases hct : c.topId = sib
    · exfalso
      have hpc : LTree.parentOf sib c = none := by
        have := parentOf_topId_none c hnc
        rw [hct] at this
        exact this
      rw [hpc] at hp
      exact hdisj (hct ▸ topId_mem_allIds c) (parentOfL_arg_mem sib ts p hp)
    · rw [if_neg hct]
      cases hpc : LTree.parentOf sib c with
      | some q =>
        have hsibc : sib ∈ c.allIds := parentOf_arg_mem sib c q hpc
        have hsts : sib ∉ LTree.allIdsL ts := fun h => hdisj hsibc h
        rw [insAfterL_not_mem sib sub ts hsts]
        show (LTree.allIds (LTree.insAfter sib sub c) ++ LTree.allIdsL ts).Perm
          ((LTree.allIds c ++ LTree.allIdsL ts) ++ sub.allIds)
        exact perm_shuffle4 _ _ _ _ (ihc hnc q hpc)
      | none =>
        rw [hpc] at hp
        have hsibc : sib ∉ c.allIds := by
          intro hin
          exact hct (parentOf_none_root sib c hpc hin).symm
        rw [insAfter_not_mem sib sub c hsibc]
        show (LTree.allIds c ++ LTree.allIdsL (LTree.insAfterL sib sub ts)).Perm
          ((LTree.allIds c ++ LTree.allIdsL ts) ++ sub.allIds)
        exact perm_shuffle3 _ _ _ _ (ihts hnts p hp)

end Rift

namespace Rift

theorem allIdsL_insBeforeL_perm_of_top (sib : Nat) (sub : LTree)
    (cs : List LTree) (hnd : (LTree.allIdsL cs).Nodup)
    (hm : sib ∈ cs.map LTree.topId) :
    (LTree.allIdsL (LTree.insBeforeL sib sub cs)).Perm
      (LTree.allIdsL cs ++ sub.allIds) := by
  induction cs with
  | nil => cases hm
  | cons c ts ih =>
    rw [LTree.allIdsL] at hnd
    obtain ⟨hnc, hnts, hdisj⟩ := List.nodup_append.mp hnd
    rw [LTree.insBeforeL]
    by_cases hct : c.topId = sib
    · rw [if_pos hct]
      show (sub.allIds ++ (LTree.allIds c ++ LTree.allIdsL ts)).Perm
        ((LTree.allIds c ++ LTree.allIdsL ts) ++ sub.allIds)
      exact List.perm_append_comm
    · rw [if_neg hct]
      have hmts : sib ∈ ts.map LTree.topId := by
        rw [List.map_cons] at hm
        rcases List.mem_cons.mp hm with h | h
        · exact absurd h.symm hct
        · exact h
      have hsibt : sib ∈ LTree.allIdsL ts := by
        obtain ⟨e, hem, het⟩ := List.mem_map.mp hmts
        exact het ▸ topId_mem_allIdsL ts e hem
      have hsc : sib ∉ c.allIds := fun h => hdisj h hsibt
      rw [insBefore_not_mem sib sub c hsc]
      show (LTree.allIds c ++ LTree.allIdsL (LTree.insBeforeL sib sub ts)).Perm
        ((LTree.allIds c ++ LTree.allIdsL ts) ++ sub.allIds)
      exact perm_shuffle3 _ _ _ _ (ih hnts hmts)

theorem allIds_insBefore_perm (sib : Nat) (sub : LTree) (t : LTree) :
    t.allIds.Nodup → ∀ p, LTree.parentOf sib t = some p →
      (LTree.insBefore sib sub t).allIds.Perm (t.allIds ++ sub.allIds) := by
  refine LTree.rec
    (motive_1 := fun t => t.allIds.Nodup → ∀ p, LTree.parentOf sib t = some p →
      (LTree.insBefore sib sub t).allIds.Perm (t.allIds ++ sub.allIds))
    (motive_2 := fun cs => (LTree.allIdsL cs).Nodup →
      ∀ p, LTree.parentOfL sib cs = some p →
      (LTree.allIdsL (LTree.insBeforeL sib sub cs)).Perm
        (LTree.allIdsL cs ++ sub.allIds))
    ?_ ?_ ?_ t
  · intro i cs ih hnd p hp
    rw [LTree.allIds] at hnd
    have hndcs : (LTree.allIdsL cs).Nodup := (List.nodup_cons.mp hnd).2
    rw [LTree.parentOf] at hp
    rw [LTree.insBefore]
    show (i :: LTree.allIdsL (LTree.insBeforeL sib sub cs)).Perm
      ((i :: LTree.allIdsL cs) ++ sub.allIds)
    by_cases hc : (cs.map LTree.topId).contains sib
    · have hmemc : sib ∈ cs.map LTree.topId := by simpa using hc
      exact List.Perm.cons i (allIdsL_insBeforeL_perm_of_top sib sub cs hndcs hmemc)
    · rw [if_neg hc] at hp
      exact List.Perm.cons i (ih hndcs p hp)
  · intro _ p hp
    exact Option.noConfusion hp
  · intro c ts ihc ihts hnd p hp
    rw [LTree.allIdsL] at hnd
    obtain ⟨hnc, hnts, hdisj⟩ := List.nodup_append.mp hnd
    rw [LTree.parentOfL] at hp
    rw [LTree.insBeforeL]
    by_cases hct : c.topId = sib
    · exfalso
      have hpc : LTree.parentOf sib c = none := by
        have := parentOf_topId_none c hnc
        rw [hct] at this
        exact this
      rw [hpc] at hp
      exact hdisj (hct ▸ topId_mem_allIds c) (parentOfL_arg_mem sib ts p hp)
    · rw [if_neg hct]
      cases hpc : LTree.parentOf sib c with
      | some q =>
        have hsibc : sib ∈ c.allIds := parentOf_arg_mem sib c q hpc
        have hsts : sib ∉ LTree.allIdsL ts := fun h => hdisj hsibc h
        rw [insBeforeL_not_mem sib sub ts hsts]
        show (LTree.allIds (LTree.insBefore sib sub c) ++ LTree.allIdsL ts).Perm
          ((LTree.allIds c ++ LTree.allIdsL ts) ++ sub.allIds)
        exact perm_shuffle4 _ _ _ _ (ihc hnc q hpc)
      | none =>
        rw [hpc] at hp
        have hsibc : sib ∉ c.allIds := by
          intro hin
          exact hct (parentOf_none_root sib c hpc hin).symm
        rw [insBefore_not_mem sib sub c hsibc]
        show (LTree.allIds c ++ LTree.allIdsL (LTree.insBeforeL sib sub ts)).Perm
          ((LTree.allIds c ++ LTree.allIdsL ts) ++ sub.allIds)
        exact perm_shuffle3 _ _ _ _ (ihts hnts p hp)

theorem allIds_pushBack_perm (p : Nat) (sub : LTree) (t : LTree) :
    t.allIds.Nodup → p ∈ t.allIds →
      (LTree.pushBack p sub t).allIds.Perm (t.allIds ++ sub.allIds) := by
  refine LTree.rec
    (motive_1 := fun t => t.allIds.Nodup → p ∈ t.allIds →
      (LTree.pushBack p sub t).allIds.Perm (t.allIds ++ sub.allIds))
    (motive_2 := fun cs => (LTree.allIdsL cs).Nodup → p ∈ LTree.allIdsL cs →
      (LTree.allIdsL (LTree.pushBackL p sub cs)).Perm
        (LTree.allIdsL cs ++ sub.allIds))
    ?_ ?_ ?_ t
  · intro i cs ih hnd hm
    rw [LTree.allIds] at hnd hm
    have hndcs : (LTree.allIdsL cs).Nodup := (List.nodup_cons.mp hnd).2
    rw [LTree.pushBack]
    by_cases hip : i = p
    · rw [if_pos hip]
      show (i :: LTree.allIdsL (cs ++ [sub])).Perm
        ((i :: LTree.allIdsL cs) ++ sub.allIds)
      rw [allIdsL_append]
      show (i :: (LTree.allIdsL cs ++ (sub.allIds ++ []))).Perm
        ((i :: LTree.allIdsL cs) ++ sub.allIds)
      rw [List.append_nil]
      exact List.Perm.refl _
    · rw [if_neg hip]
      have hmcs : p ∈ LTree.allIdsL cs :=
        (List.mem_cons.mp hm).resolve_left (fun h => hip h.symm)
      show (i :: LTree.allIdsL (LTree.pushBackL p sub cs)).Perm
        ((i :: LTree.allIdsL cs) ++ sub.allIds)
      exact List.Perm.cons i (ih hndcs hmcs)
  · intro _ hm
    cases hm
  · intro c ts ihc ihts hnd hm
    rw [LTree.allIdsL] at hnd hm
    obtain ⟨hnc, hnts, hdisj⟩ := List.nodup_append.mp hnd
    rw [LTree.pushBackL]
    rcases List.mem_append.mp hm with h | h
    · have hpts : p ∉ LTree.allIdsL ts := fun h2 => hdisj h h2
      rw [pushBackL_not_mem p sub ts hpts]
      show (LTree.allIds (LTree.pushBack p sub c) ++ LTree.allIdsL ts).Perm
        ((LTree.allIds c ++ LTree.allIdsL ts) ++ sub.allIds)
      exact perm_shuffle4 _ _ _ _ (ihc hnc h)
    · have hpc : p ∉ c.allIds := fun h2 => hdisj h2 h
      rw [pushBack_not_mem p sub c hpc]
      show (LTree.allIds c ++ LTree.allIdsL (LTree.pushBackL p sub ts)).Perm
        ((LTree.allIds c ++ LTree.allIdsL ts) ++ sub.allIds)
      exact perm_shuffle3 _ _ _ _ (ihts hnts h)

end Rift

namespace Rift

theorem perm_shuffle5 (a b r a2 : List Nat) (h : (a2 ++ r).Perm a) :
    ((a2 ++ b) ++ r).Perm (a ++ b) := by
  rw [List.append_assoc]
  refine List.Perm.trans (List.Perm.append_left a2 List.perm_append_comm) ?_
  rw [← List.append_assoc]
  exact List.Perm.append_right b h

theorem perm_shuffle6 (a b d r : List Nat) (h : (d ++ r).Perm b) :
    ((a ++ d) ++ r).Perm (a ++ b) := by
  rw [List.append_assoc]
  exact List.Perm.append_left a h

theorem allIds_delSub_perm (x : Nat) (t : LTree) :
    t.allIds.Nodup → ∀ subx, t.findSub x = some subx → x ≠ t.topId →
      ((LTree.delSub x t).allIds ++ subx.allIds).Perm t.allIds := by
  refine LTree.rec
    (motive_1 := fun t => t.allIds.Nodup → ∀ subx, t.findSub x = some subx →
      x ≠ t.topId →
      ((LTree.delSub x t).allIds ++ subx.allIds).Perm t.allIds)
    (motive_2 := fun cs => (LTree.allIdsL cs).Nodup →
      ∀ subx, LTree.findSubL x cs = some subx →
      (LTree.allIdsL (LTree.delSubL x cs) ++ subx.allIds).Perm
        (LTree.allIdsL cs))
    ?_ ?_ ?_ t
  · intro i cs ih hnd subx hf hne
    rw [LTree.allIds] at hnd
    have hndcs : (LTree.allIdsL cs).Nodup := (List.nodup_cons.mp hnd).2
    rw [LTree.topId] at hne
    rw [LTree.findSub, if_neg (fun h => hne h.symm)] at hf
    rw [LTree.delSub]
    show ((i :: LTree.allIdsL (LTree.delSubL x cs)) ++ subx.allIds).Perm
      (i :: LTree.allIdsL cs)
    show (i :: (LTree.allIdsL (LTree.delSubL x cs) ++ subx.allIds)).Perm
      (i :: LTree.allIdsL cs)
    exact List.Perm.cons i (ih hndcs subx hf)
  · intro _ subx hf
    exact Option.noConfusion hf
  · intro c ts ihc ihts hnd subx hf
    rw [LTree.allIdsL] at hnd
    obtain ⟨hnc, hnts, hdisj⟩ := List.nodup_append.mp hnd
    rw [LTree.findSubL] at hf
    rw [LTree.delSubL]
    by_cases hct : c.topId = x
    · rw [if_pos hct]
      have hfc : c.findSub x = some c := by
        cases c with
        | node j cs2 =>
          rw [LTree.topId] at hct
          rw [LTree.findSub, if_pos hct]
      rw [hfc] at hf
      injection hf with hf
      subst hf
      show (LTree.allIdsL ts ++ c.allIds).Perm
        (LTree.allIds c ++ LTree.allIdsL ts)
      exact List.perm_append_comm
    · rw [if_neg hct]
      cases hfc : c.findSub x with
      | some r =>
        rw [hfc] at hf
        injection hf with hf
        subst hf
        have hxc : x ∈ c.allIds := by
          have htop := findSub_topId x c r hfc
          exact mem_allIds_of_findSub x c r hfc x (htop ▸ topId_mem_allIds r)
        have hxts : x ∉ LTree.allIdsL ts := fun h => hdisj hxc h
        rw [delSubL_not_mem x ts hxts]
        show ((LTree.allIds (LTree.delSub x c) ++ LTree.allIdsL ts) ++ r.allIds).Perm
          (LTree.allIds c ++ LTree.allIdsL ts)
        exact perm_shuffle5 _ _ _ _
          (ihc hnc r hfc (fun h => hct h.symm))
      | none =>
        rw [hfc] at hf
        have hxc : x ∉ c.allIds := by
          intro hin
          have := findSub_isSome_of_mem x c hin
          rw [hfc] at this
          exact Bool.noConfusion this
        rw [delSub_not_mem x c hxc]
        show ((LTree.allIds c ++ LTree.allIdsL (LTree.delSubL x ts)) ++ subx.allIds).Perm
          (LTree.allIds c ++ LTree.allIdsL ts)
        exact perm_shuffle6 _ _ _ _ (ihts hnts subx hf)

end Rift

namespace Rift

theorem fireAddedToForest_tree (s : LState) (x : Nat) :
    (fireAddedToForest s x).tree = s.tree := rfl

theorem fireAddedToForest_windows (s : LState) (x : Nat) :
    (fireAddedToForest s x).windows = s.windows := rfl

theorem fireAddedToForest_nextId (s : LState) (x : Nat) :
    (fireAddedToForest s x).nextId = s.nextId := rfl

theorem fireAddedToForest_sel (s : LState) (x : Nat) :
    (fireAddedToForest s x).sel = s.sel := rfl

theorem fireAddedToParent_windows (s : LState) (x : Nat) :
    (fireAddedToParent s x).windows = s.windows := by
  rw [fireAddedToParent.eq_def]
  cases hp : s.tree.parentOf x <;> rfl

theorem fireAddedToParent_nextId (s : LState) (x : Nat) :
    (fireAddedToParent s x).nextId = s.nextId := by
  rw [fireAddedToParent.eq_def]
  cases hp : s.tree.parentOf x <;> rfl

theorem fireAddedToParent_sel (s : LState) (x : Nat) :
    (fireAddedToParent s x).sel = s.sel := by
  rw [fireAddedToParent.eq_def]
  cases hp : s.tree.parentOf x <;> rfl

theorem updMap_kind_pres (f : Nat → LayoutInfo) (k : Nat) (v : LayoutInfo)
    (hv : v.kind = (f k).kind) (m : Nat) :
    ((updMap f k v) m).kind = (f m).kind := by
  rw [updMap]
  by_cases hmk : m = k
  · rw [if_pos hmk, hv, hmk]
  · rw [if_neg hmk]

theorem fireAddedToParent_info_kind (s : LState) (x m : Nat) :
    ((fireAddedToParent s x).info m).kind = (s.info m).kind := by
  rw [fireAddedToParent.eq_def]
  cases hp : s.tree.parentOf x with
  | none => rfl
  | some p =>
    refine Eq.trans (updMap_kind_pres _ _ _ ?_ m) (updMap_kind_pres _ _ _ ?_ m) <;> rfl

theorem fireAddedToForest_info_ne (s : LState) (x m : Nat) (h : m ≠ x) :
    (fireAddedToForest s x).info m = s.info m := by
  show updMap s.info x LayoutInfo.default m = s.info m
  rw [updMap, if_neg h]

theorem fireRemovingFromParent_windows (s : LState) (x : Nat) :
    (fireRemovingFromParent s x).windows = s.windows := by
  rw [fireRemovingFromParent.eq_def]
  cases hp : s.tree.parentOf x <;> rfl

theorem fireRemovingFromParent_nextId (s : LState) (x : Nat) :
    (fireRemovingFromParent s x).nextId = s.nextId := by
  rw [fireRemovingFromParent.eq_def]
  cases hp : s.tree.parentOf x <;> rfl

theorem fireRemovingFromParent_info_kind (s : LState) (x m : Nat) :
    ((fireRemovingFromParent s x).info m).kind = (s.info m).kind := by
  rw [fireRemovingFromParent.eq_def]
  cases hp : s.tree.parentOf x with
  | none => rfl
  | some p =>
    refine updMap_kind_pres _ _ _ ?_ m
    rfl

theorem assume_size_of_tree (s : LState) (a b : Nat) :
    (s.assume_size_of a b).tree = s.tree := by
  rw [LState.assume_size_of.eq_def]
  cases hp : s.tree.parentOf a <;> rfl

theorem assume_size_of_windows (s : LState) (a b : Nat) :
    (s.assume_size_of a b).windows = s.windows := by
  rw [LState.assume_size_of.eq_def]
  cases hp : s.tree.parentOf a <;> rfl

theorem assume_size_of_sel (s : LState) (a b : Nat) :
    (s.assume_size_of a b).sel = s.sel := by
  rw [LState.assume_size_of.eq_def]
  cases hp : s.tree.parentOf a <;> rfl

theorem assume_size_of_nextId (s : LState) (a b : Nat) :
    (s.assume_size_of a b).nextId = s.nextId := by
  rw [LState.assume_size_of.eq_def]
  cases hp : s.tree.parentOf a <;> rfl

theorem assume_size_of_info_kind (s : LState) (a b m : Nat) :
    ((s.assume_size_of a b).info m).kind = (s.info m).kind := by
  rw [LState.assume_size_of.eq_def]
  cases hp : s.tree.parentOf a with
  | none => rfl
  | some p =>
    refine Eq.trans (updMap_kind_pres _ _ _ ?_ m)
      (Eq.trans (updMap_kind_pres _ _ _ ?_ m)
        (updMap_kind_pres _ _ _ ?_ m)) <;> rfl

theorem select_locally_windows (s : LState) (n : Nat) :
    (s.select_locally n).2.windows = s.windows := by
  rw [LState.select_locally]
  cases hp : s.tree.parentOf n <;> rfl

theorem select_locally_nextId (s : LState) (n : Nat) :
    (s.select_locally n).2.nextId = s.nextId := by
  rw [LState.select_locally]
  cases hp : s.tree.parentOf n <;> rfl

theorem moveNode_windows (s : LState) (x : Nat) (dest : AttachDest) :
    (moveNode s x dest).windows = s.windows := by
  rw [moveNode.eq_def]
  cases hf : s.tree.findSub x with
  | none => rfl
  | some sub =>
    show (fireAddedToParent _ x).windows = s.windows
    rw [fireAddedToParent_windows]
    exact fireRemovingFromParent_windows s x

theorem moveNode_nextId (s : LState) (x : Nat) (dest : AttachDest) :
    (moveNode s x dest).nextId = s.nextId := by
  rw [moveNode.eq_def]
  cases hf : s.tree.findSub x with
  | none => rfl
  | some sub =>
    show (fireAddedToParent _ x).nextId = s.nextId
    rw [fireAddedToParent_nextId]
    exact fireRemovingFromParent_nextId s x

theorem moveNode_info_kind (s : LState) (x : Nat) (dest : AttachDest) (m : Nat) :
    ((moveNode s x dest).info m).kind = (s.info m).kind := by
  rw [moveNode.eq_def]
  cases hf : s.tree.findSub x with
  | none => rfl
  | some sub =>
    show ((fireAddedToParent _ x).info m).kind = (s.info m).kind
    rw [fireAddedToParent_info_kind]
    exact fireRemovingFromParent_info_kind s x m

theorem set_kind_tree (s : LState) (n : Nat) (k : LayoutKind) :
    (s.set_kind n k).tree = s.tree := rfl

theorem set_kind_windows (s : LState) (n : Nat) (k : LayoutKind) :
    (s.set_kind n k).windows = s.windows := rfl

theorem set_kind_nextId (s : LState) (n : Nat) (k : LayoutKind) :
    (s.set_kind n k).nextId = s.nextId := rfl

theorem set_window_tree (s : LState) (layout n wid : Nat) :
    (s.set_window layout n wid).tree = s.tree := rfl

theorem set_window_info (s : LState) (layout n wid : Nat) :
    (s.set_window layout n wid).info = s.info := rfl

theorem set_window_windows_self (s : LState) (layout n wid : Nat) :
    (s.set_window layout n wid).windows n = some wid := by
  show updMap s.windows n (some wid) n = some wid
  rw [updMap, if_pos rfl]

theorem select_tree (s : LState) (n : Nat) : (s.select n).tree = s.tree := rfl

theorem select_info (s : LState) (n : Nat) : (s.select n).info = s.info := rfl

theorem select_windows (s : LState) (n : Nat) :
    (s.select n).windows = s.windows := rfl

theorem mkNodeAttach_fst (s : LState) (dest : AttachDest) :
    (mkNodeAttach s dest).1 = s.nextId := rfl

theorem mkNodeAttach_nextId (s : LState) (dest : AttachDest) :
    (mkNodeAttach s dest).2.nextId = s.nextId + 1 := by
  show (fireAddedToParent _ s.nextId).nextId = s.nextId + 1
  rw [fireAddedToParent_nextId]
  rfl

theorem mkNodeAttach_windows (s : LState) (dest : AttachDest) :
    (mkNodeAttach s dest).2.windows = s.windows := by
  show (fireAddedToParent _ s.nextId).windows = s.windows
  rw [fireAddedToParent_windows]
  rfl

theorem mkNodeAttach_tree_afterSib (s : LState) (sib : Nat) :
    (mkNodeAttach s (.afterSib sib)).2.tree
      = LTree.insAfter sib (.node s.nextId []) s.tree := by
  show (fireAddedToParent _ s.nextId).tree
    = LTree.insAfter sib (.node s.nextId []) s.tree
  rw [fireAddedToParent_tree]
  rfl

theorem mkNodeAttach_tree_beforeSib (s : LState) (sib : Nat) :
    (mkNodeAttach s (.beforeSib sib)).2.tree
      = LTree.insBefore sib (.node s.nextId []) s.tree := by
  show (fireAddedToParent _ s.nextId).tree
    = LTree.insBefore sib (.node s.nextId []) s.tree
  rw [fireAddedToParent_tree]
  rfl

theorem mkNodeAttach_tree_intoParent (s : LState) (p : Nat) :
    (mkNodeAttach s (.intoParent p)).2.tree
      = LTree.pushBack p (.node s.nextId []) s.tree := by
  show (fireAddedToParent _ s.nextId).tree
    = LTree.pushBack p (.node s.nextId []) s.tree
  rw [fireAddedToParent_tree]
  rfl

theorem mkNodeAttach_info_kind_ne (s : LState) (dest : AttachDest) (m : Nat)
    (h : m ≠ s.nextId) :
    ((mkNodeAttach s dest).2.info m).kind = (s.info m).kind := by
  show ((fireAddedToParent _ s.nextId).info m).kind = (s.info m).kind
  rw [fireAddedToParent_info_kind]
  show ((fireAddedToForest _ s.nextId).info m).kind = (s.info m).kind
  rw [fireAddedToForest_info_ne _ _ _ h]

end Rift

namespace Rift

/-- The parent found by `parentOf` really has `x` among its children. -/
theorem parentOf_findSub (x : Nat) (t : LTree) :
    t.allIds.Nodup → ∀ p, LTree.parentOf x t = some p →
      ∃ csp, LTree.findSub p t = some (.node p csp) ∧ x ∈ csp.map LTree.topId := by
  refine LTree.rec
    (motive_1 := fun t => t.allIds.Nodup → ∀ p, LTree.parentOf x t = some p →
      ∃ csp, LTree.findSub p t = some (.node p csp) ∧ x ∈ csp.map LTree.topId)
    (motive_2 := fun cs => (LTree.allIdsL cs).Nodup →
      ∀ p, LTree.parentOfL x cs = some p →
      ∃ csp, LTree.findSubL p cs = some (.node p csp) ∧ x ∈ csp.map LTree.topId)
    ?_ ?_ ?_ t
  · intro i cs ih hnd p hp
    rw [LTree.allIds] at hnd
    have hi : i ∉ LTree.allIdsL cs := (List.nodup_cons.mp hnd).1
    have hndcs : (LTree.allIdsL cs).Nodup := (List.nodup_cons.mp hnd).2
    rw [LTree.parentOf] at hp
    by_cases hc : (cs.map LTree.topId).contains x
    · rw [if_pos hc] at hp
      injection hp with hp
      subst hp
      exact ⟨cs, by rw [LTree.findSub, if_pos rfl], by simpa using hc⟩
    · rw [if_neg hc] at hp
      obtain ⟨csp, f1, hmem⟩ := ih hndcs p hp
      have hip : i ≠ p := fun h => hi (h ▸ parentOfL_mem x cs p hp)
      exact ⟨csp, by rw [LTree.findSub, if_neg hip]; exact f1, hmem⟩
  · intro _ p hp
    exact Option.noConfusion hp
  · intro c ts ihc ihts hnd p hp
    rw [LTree.allIdsL] at hnd
    obtain ⟨hnc, hnts, hdisj⟩ := List.nodup_append.mp hnd
    rw [LTree.parentOfL] at hp
    cases hpc : LTree.parentOf x c with
    | some q =>
      rw [hpc] at hp
      injection hp with hp
      subst hp
      obtain ⟨csp, f1, hmem⟩ := ihc hnc q hpc
      exact ⟨csp, by rw [LTree.findSubL, f1], hmem⟩
    | none =>
      rw [hpc] at hp
      obtain ⟨csp, f1, hmem⟩ := ihts hnts p hp
      have hpts : p ∈ LTree.allIdsL ts := parentOfL_mem x ts p hp
      have hpc2 : LTree.findSub p c = none :=
        findSub_none_of_not_mem p c (fun hin => hdisj hin hpts)
      exact ⟨csp, by rw [LTree.findSubL, hpc2]; exact f1, hmem⟩

/-- A found subtree has duplicate-free ids when the whole tree does. -/
theorem findSub_nodup (x : Nat) (t : LTree) :
    t.allIds.Nodup → ∀ r, t.findSub x = some r → r.allIds.Nodup := by
  refine LTree.rec
    (motive_1 := fun t => t.allIds.Nodup → ∀ r, t.findSub x = some r →
      r.allIds.Nodup)
    (motive_2 := fun cs => (LTree.allIdsL cs).Nodup →
      ∀ r, LTree.findSubL x cs = some r → r.allIds.Nodup)
    ?_ ?_ ?_ t
  · intro i cs ih hnd r hf
    rw [LTree.findSub] at hf
    by_cases hix : i = x
    · rw [if_pos hix] at hf
      injection hf with hf
      rw [← hf]
      exact hnd
    · rw [if_neg hix] at hf
      rw [LTree.allIds] at hnd
      exact ih (List.nodup_cons.mp hnd).2 r hf
  · intro _ r hf
    exact Option.noConfusion hf
  · intro c ts ihc ihts hnd r hf
    rw [LTree.allIdsL] at hnd
    obtain ⟨hnc, hnts, hdisj⟩ := List.nodup_append.mp hnd
    rw [LTree.findSubL] at hf
    cases hc : c.findSub x with
    | some q =>
      rw [hc] at hf
      injection hf with hf
      exact ihc hnc r (by rw [hc, hf])
    | none =>
      rw [hc] at hf
      exact ihts hnts r hf

/-- Top-level child ids are distinct when all ids are. -/
theorem nodup_mapTopId (cs : List LTree)
    (hnd : (LTree.allIdsL cs).Nodup) : (cs.map LTree.topId).Nodup := by
  induction cs with
  | nil => exact List.nodup_nil
  | cons c ts ih =>
    rw [LTree.allIdsL] at hnd
    obtain ⟨hnc, hnts, hdisj⟩ := List.nodup_append.mp hnd
    rw [List.map_cons]
    refine List.nodup_cons.mpr ⟨?_, ih hnts⟩
    intro hmem
    obtain ⟨e, hem, het⟩ := List.mem_map.mp hmem
    exact hdisj (topId_mem_allIds c) (het ▸ topId_mem_allIdsL ts e hem)

theorem listNextAfter_none_getLast (x : Nat) (l : List Nat)
    (hn : listNextAfter x l = none) (hm : x ∈ l) : l.getLast? = some x := by
  induction l with
  | nil => cases hm
  | cons a rest ih =>
    rw [listNextAfter] at hn
    by_cases hax : a = x
    · rw [if_pos hax] at hn
      cases hr : rest with
      | nil =>
        rw [List.getLast?_singleton, hax]
      | cons b q =>
        rw [hr, List.head?_cons] at hn
        exact Option.noConfusion hn
    · rw [if_neg hax] at hn
      have hxr : x ∈ rest :=
        (List.mem_cons.mp hm).resolve_left (fun h => hax h.symm)
      have hlast := ih hn hxr
      cases hr : rest with
      | nil => rw [hr] at hxr; cases hxr
      | cons b q =>
        rw [List.getLast?_cons_cons]
        rw [hr] at hlast
        exact hlast

end Rift

namespace Rift

theorem siblings_exist (l : List Nat) (x : Nat) (hnd : l.Nodup) (hm : x ∈ l)
    (hlen : 2 ≤ l.length) :
    ¬(listNextAfter x l = none ∧ listNextAfter x l.reverse = none) := by
  rintro ⟨h1, h2⟩
  have hlast : l.getLast? = some x := listNextAfter_none_getLast x l h1 hm
  have hfirst : l.reverse.getLast? = some x :=
    listNextAfter_none_getLast x l.reverse h2 (List.mem_reverse.mpr hm)
  rw [List.getLast?_reverse] at hfirst
  cases l with
  | nil => cases hm
  | cons a rest =>
    rw [List.head?_cons] at hfirst
    injection hfirst with hfirst
    cases hr : rest with
    | nil =>
      rw [hr, List.length_singleton] at hlen
      exact absurd hlen (by decide)
    | cons b q =>
      have hlast2 : rest.getLast? = some x := by
        rw [hr]
        rw [hr, List.getLast?_cons_cons] at hlast
        exact hlast
      have hxrest : x ∈ rest := List.mem_of_mem_getLast? hlast2
      have hna : a ∉ rest := (List.nodup_cons.mp hnd).1
      exact hna (hfirst ▸ hxrest)

theorem findSub_insBefore_self (sib : Nat) (sub : LTree)
    (hsib : sib ∉ sub.allIds) (t : LTree) :
    t.allIds.Nodup →
      LTree.findSub sib (LTree.insBefore sib sub t) = t.findSub sib := by
  refine LTree.rec
    (motive_1 := fun t => t.allIds.Nodup →
      LTree.findSub sib (LTree.insBefore sib sub t) = t.findSub sib)
    (motive_2 := fun cs => (LTree.allIdsL cs).Nodup →
      LTree.findSubL sib (LTree.insBeforeL sib sub cs) = LTree.findSubL sib cs)
    ?_ ?_ ?_ t
  · intro i cs ih hnd
    rw [LTree.allIds] at hnd
    have hi : i ∉ LTree.allIdsL cs := (List.nodup_cons.mp hnd).1
    have hndcs : (LTree.allIdsL cs).Nodup := (List.nodup_cons.mp hnd).2
    rw [LTree.insBefore]
    by_cases his : i = sib
    · rw [LTree.findSub, if_pos his, LTree.findSub, if_pos his,
        insBeforeL_not_mem sib sub cs (by rw [his] at hi; exact hi)]
    · rw [LTree.findSub, if_neg his, LTree.findSub, if_neg his]
      exact ih hndcs
  · intro _
    rfl
  · intro c ts ihc ihts hnd
    rw [LTree.allIdsL] at hnd
    obtain ⟨hnc, hnts, hdisj⟩ := List.nodup_append.mp hnd
    rw [LTree.insBeforeL]
    by_cases hct : c.topId = sib
    · rw [if_pos hct]
      rw [LTree.findSubL, findSub_none_of_not_mem sib sub hsib]
    · rw [if_neg hct]
      rw [LTree.findSubL, LTree.findSubL, ihc hnc]
      cases hc : c.findSub sib with
      | some r => rfl
      | none => exact ihts hnts

theorem pushBack_parentOf_new (p : Nat) (sub : LTree) (t : LTree) :
    t.allIds.Nodup → p ∈ t.allIds → sub.topId ∉ t.allIds →
      LTree.parentOf sub.topId (LTree.pushBack p sub t) = some p := by
  refine LTree.rec
    (motive_1 := fun t => t.allIds.Nodup → p ∈ t.allIds →
      sub.topId ∉ t.allIds →
      LTree.parentOf sub.topId (LTree.pushBack p sub t) = some p)
    (motive_2 := fun cs => (LTree.allIdsL cs).Nodup → p ∈ LTree.allIdsL cs →
      sub.topId ∉ LTree.allIdsL cs →
      LTree.parentOfL sub.topId (LTree.pushBackL p sub cs) = some p)
    ?_ ?_ ?_ t
  · intro i cs ih hnd hm hs
    rw [LTree.allIds] at hnd hm hs
    have hndcs : (LTree.allIdsL cs).Nodup := (List.nodup_cons.mp hnd).2
    rw [LTree.pushBack]
    by_cases hip : i = p
    · rw [if_pos hip]
      rw [LTree.parentOf]
      rw [if_pos ?_]
      · rw [hip]
      · rw [List.map_append]
        refine List.elem_eq_true_of_mem ?_
        exact List.mem_append_right _ (by
          show sub.topId ∈ [sub].map LTree.topId
          rw [List.map_singleton]
          exact List.mem_singleton.mpr rfl)
    · rw [if_neg hip]
      rw [LTree.parentOf]
      rw [if_neg ?_]
      · refine ih hndcs ?_ ?_
        · exact (List.mem_cons.mp hm).resolve_left (fun h => hip h.symm)
        · exact fun h => hs (List.mem_cons_of_mem i h)
      · rw [mapTopId_pushBackL]
        intro hc
        have : sub.topId ∈ cs.map LTree.topId := by simpa using hc
        obtain ⟨e, hem, het⟩ := List.mem_map.mp this
        exact hs (List.mem_cons_of_mem i (het ▸ topId_mem_allIdsL cs e hem))
  · intro _ hm
    cases hm
  · intro c ts ihc ihts hnd hm hs
    rw [LTree.allIdsL] at hnd hm hs
    obtain ⟨hnc, hnts, hdisj⟩ := List.nodup_append.mp hnd
    rw [LTree.pushBackL]
    rcases List.mem_append.mp hm with h | h
    · rw [LTree.parentOfL]
      rw [ihc hnc h (fun h2 => hs (List.mem_append_left _ h2))]
    · have hpc : p ∉ c.allIds := fun h2 => hdisj h2 h
      rw [pushBack_not_mem p sub c hpc]
      rw [LTree.parentOfL]
      rw [parentOf_none_of_not_mem sub.topId c
        (fun h2 => hs (List.mem_append_left _ h2))]
      exact ihts hnts h (fun h2 => hs (List.mem_append_right _ h2))

theorem pushBack_parentOf_pres (p : Nat) (sub : LTree) (y : Nat)
    (hy : y ∉ sub.allIds) (t : LTree) :
    LTree.parentOf y (LTree.pushBack p sub t) = LTree.parentOf y t := by
  refine LTree.rec
    (motive_1 := fun t =>
      LTree.parentOf y (LTree.pushBack p sub t) = LTree.parentOf y t)
    (motive_2 := fun cs =>
      LTree.parentOfL y (LTree.pushBackL p sub cs) = LTree.parentOfL y cs)
    ?_ ?_ ?_ t
  · intro i cs ih
    rw [LTree.pushBack]
    by_cases hip : i = p
    · rw [if_pos hip]
      rw [LTree.parentOf, LTree.parentOf]
      by_cases hc : (cs.map LTree.topId).contains y
      · rw [if_pos hc]
        rw [if_pos ?_]
        rw [List.map_append]
        exact List.elem_eq_true_of_mem
          (List.mem_append_left _ (by simpa using hc))
      · rw [if_neg hc]
        rw [if_neg ?_]
        · rw [parentOfL_append]
          cases hpl : LTree.parentOfL y cs with
          | some q => rfl
          | none =>
            show LTree.parentOfL y [sub] = none
            rw [LTree.parentOfL,
              parentOf_none_of_not_mem y sub hy]
            rfl
        · rw [List.map_append]
          intro hc2
          have : y ∈ cs.map LTree.topId ++ [sub].map LTree.topId := by
            simpa using hc2
          rcases List.mem_append.mp this with h | h
          · exact absurd (List.elem_eq_true_of_mem h) (by simpa using hc)
          · rw [List.map_singleton] at h
            exact hy ((List.mem_singleton.mp h) ▸ topId_mem_allIds sub)
    · rw [if_neg hip]
      rw [LTree.parentOf, LTree.parentOf, mapTopId_pushBackL]
      by_cases hc : (cs.map LTree.topId).contains y
      · rw [if_pos hc, if_pos hc]
      · rw [if_neg hc, if_neg hc]
        exact ih
  · rfl
  · intro c ts ihc ihts
    rw [LTree.pushBackL]
    rw [LTree.parentOfL, LTree.parentOfL, ihc]
    cases hc : LTree.parentOf y c with
    | some q => rfl
    | none => exact ihts

end Rift

namespace Rift

theorem awas_caseB_eq (s : LState) (layout wid : Nat) (p : Nat)
    (hpar : s.tree.parentOf s.current_selection = some p)
    (hcond : (4 ≤ (s.tree.childIds p).length && !(s.info p).kind.is_group)
      = false) :
    s.add_window_after_selection layout wid
      = (((mkNodeAttach s (.afterSib s.current_selection)).2.set_window
          layout s.nextId wid).select s.nextId) := by
  rw [LState.add_window_after_selection]
  simp only [LState.smart_window_insertion, hpar, Option.isNone_some,
    Bool.false_eq_true, if_false, hcond]
  rfl

end Rift

namespace Rift

theorem awas_caseB (s : LState) (layout wid p : Nat)
    (hnd : s.tree.allIds.Nodup)
    (hfresh : ∀ i ∈ s.tree.allIds, i < s.nextId)
    (hpar : s.tree.parentOf s.current_selection = some p)
    (hcond : (4 ≤ (s.tree.childIds p).length && !(s.info p).kind.is_group)
      = false) :
    (s.add_window_after_selection layout wid).tree.nextSibling
        s.current_selection = some s.nextId
    ∧ (s.add_window_after_selection layout wid).windows s.nextId = some wid
    ∧ (s.add_window_after_selection layout wid).current_selection
        = s.nextId := by
  rw [awas_caseB_eq s layout wid p hpar hcond]
  have hfrn : s.nextId ∉ s.tree.allIds := fun h => absurd (hfresh _ h) (lt_irrefl _)
  have hsel0 : s.current_selection ∈ s.tree.allIds := curSelT_mem s.sel s.tree
  have hs0n : s.current_selection ≠ s.nextId := by
    intro h
    exact hfrn (h ▸ hsel0)
  have hsibn : s.current_selection ∉ (LTree.node s.nextId []).allIds := by
    intro h
    rcases List.mem_cons.mp h with h1 | h1
    · exact hs0n h1
    · cases h1
  obtain ⟨hp1, csp, f1, f2, hmem⟩ :=
    insAfter_parent_findSub s.current_selection (.node s.nextId []) hsibn
      s.tree hnd p hpar
  have hYtree : ((mkNodeAttach s (.afterSib s.current_selection)).2.set_window
      layout s.nextId wid).tree
      = LTree.insAfter s.current_selection (.node s.nextId []) s.tree := by
    rw [set_window_tree, mkNodeAttach_tree_afterSib]
  have hperm := allIds_insAfter_perm s.current_selection (.node s.nextId [])
    s.tree hnd p hpar
  have hndapp : (s.tree.allIds ++ (LTree.node s.nextId []).allIds).Nodup := by
    rw [List.nodup_append]
    refine ⟨hnd, List.nodup_singleton _, ?_⟩
    intro a ha hb
    rcases List.mem_cons.mp hb with h1 | h1
    · exact hfrn (h1 ▸ ha)
    · cases h1
  have hndT1 : (LTree.insAfter s.current_selection
      (.node s.nextId []) s.tree).allIds.Nodup :=
    hperm.nodup_iff.mpr hndapp
  have hnmem : s.nextId ∈ (LTree.insAfter s.current_selection
      (.node s.nextId []) s.tree).allIds := by
    rw [hperm.mem_iff]
    exact List.mem_append_right _ (List.mem_cons_self _ _)
  refine ⟨?_, ?_, ?_⟩
  · rw [select_tree, hYtree]
    rw [LTree.nextSibling, hp1]
    show listNextAfter s.current_selection
      ((LTree.insAfter s.current_selection (.node s.nextId []) s.tree).childIds p)
      = some s.nextId
    rw [LTree.childIds.eq_def, f2]
    show listNextAfter s.current_selection
      ((LTree.insAfterL s.current_selection (.node s.nextId []) csp).map LTree.topId)
      = some s.nextId
    rw [mapTopId_insAfterL]
    exact listNextAfter_insertAfterId _ _ _ hmem
  · rw [select_windows]
    exact set_window_windows_self _ _ _ _
  · obtain ⟨q, hq⟩ := Option.isSome_iff_exists.mp
      ((pathTo_isSome_iff_mem s.nextId _).mpr hnmem)
    refine current_selection_select _ s.nextId q ?_ ?_
    · rw [hYtree]
      exact hndT1
    · show ((mkNodeAttach s (.afterSib s.current_selection)).2.set_window
        layout s.nextId wid).tree.pathTo s.nextId = some q
      rw [hYtree]
      exact hq

end Rift

namespace Rift

/-- The state produced by the else-branch of
`nest_in_container_internal` when wrapping the current selection whose
parent is `p` (abbreviation of the composite used by the
crowded-parent case of `smart_window_insertion`). -/
def c4nest (s : LState) (p : Nat) : LState :=
  ((if decide (s.local_selection p = some s.current_selection) = true
    then ((moveNode ((mkNodeAttach s (.beforeSib s.current_selection)).2.assume_size_of
        s.nextId s.current_selection) s.current_selection
        (.intoParent s.nextId)).select_locally s.nextId).2
    else moveNode ((mkNodeAttach s (.beforeSib s.current_selection)).2.assume_size_of
        s.nextId s.current_selection) s.current_selection
        (.intoParent s.nextId)).select_locally
    s.current_selection).2.set_kind s.nextId (s.info p).kind

theorem awas_caseA_eq (s : LState) (layout wid p : Nat)
    (hpar : s.tree.parentOf s.current_selection = some p)
    (hcond : (4 ≤ (s.tree.childIds p).length && !(s.info p).kind.is_group)
      = true)
    (hsibs : ((s.tree.prevSibling s.current_selection).isNone
      && (s.tree.nextSibling s.current_selection).isNone) = false) :
    s.add_window_after_selection layout wid
      = ((mkNodeAttach (c4nest s p) (.intoParent s.nextId)).2.set_window
          layout (c4nest s p).nextId wid).select ((c4nest s p).nextId) := by
  rw [LState.add_window_after_selection]
  simp only [LState.smart_window_insertion, LState.nest_in_container_internal,
    hpar, Option.isNone_some, Option.isSome_some, Bool.and_true,
    Bool.false_eq_true, if_false, hcond, hsibs, if_true]
  rfl

end Rift

namespace Rift

theorem c4nest_nextId (s : LState) (p : Nat) :
    (c4nest s p).nextId = s.nextId + 1 := by
  rw [c4nest, set_kind_nextId, select_locally_nextId]
  split
  · rw [select_locally_nextId, moveNode_nextId, assume_size_of_nextId,
      mkNodeAttach_nextId]
  · rw [moveNode_nextId, assume_size_of_nextId, mkNodeAttach_nextId]

theorem c4nest_windows (s : LState) (p : Nat) :
    (c4nest s p).windows = s.windows := by
  rw [c4nest, set_kind_windows, select_locally_windows]
  split
  · rw [select_locally_windows, moveNode_windows, assume_size_of_windows,
      mkNodeAttach_windows]
  · rw [moveNode_windows, assume_size_of_windows, mkNodeAttach_windows]

theorem c4nest_info_kind_np (s : LState) (p : Nat) :
    ((c4nest s p).info s.nextId).kind = (s.info p).kind := by
  rw [c4nest]
  exact set_kind_info_kind _ _ _

theorem c4nest_tree (s : LState) (p : Nat) (subS : LTree)
    (hnd : s.tree.allIds.Nodup)
    (hfresh : ∀ i ∈ s.tree.allIds, i < s.nextId)
    (hSubS : s.tree.findSub s.current_selection = some subS) :
    (c4nest s p).tree
      = LTree.pushBack s.nextId subS
          (LTree.delSub s.current_selection
            (LTree.insBefore s.current_selection (.node s.nextId []) s.tree)) := by
  have hsel0 : s.current_selection ∈ s.tree.allIds := curSelT_mem s.sel s.tree
  have hs0n : s.current_selection ≠ s.nextId := by
    intro h
    exact absurd (hfresh _ hsel0) (by rw [h]; exact lt_irrefl _)
  have hsibn : s.current_selection ∉ (LTree.node s.nextId [] : LTree).allIds := by
    intro h
    rcases List.mem_cons.mp h with h1 | h1
    · exact hs0n h1
    · cases h1
  have hFS1 : (LTree.insBefore s.current_selection
      (.node s.nextId []) s.tree).findSub s.current_selection = some subS := by
    rw [findSub_insBefore_self s.current_selection _ hsibn s.tree hnd]
    exact hSubS
  have hBtree : ((mkNodeAttach s (.beforeSib s.current_selection)).2.assume_size_of
      s.nextId s.current_selection).tree
      = LTree.insBefore s.current_selection (.node s.nextId []) s.tree := by
    rw [assume_size_of_tree, mkNodeAttach_tree_beforeSib]
  have hf : ((mkNodeAttach s (.beforeSib s.current_selection)).2.assume_size_of
      s.nextId s.current_selection).tree.findSub s.current_selection = some subS := by
    rw [hBtree]
    exact hFS1
  have hmv := moveNode_tree_intoParent _ s.current_selection s.nextId subS hf
  rw [c4nest, set_kind_tree, select_locally_tree]
  split
  · rw [select_locally_tree, hmv, hBtree]
  · rw [hmv, hBtree]

end Rift

namespace Rift

theorem crowded_has_sibling (s : LState) (p : Nat)
    (hnd : s.tree.allIds.Nodup)
    (hpar : s.tree.parentOf s.current_selection = some p)
    (hlen : 4 ≤ (s.tree.childIds p).length) :
    ((s.tree.prevSibling s.current_selection).isNone
      && (s.tree.nextSibling s.current_selection).isNone) = false := by
  obtain ⟨csp, f1, hmem⟩ := parentOf_findSub s.current_selection s.tree hnd p hpar
  have hch : s.tree.childIds p = csp.map LTree.topId := by
    rw [LTree.childIds.eq_def, f1]
    rfl
  have hndsub := findSub_nodup p s.tree hnd _ f1
  have hndcsp : (LTree.allIdsL csp).Nodup := by
    rw [LTree.allIds] at hndsub
    exact (List.nodup_cons.mp hndsub).2
  have hndl : (csp.map LTree.topId).Nodup := nodup_mapTopId csp hndcsp
  have hlen2 : 2 ≤ (csp.map LTree.topId).length := by
    rw [hch] at hlen
    omega
  have hsib := siblings_exist (csp.map LTree.topId) s.current_selection
    hndl hmem hlen2
  simp only [LTree.prevSibling, LTree.nextSibling, hpar, hch]
  cases hn : listNextAfter s.current_selection (csp.map LTree.topId) with
  | some y =>
    simp [hn]
  | none =>
    cases hpv : listNextAfter s.current_selection (csp.map LTree.topId).reverse with
    | some y =>
      simp [hpv]
    | none =>
      exact absurd ⟨hn, hpv⟩ hsib

theorem awas_caseA (s : LState) (layout wid p : Nat)
    (hnd : s.tree.allIds.Nodup)
    (hfresh : ∀ i ∈ s.tree.allIds, i < s.nextId)
    (hpar : s.tree.parentOf s.current_selection = some p)
    (hcond : (4 ≤ (s.tree.childIds p).length && !(s.info p).kind.is_group)
      = true)
    (hsibs : ((s.tree.prevSibling s.current_selection).isNone
      && (s.tree.nextSibling s.current_selection).isNone) = false) :
    ((s.add_window_after_selection layout wid).info s.nextId).kind
      = (s.info p).kind
    ∧ (s.add_window_after_selection layout wid).tree.parentOf (s.nextId + 1)
      = some s.nextId
    ∧ (s.add_window_after_selection layout wid).tree.parentOf
        s.current_selection = some s.nextId
    ∧ (s.add_window_after_selection layout wid).windows (s.nextId + 1)
      = some wid
    ∧ (s.add_window_after_selection layout wid).current_selection
      = s.nextId + 1 := by
  rw [awas_caseA_eq s layout wid p hpar hcond hsibs]
  have hsel0mem : s.current_selection ∈ s.tree.allIds := curSelT_mem s.sel s.tree
  have hfrnNP : s.nextId ∉ s.tree.allIds :=
    fun h => absurd (hfresh _ h) (lt_irrefl _)
  have hs0n : s.current_selection ≠ s.nextId :=
    fun h => hfrnNP (h ▸ hsel0mem)
  obtain ⟨subS, hSubS⟩ := Option.isSome_iff_exists.mp
    (findSub_isSome_of_mem s.current_selection s.tree hsel0mem)
  have htopS : subS.topId = s.current_selection :=
    findSub_topId s.current_selection s.tree subS hSubS
  have hT1perm := allIds_insBefore_perm s.current_selection (.node s.nextId [])
    s.tree hnd p hpar
  have hndapp1 : (s.tree.allIds ++ (LTree.node s.nextId [] : LTree).allIds).Nodup := by
    rw [List.nodup_append]
    refine ⟨hnd, List.nodup_singleton _, ?_⟩
    intro a ha hb
    rcases List.mem_cons.mp hb with h1 | h1
    · exact hfrnNP (h1 ▸ ha)
    · cases h1
  have hndT1 := hT1perm.nodup_iff.mpr hndapp1
  have hs0top : s.current_selection ≠ (LTree.insBefore s.current_selection
      (.node s.nextId []) s.tree).topId := by
    rw [topId_insBefore]
    intro h
    have := parentOf_topId_none s.tree hnd
    rw [← h, hpar] at this
    exact Option.noConfusion this
  have hsibnNP : s.current_selection ∉ (LTree.node s.nextId [] : LTree).allIds := by
    intro h
    rcases List.mem_cons.mp h with h1 | h1
    · exact hs0n h1
    · cases h1
  have hFS1 : (LTree.insBefore s.current_selection
      (.node s.nextId []) s.tree).findSub s.current_selection = some subS := by
    rw [findSub_insBefore_self s.current_selection _ hsibnNP s.tree hnd]
    exact hSubS
  have hdelperm := allIds_delSub_perm s.current_selection _ hndT1 subS hFS1 hs0top
  have hndT2app := hdelperm.nodup_iff.mpr hndT1
  obtain ⟨hndT2, hndsubS, hdisj2⟩ := List.nodup_append.mp hndT2app
  have hsubSsubt := mem_allIds_of_findSub s.current_selection s.tree subS hSubS
  have hnpT1 : s.nextId ∈ (LTree.insBefore s.current_selection
      (.node s.nextId []) s.tree).allIds := by
    rw [hT1perm.mem_iff]
    exact List.mem_append_right _ (List.mem_cons_self _ _)
  have hnpsubS : s.nextId ∉ subS.allIds := fun h => hfrnNP (hsubSsubt _ h)
  have hnpT2 : s.nextId ∈ (LTree.delSub s.current_selection
      (LTree.insBefore s.current_selection (.node s.nextId []) s.tree)).allIds := by
    rcases List.mem_append.mp (hdelperm.mem_iff.mpr hnpT1) with h | h
    · exact h
    · exact absurd h hnpsubS
  have hpushperm := allIds_pushBack_perm s.nextId subS _ hndT2 hnpT2
  have hndT3 := hpushperm.nodup_iff.mpr hndT2app
  have hs0subS : s.current_selection ∈ subS.allIds :=
    htopS ▸ topId_mem_allIds subS
  have hs0T2 : s.current_selection ∉ (LTree.delSub s.current_selection
      (LTree.insBefore s.current_selection (.node s.nextId []) s.tree)).allIds :=
    fun h => hdisj2 h hs0subS
  have hparSelT3 : LTree.parentOf s.current_selection
      (LTree.pushBack s.nextId subS
        (LTree.delSub s.current_selection
          (LTree.insBefore s.current_selection (.node s.nextId []) s.tree)))
      = some s.nextId := by
    have := pushBack_parentOf_new s.nextId subS _ hndT2 hnpT2
      (by rw [htopS]; exact hs0T2)
    rw [htopS] at this
    exact this
  have hboundT3 : ∀ j ∈ (LTree.pushBack s.nextId subS
      (LTree.delSub s.current_selection
        (LTree.insBefore s.current_selection (.node s.nextId []) s.tree))).allIds,
      j < s.nextId + 1 := by
    intro j hj
    have hj2 := hdelperm.mem_iff.mp (hpushperm.mem_iff.mp hj)
    have hj3 := hT1perm.mem_iff.mp hj2
    rcases List.mem_append.mp hj3 with h | h
    · exact Nat.lt_succ_of_lt (hfresh _ h)
    · rcases List.mem_cons.mp h with h1 | h1
      · rw [h1]
        exact Nat.lt_succ_self _
      · cases h1
  have hnp1T3 : s.nextId + 1 ∉ (LTree.pushBack s.nextId subS
      (LTree.delSub s.current_selection
        (LTree.insBefore s.current_selection (.node s.nextId []) s.tree))).allIds :=
    fun h => absurd (hboundT3 _ h) (lt_irrefl _)
  have hnpT3 : s.nextId ∈ (LTree.pushBack s.nextId subS
      (LTree.delSub s.current_selection
        (LTree.insBefore s.current_selection (.node s.nextId []) s.tree))).allIds := by
    rw [hpushperm.mem_iff]
    exact List.mem_append_left _ hnpT2
  have hNt := c4nest_tree s p subS hnd hfresh hSubS
  have hNn := c4nest_nextId s p
  have hGt : (mkNodeAttach (c4nest s p) (.intoParent s.nextId)).2.tree
      = LTree.pushBack s.nextId (.node (s.nextId + 1) [])
          (LTree.pushBack s.nextId subS
            (LTree.delSub s.current_selection
              (LTree.insBefore s.current_selection (.node s.nextId []) s.tree))) := by
    rw [mkNodeAttach_tree_intoParent, hNn, hNt]
  have hparNewT4 := pushBack_parentOf_new s.nextId (.node (s.nextId + 1) []) _
    hndT3 hnpT3 hnp1T3
  have hs0leafN : s.current_selection ∉ (LTree.node (s.nextId + 1) [] : LTree).allIds := by
    intro h
    rcases List.mem_cons.mp h with h1 | h1
    · exact absurd (h1 ▸ hfresh _ hsel0mem) (by omega)
    · cases h1
  have hparSelT4 : LTree.parentOf s.current_selection
      (LTree.pushBack s.nextId (.node (s.nextId + 1) [])
        (LTree.pushBack s.nextId subS
          (LTree.delSub s.current_selection
            (LTree.insBefore s.current_selection (.node s.nextId []) s.tree))))
      = some s.nextId := by
    rw [pushBack_parentOf_pres s.nextId (.node (s.nextId + 1) [])
      s.current_selection hs0leafN]
    exact hparSelT3
  have hpush2 := allIds_pushBack_perm s.nextId (.node (s.nextId + 1) []) _
    hndT3 hnpT3
  have hndT4app : ((LTree.pushBack s.nextId subS
      (LTree.delSub s.current_selection
        (LTree.insBefore s.current_selection (.node s.nextId []) s.tree))).allIds
      ++ (LTree.node (s.nextId + 1) [] : LTree).allIds).Nodup := by
    rw [List.nodup_append]
    refine ⟨hndT3, List.nodup_singleton _, ?_⟩
    intro a ha hb
    rcases List.mem_cons.mp hb with h1 | h1
    · exact hnp1T3 (h1 ▸ ha)
    · cases h1
  have hndT4 := hpush2.nodup_iff.mpr hndT4app
  have hnp1T4 : s.nextId + 1 ∈ (LTree.pushBack s.nextId (.node (s.nextId + 1) [])
      (LTree.pushBack s.nextId subS
        (LTree.delSub s.current_selection
          (LTree.insBefore s.current_selection (.node s.nextId []) s.tree)))).allIds := by
    rw [hpush2.mem_iff]
    exact List.mem_append_right _ (List.mem_cons_self _ _)
  refine ⟨?_, ?_, ?_, ?_, ?_⟩
  · rw [select_info, set_window_info]
    rw [mkNodeAttach_info_kind_ne _ _ _ (by rw [hNn]; omega)]
    exact c4nest_info_kind_np s p
  · rw [select_tree, set_window_tree, hGt]
    exact hparNewT4
  · rw [select_tree, set_window_tree, hGt]
    exact hparSelT4
  · rw [select_windows, hNn]
    exact set_window_windows_self _ _ _ _
  · rw [hNn]
    have hHtree : ((mkNodeAttach (c4nest s p) (.intoParent s.nextId)).2.set_window
        layout (s.nextId + 1) wid).tree
        = LTree.pushBack s.nextId (.node (s.nextId + 1) [])
            (LTree.pushBack s.nextId subS
              (LTree.delSub s.current_selection
                (LTree.insBefore s.current_selection (.node s.nextId []) s.tree))) := by
      rw [set_window_tree, hGt]
    obtain ⟨q, hq⟩ := Option.isSome_iff_exists.mp
      ((pathTo_isSome_iff_mem (s.nextId + 1) _).mpr hnp1T4)
    refine current_selection_select _ (s.nextId + 1) q ?_ ?_
    · rw [hHtree]
      exact hndT4
    · show ((mkNodeAttach (c4nest s p) (.intoParent s.nextId)).2.set_window
        layout (s.nextId + 1) wid).tree.pathTo (s.nextId + 1) = some q
      rw [hHtree]
      exact hq

end Rift

namespace Rift

/-- C4: for a layout whose effective selection has a parent `p` (with
duplicate-free, allocator-fresh ids): if `p` has at least 4 children
and its kind is not a stack, `add_window_after_selection` wraps the
selection in a new container (id `nextId`) whose kind equals `p`'s
current kind and inserts the new window node (id `nextId + 1`) as a
child of that container; otherwise it inserts the new window node
(id `nextId`) as the sibling immediately after the selection; in both
cases the new node carries the window and becomes the effective
selection. -/
theorem C4_smart_window_insertion (s : LState) (layout wid p : Nat)
    (hnd : s.tree.allIds.Nodup)
    (hfresh : ∀ i ∈ s.tree.allIds, i < s.nextId)
    (hpar : s.tree.parentOf s.current_selection = some p) :
    ((4 ≤ (s.tree.childIds p).length && !(s.info p).kind.is_group) = true →
      (((s.add_window_after_selection layout wid).info s.nextId).kind
          = (s.info p).kind
        ∧ (s.add_window_after_selection layout wid).tree.parentOf (s.nextId + 1)
          = some s.nextId
        ∧ (s.add_window_after_selection layout wid).tree.parentOf
            s.current_selection = some s.nextId
        ∧ (s.add_window_after_selection layout wid).windows (s.nextId + 1)
          = some wid
        ∧ (s.add_window_after_selection layout wid).current_selection
          = s.nextId + 1))
    ∧ ((4 ≤ (s.tree.childIds p).length && !(s.info p).kind.is_group) = false →
      ((s.add_window_after_selection layout wid).tree.nextSibling
          s.current_selection = some s.nextId
        ∧ (s.add_window_after_selection layout wid).windows s.nextId = some wid
        ∧ (s.add_window_after_selection layout wid).current_selection
          = s.nextId)) := by
  constructor
  · intro hcond
    have hlen : 4 ≤ (s.tree.childIds p).length := by
      rcases (Bool.and_eq_true _ _).mp hcond with ⟨h1, _⟩
      simpa using h1
    exact awas_caseA s layout wid p hnd hfresh hpar hcond
      (crowded_has_sibling s p hnd hpar hlen)
  · intro hcond
    exact awas_caseB s layout wid p hnd hfresh hpar hcond

theorem C4_witness :
    (exFiveSelW3.tree.allIds.Nodup
      ∧ (∀ i ∈ exFiveSelW3.tree.allIds, i < exFiveSelW3.nextId)
      ∧ exFiveSelW3.tree.parentOf exFiveSelW3.current_selection = some 0)
    ∧ (((4 ≤ (exFiveSelW3.tree.childIds 0).length
          && !(exFiveSelW3.info 0).kind.is_group) = true →
        (((exFiveSelW3.add_window_after_selection 0 99).info
            exFiveSelW3.nextId).kind = (exFiveSelW3.info 0).kind
          ∧ (exFiveSelW3.add_window_after_selection 0 99).tree.parentOf
              (exFiveSelW3.nextId + 1) = some exFiveSelW3.nextId
          ∧ (exFiveSelW3.add_window_after_selection 0 99).tree.parentOf
              exFiveSelW3.current_selection = some exFiveSelW3.nextId
          ∧ (exFiveSelW3.add_window_after_selection 0 99).windows
              (exFiveSelW3.nextId + 1) = some 99
          ∧ (exFiveSelW3.add_window_after_selection 0 99).current_selection
              = exFiveSelW3.nextId + 1))
      ∧ ((4 ≤ (exFiveSelW3.tree.childIds 0).length
          && !(exFiveSelW3.info 0).kind.is_group) = false →
        ((exFiveSelW3.add_window_after_selection 0 99).tree.nextSibling
            exFiveSelW3.current_selection = some exFiveSelW3.nextId
          ∧ (exFiveSelW3.add_window_after_selection 0 99).windows
              exFiveSelW3.nextId = some 99
          ∧ (exFiveSelW3.add_window_after_selection 0 99).current_selection
              = exFiveSelW3.nextId))) :=
  ⟨⟨by decide, by decide, by decide⟩,
    C4_smart_window_insertion exFiveSelW3 0 99 0
      (by decide) (by decide) (by decide)⟩

end Rift

namespace Rift

mutual

/-- Window ids bound in a subtree, in the emission order of
`apply_with_gaps`: a bound node contributes its window id (and is not
descended into); an unbound node contributes its children's ids. -/
def boundWids (w : Nat → Option Nat) : LTree → List Nat
  | .node i cs =>
    match w i with
    | some wid => [wid]
    | none => boundWidsL w cs

/-- Bound window ids of a list of subtrees, in order. -/
def boundWidsL (w : Nat → Option Nat) : List LTree → List Nat
  | [] => []
  | t :: ts => boundWids w t ++ boundWidsL w ts

end

/-- `layout_axis` emits the bound ids of the children, given that the
child loop does so for every parameterization. -/
theorem layout_axis_map_fst (P : GeoParams) (i : Nat) (cs : List LTree)
    (rect : Rect) (horiz : Bool)
    (h : ∀ szOf total ig usable horiz2 rect2 off,
      (axis_children P szOf total ig usable horiz2 rect2 off cs).map Prod.fst
        = boundWidsL P.windows cs) :
    (layout_axis P i cs rect horiz).map Prod.fst = boundWidsL P.windows cs := by
  rw [layout_axis]
  cases cs with
  | nil => simp [boundWidsL]
  | cons c rest => exact h _ _ _ _ _ _ _

/-- The window ids emitted by `apply_with_gaps` are exactly the bound
window ids of the subtree, in preorder, for every input rect. -/
theorem apply_with_gaps_map_fst (P : GeoParams) (t : LTree) (r : Rect) :
    (apply_with_gaps P t r).map Prod.fst = boundWids P.windows t := by
  refine LTree.rec
    (motive_1 := fun t => ∀ r,
      (apply_with_gaps P t r).map Prod.fst = boundWids P.windows t)
    (motive_2 := fun cs =>
      (∀ szOf total ig usable horiz rect off,
        (axis_children P szOf total ig usable horiz rect off cs).map Prod.fst
          = boundWidsL P.windows cs)
      ∧ (∀ lay fi idx,
        (stack_children P lay fi idx cs).map Prod.fst
          = boundWidsL P.windows cs)) ?_ ?_ ?_ t r
  · intro i cs ih r
    rw [apply_with_gaps, boundWids]
    cases hw : P.windows i
    · cases hk : (P.info i).kind
      · exact layout_axis_map_fst P i cs _ true ih.1
      · exact layout_axis_map_fst P i cs _ false ih.1
      · cases cs with
        | nil => simp [boundWidsL]
        | cons c rest => exact ih.2 _ _ _
      · cases cs with
        | nil => simp [boundWidsL]
        | cons c rest => exact ih.2 _ _ _
    · rfl
  · refine ⟨fun szOf total ig usable horiz rect off => ?_, fun lay fi idx => ?_⟩
    · rw [axis_children, boundWidsL]; rfl
    · rw [stack_children, boundWidsL]; rfl
  · intro c rest ihc ihrest
    refine ⟨?_, ?_⟩
    · intro szOf total ig usable horiz rect off
      rw [axis_children, List.map_append, ihc _, boundWidsL,
        ihrest.1 szOf total ig usable horiz rect _]
    · intro lay fi idx
      rw [stack_children, List.map_append, ihc _, boundWidsL,
        ihrest.2 lay fi _]

/-- `roundQ` is monotone. -/
theorem roundQ_mono {a b : ℚ} (h : a ≤ b) : roundQ a ≤ roundQ b := by
  unfold roundQ
  exact_mod_cast Int.floor_le_floor (by linarith)

/-- `roundQ` fixes rationals with denominator `1`. -/
theorem roundQ_den_one {q : ℚ} (h : q.den = 1) : roundQ q = q := by
  have hq : (q.num : ℚ) = q := (Rat.den_eq_one_iff q).mp h
  have h2 : roundQ ((q.num : ℚ)) = (q.num : ℚ) := by
    unfold roundQ
    rw [Int.floor_int_add]
    norm_num
  rw [← hq, h2]

/-- `roundQ` yields a rational with denominator `1`. -/
theorem roundQ_den (q : ℚ) : (roundQ q).den = 1 := Rat.den_intCast _

/-- Below an integral bound, `roundQ` stays below the bound. -/
theorem roundQ_le {a b : ℚ} (hb : b.den = 1) (h : a ≤ b) : roundQ a ≤ b := by
  calc roundQ a ≤ roundQ b := roundQ_mono h
  _ = b := roundQ_den_one hb

/-- Above an integral bound, `roundQ` stays above the bound. -/
theorem le_roundQ {a b : ℚ} (ha : a.den = 1) (h : a ≤ b) : a ≤ roundQ b := by
  calc a = roundQ a := (roundQ_den_one ha).symm
  _ ≤ roundQ b := roundQ_mono h

/-- All four edges of a rect lie on integral coordinates. -/
def Rect.iEdges (r : Rect) : Prop :=
  r.x.den = 1 ∧ r.y.den = 1 ∧ (r.x + r.w).den = 1 ∧ (r.y + r.h).den = 1

instance (r : Rect) : Decidable (Rect.iEdges r) := by
  unfold Rect.iEdges; infer_instance

/-- Rounding a rect yields integral edges. -/
theorem Rect.round_iEdges (r : Rect) : r.round.iEdges := by
  refine ⟨roundQ_den _, roundQ_den _, ?_, ?_⟩
  · show (roundQ r.x + (roundQ (r.x + r.w) - roundQ r.x)).den = 1
    rw [add_sub_cancel]
    exact roundQ_den _
  · show (roundQ r.y + (roundQ (r.y + r.h) - roundQ r.y)).den = 1
    rw [add_sub_cancel]
    exact roundQ_den _

/-- Rounding keeps a nonnegative width nonnegative. -/
theorem Rect.round_w_nonneg {r : Rect} (h : 0 ≤ r.w) : 0 ≤ r.round.w := by
  show 0 ≤ roundQ (r.x + r.w) - roundQ r.x
  have := roundQ_mono (show r.x ≤ r.x + r.w by linarith)
  linarith

/-- Rounding keeps a nonnegative height nonnegative. -/
theorem Rect.round_h_nonneg {r : Rect} (h : 0 ≤ r.h) : 0 ≤ r.round.h := by
  show 0 ≤ roundQ (r.y + r.h) - roundQ r.y
  have := roundQ_mono (show r.y ≤ r.y + r.h by linarith)
  linarith

/-- Containment is reflexive. -/
theorem Rect.containsR_self (r : Rect) : r.containsR r :=
  ⟨le_refl _, le_refl _, le_refl _, le_refl _⟩

/-- Containment is transitive. -/
theorem Rect.containsR_trans {a b c : Rect} (h1 : a.containsR b)
    (h2 : b.containsR c) : a.containsR c := by
  obtain ⟨p1, p2, p3, p4⟩ := h1
  obtain ⟨q1, q2, q3, q4⟩ := h2
  exact ⟨by linarith, by linarith, by linarith, by linarith⟩

/-- A rect contained in an integral-edged rect stays contained after
rounding. -/
theorem Rect.round_contained {outer r : Rect} (hint : outer.iEdges)
    (h : outer.containsR r) : outer.containsR r.round := by
  obtain ⟨d1, d2, d3, d4⟩ := hint
  obtain ⟨p1, p2, p3, p4⟩ := h
  refine ⟨le_roundQ d1 p1, ?_, le_roundQ d2 p3, ?_⟩
  · show roundQ r.x + (roundQ (r.x + r.w) - roundQ r.x) ≤ outer.x + outer.w
    rw [add_sub_cancel]
    exact roundQ_le d3 p2
  · show roundQ r.y + (roundQ (r.y + r.h) - roundQ r.y) ≤ outer.y + outer.h
    rw [add_sub_cancel]
    exact roundQ_le d4 p4

/-- The axis-start edge of a rect. -/
def edgeLo (r : Rect) (horiz : Bool) : ℚ := if horiz then r.x else r.y

/-- The axis length of a rect. -/
def edgeLen (r : Rect) (horiz : Bool) : ℚ := if horiz then r.w else r.h

mutual

/-- Hypotheses of the amended containment claim, checked structurally
over the subtree: no fullscreen flags, no stacked kinds, and at every
unbound node the recorded `total` equals the sum of the children's
sizes. -/
def geoOKb (P : GeoParams) : LTree → Bool
  | .node i cs =>
    !(P.info i).is_fullscreen && !(P.info i).is_fullscreen_within_gaps
      && !(P.info i).kind.is_group
      && ((P.windows i).isSome
          || decide ((P.info i).total
              = (cs.map (fun c => (P.info c.topId).size)).sum))
      && geoOKLb P cs

/-- `geoOKb` over a list of subtrees. -/
def geoOKLb (P : GeoParams) : List LTree → Bool
  | [] => true
  | t :: ts => geoOKb P t && geoOKLb P ts

end

/-- The frames emitted for a subtree stay within every integral-edged
nonnegative rect the subtree is laid out in. -/
def framesWithin (P : GeoParams) (t : LTree) : Prop :=
  ∀ rect : Rect, rect.iEdges → 0 ≤ rect.w → 0 ≤ rect.h →
    ∀ pr ∈ apply_with_gaps P t rect, Rect.containsR rect pr.2

/-- The axis child loop with zero inner gap keeps every emitted frame
within the container rect, as long as the remaining shares fit in the
remaining axis segment. -/
theorem axis_children_within (P : GeoParams) (szOf : LTree → ℚ)
    (total usable : ℚ) (horiz : Bool) (rect : Rect) :
    ∀ (cs : List LTree) (off : ℚ),
    (∀ c ∈ cs, 0 ≤ szOf c) → 0 < total → 0 ≤ usable →
    rect.iEdges → 0 ≤ rect.w → 0 ≤ rect.h →
    (∀ c ∈ cs, framesWithin P c) →
    edgeLo rect horiz ≤ off →
    off + usable * ((cs.map szOf).sum / total)
      ≤ edgeLo rect horiz + edgeLen rect horiz →
    ∀ pr ∈ axis_children P szOf total 0 usable horiz rect off cs,
      Rect.containsR rect pr.2 := by
  intro cs
  induction cs with
  | nil =>
    intro off _ _ _ _ _ _ _ _ _ pr hpr
    rw [axis_children] at hpr
    simp at hpr
  | cons c rest ihrest =>
    intro off hsz htot husable hint hw hh hfr hlo hhi pr hpr
    rw [axis_children] at hpr
    have hseg0 : 0 ≤ usable * (szOf c / total) :=
      mul_nonneg husable (div_nonneg (hsz c (List.mem_cons_self c rest)) htot.le)
    have hrest0 : 0 ≤ (rest.map szOf).sum :=
      List.sum_nonneg (by
        intro q hq
        obtain ⟨d, hd, rfl⟩ := List.mem_map.mp hq
        exact hsz d (List.mem_cons_of_mem _ hd))
    have hsum : ((c :: rest).map szOf).sum = szOf c + (rest.map szOf).sum := by
      simp
    have hseg_le : usable * (szOf c / total)
        ≤ usable * (((c :: rest).map szOf).sum / total) := by
      rw [hsum]
      refine mul_le_mul_of_nonneg_left ?_ husable
      refine div_le_div_of_nonneg_right ?_ htot.le
      linarith
    rcases List.mem_append.mp hpr with hmem | hmem
    · -- the head child's own frames
      cases hhoriz : horiz
      · -- vertical
        have hlo' : rect.y ≤ off := by
          have := hlo; rw [hhoriz] at this; exact this
        have hhi' : off + usable * (((c :: rest).map szOf).sum / total)
            ≤ rect.y + rect.h := by
          have := hhi; rw [hhoriz] at this; exact this
        have hcont : rect.containsR
            { x := rect.x, y := off, w := rect.w, h := usable * (szOf c / total) } := by
          refine ⟨le_refl _, le_refl _, hlo', ?_⟩
          show off + usable * (szOf c / total) ≤ rect.y + rect.h
          calc off + usable * (szOf c / total)
              ≤ off + usable * (((c :: rest).map szOf).sum / total) := by linarith
          _ ≤ rect.y + rect.h := hhi'
        have hcr := Rect.round_contained hint hcont
        have hfit := hfr c (List.mem_cons_self c rest)
        have hchild := hfit
          (Rect.round { x := rect.x, y := off, w := rect.w, h := usable * (szOf c / total) })
          (Rect.round_iEdges _) (Rect.round_w_nonneg hw) (Rect.round_h_nonneg hseg0)
          pr (by rw [hhoriz] at hmem; exact hmem)
        exact Rect.containsR_trans hcr hchild
      · -- horizontal
        have hlo' : rect.x ≤ off := by
          have := hlo; rw [hhoriz] at this; exact this
        have hhi' : off + usable * (((c :: rest).map szOf).sum / total)
            ≤ rect.x + rect.w := by
          have := hhi; rw [hhoriz] at this; exact this
        have hcont : rect.containsR
            { x := off, y := rect.y, w := usable * (szOf c / total), h := rect.h } := by
          refine ⟨hlo', ?_, le_refl _, le_refl _⟩
          show off + usable * (szOf c / total) ≤ rect.x + rect.w
          calc off + usable * (szOf c / total)
              ≤ off + usable * (((c :: rest).map szOf).sum / total) := by linarith
          _ ≤ rect.x + rect.w := hhi'
        have hcr := Rect.round_contained hint hcont
        have hfit := hfr c (List.mem_cons_self c rest)
        have hchild := hfit
          (Rect.round { x := off, y := rect.y, w := usable * (szOf c / total), h := rect.h })
          (Rect.round_iEdges _) (Rect.round_w_nonneg hseg0) (Rect.round_h_nonneg hh)
          pr (by rw [hhoriz] at hmem; exact hmem)
        exact Rect.containsR_trans hcr hchild
    · -- frames of the remaining children
      refine ihrest (off + usable * (szOf c / total)
          + (if rest.isEmpty = true then 0 else 0))
        (fun d hd => hsz d (List.mem_cons_of_mem _ hd)) htot husable hint hw hh
        (fun d hd => hfr d (List.mem_cons_of_mem _ hd)) ?_ ?_ pr hmem
      · rw [ite_self]
        calc edgeLo rect horiz ≤ off := hlo
        _ ≤ off + usable * (szOf c / total) + 0 := by linarith
      · rw [ite_self]
        have expand : usable * (((c :: rest).map szOf).sum / total)
            = usable * (szOf c / total) + usable * ((rest.map szOf).sum / total) := by
          rw [hsum, add_div, mul_add]
        calc off + usable * (szOf c / total) + 0
              + usable * ((rest.map szOf).sum / total)
            = off + usable * (((c :: rest).map szOf).sum / total) := by
              rw [expand]; ring
        _ ≤ edgeLo rect horiz + edgeLen rect horiz := hhi

/-- Sum of the constant-one map. -/
theorem sum_map_one (cs : List LTree) :
    (cs.map (fun _ => (1 : ℚ))).sum = (cs.length : ℚ) := by
  induction cs with
  | nil => simp
  | cons c rest ih => simp [ih]; ring

/-- Unfolding of `layout_axis` on a nonempty child list, with every
intermediate `let` spelled out. -/
theorem layout_axis_eq (P : GeoParams) (i : Nat) (cs : List LTree)
    (rect : Rect) (horiz : Bool) (hne : cs ≠ []) :
    layout_axis P i cs rect horiz =
      axis_children P
        (if (decide (|(cs.map (fun c => (P.info c.topId).size)).sum
              - (cs.length : ℚ)| > 1/100)
            || cs.any (fun c => decide ((P.info c.topId).size < 1/20))) = true
         then fun _ => 1 else fun c => (P.info c.topId).size)
        (if (decide (|(cs.map (fun c => (P.info c.topId).size)).sum
              - (cs.length : ℚ)| > 1/100)
            || cs.any (fun c => decide ((P.info c.topId).size < 1/20))) = true
         then (cs.length : ℚ) else (P.info i).total)
        (if horiz = true then P.gaps.innerH else P.gaps.innerV)
        (if (if horiz = true then P.gaps.innerH else P.gaps.innerV) = 0
         then (if horiz = true then rect.w else rect.h)
         else max ((if horiz = true then rect.w else rect.h)
            - ((cs.length - 1 : ℕ) : ℚ)
              * (if horiz = true then P.gaps.innerH else P.gaps.innerV)) 0)
        horiz rect (if horiz = true then rect.x else rect.y) cs := by
  rw [layout_axis]
  cases cs with
  | nil => exact absurd rfl hne
  | cons c rest => rfl

/-- With zero inner gaps, the frames `layout_axis` emits stay within
the container rect, provided the recorded `total` matches the sum of
the children's sizes and each child keeps its own frames within its
rect. -/
theorem layout_axis_within (P : GeoParams) (i : Nat) (cs : List LTree)
    (rect : Rect) (horiz : Bool)
    (hgH : P.gaps.innerH = 0) (hgV : P.gaps.innerV = 0)
    (htot : (P.info i).total = (cs.map (fun c => (P.info c.topId).size)).sum)
    (hint : rect.iEdges) (hw : 0 ≤ rect.w) (hh : 0 ≤ rect.h)
    (hfr : ∀ c ∈ cs, framesWithin P c) :
    ∀ pr ∈ layout_axis P i cs rect horiz, Rect.containsR rect pr.2 := by
  intro pr hpr
  cases cs with
  | nil => rw [layout_axis] at hpr; simp at hpr
  | cons c rest =>
    rw [layout_axis_eq P i (c :: rest) rect horiz (by simp)] at hpr
    rw [hgH, hgV, ite_self, if_pos (rfl : (0 : ℚ) = 0)] at hpr
    have hUS : 0 ≤ (if horiz = true then rect.w else rect.h) := by
      cases horiz
      · exact hh
      · exact hw
    have hOFF : edgeLo rect horiz = (if horiz = true then rect.x else rect.y) := rfl
    have hLEN : edgeLen rect horiz = (if horiz = true then rect.w else rect.h) := rfl
    cases hcond : (decide (|((c :: rest).map (fun c => (P.info c.topId).size)).sum
          - ((c :: rest).length : ℚ)| > 1/100)
        || (c :: rest).any (fun c => decide ((P.info c.topId).size < 1/20))) with
    | true =>
      rw [hcond] at hpr
      have hpr2 : pr ∈ axis_children P (fun _ => 1) ((c :: rest).length : ℚ) 0
          (if horiz = true then rect.w else rect.h) horiz rect
          (if horiz = true then rect.x else rect.y) (c :: rest) := hpr
      have hlen : (0 : ℚ) < ((c :: rest).length : ℚ) := by
        exact_mod_cast Nat.succ_pos rest.length
      refine axis_children_within P (fun _ => 1) _ _ horiz rect (c :: rest) _
        (fun _ _ => zero_le_one) hlen hUS hint hw hh hfr ?_ ?_ pr hpr2
      · rw [hOFF]
      · rw [hOFF, hLEN, sum_map_one, div_self hlen.ne.symm, mul_one]
    | false =>
      rw [hcond] at hpr
      have hpr2 : pr ∈ axis_children P (fun c => (P.info c.topId).size)
          ((P.info i).total) 0
          (if horiz = true then rect.w else rect.h) horiz rect
          (if horiz = true then rect.x else rect.y) (c :: rest) := hpr
      have hnn : ∀ d ∈ c :: rest, (1 : ℚ)/20 ≤ (P.info d.topId).size := by
        intro d hd
        have hany := (Bool.or_eq_false_iff.mp hcond).2
        have := List.any_eq_false.mp hany d hd
        simpa using le_of_not_lt (by simpa using this)
      have hpos : (0 : ℚ) < ((c :: rest).map (fun c => (P.info c.topId).size)).sum := by
        have h1 : (1 : ℚ)/20 ≤ (P.info c.topId).size := hnn c (List.mem_cons_self c rest)
        have h2 : (0 : ℚ) ≤ (rest.map (fun c => (P.info c.topId).size)).sum := by
          refine List.sum_nonneg ?_
          intro q hq
          obtain ⟨d, hd, rfl⟩ := List.mem_map.mp hq
          exact le_trans (by norm_num) (hnn d (List.mem_cons_of_mem _ hd))
        have h3 : ((c :: rest).map (fun c => (P.info c.topId).size)).sum
            = (P.info c.topId).size + (rest.map (fun c => (P.info c.topId).size)).sum := by
          simp
        rw [h3]
        linarith
      have htotpos : (0 : ℚ) < (P.info i).total := by rw [htot]; exact hpos
      refine axis_children_within P (fun c => (P.info c.topId).size) _ _ horiz rect
        (c :: rest) _
        (fun d hd => le_trans (by norm_num) (hnn d hd)) htotpos hUS hint hw hh hfr ?_ ?_
        pr hpr2
      · rw [hOFF]
      · rw [hOFF, hLEN, ← htot, div_self htotpos.ne.symm, mul_one]

/-- Under `geoOKb` (no fullscreen flags, no stacked kinds, consistent
totals) and zero inner gaps, every frame `apply_with_gaps` emits for a
subtree stays within the rect the subtree is laid out in. -/
theorem apply_with_gaps_within (P : GeoParams)
    (hgH : P.gaps.innerH = 0) (hgV : P.gaps.innerV = 0)
    (t : LTree) (hok : geoOKb P t = true) : framesWithin P t := by
  refine LTree.rec
    (motive_1 := fun t => geoOKb P t = true → framesWithin P t)
    (motive_2 := fun cs => geoOKLb P cs = true → ∀ c ∈ cs, framesWithin P c)
    ?_ ?_ ?_ t hok
  · intro i cs ih hok rect hint hw hh pr hpr
    rw [geoOKb] at hok
    simp only [Bool.and_eq_true, Bool.not_eq_true'] at hok
    obtain ⟨⟨⟨⟨hfs, hfswg⟩, hgrp⟩, hbound⟩, hkids⟩ := hok
    rw [apply_with_gaps] at hpr
    rw [hfs, hfswg] at hpr
    cases hwin : P.windows i with
    | some wid =>
      rw [hwin] at hpr
      have hpr2 : pr ∈ [(wid, rect)] := hpr
      rw [List.mem_singleton] at hpr2
      rw [hpr2]
      exact Rect.containsR_self rect
    | none =>
      rw [hwin] at hpr hbound
      simp only [Option.isSome_none, Bool.false_or, decide_eq_true_eq] at hbound
      cases hkind : (P.info i).kind with
      | horizontal =>
        rw [hkind] at hpr
        have hpr2 : pr ∈ layout_axis P i cs rect true := hpr
        exact layout_axis_within P i cs rect true hgH hgV hbound hint hw hh
          (ih hkids) pr hpr2
      | vertical =>
        rw [hkind] at hpr
        have hpr2 : pr ∈ layout_axis P i cs rect false := hpr
        exact layout_axis_within P i cs rect false hgH hgV hbound hint hw hh
          (ih hkids) pr hpr2
      | horizontalStack =>
        rw [hkind] at hgrp
        simp [LayoutKind.is_group] at hgrp
      | verticalStack =>
        rw [hkind] at hgrp
        simp [LayoutKind.is_group] at hgrp
  · intro _ c hc
    exact absurd hc (List.not_mem_nil c)
  · intro c rest ihc ihrest hok d hd
    rw [geoOKLb] at hok
    rw [Bool.and_eq_true] at hok
    rcases List.mem_cons.mp hd with rfl | hd2
    · exact ihc hok.1
    · exact ihrest hok.2 d hd2

/-- The sum of two denominator-one rationals has denominator one. -/
theorem den_one_add {a b : ℚ} (ha : a.den = 1) (hb : b.den = 1) :
    (a + b).den = 1 := by
  have ha' : (a.num : ℚ) = a := (Rat.den_eq_one_iff a).mp ha
  have hb' : (b.num : ℚ) = b := (Rat.den_eq_one_iff b).mp hb
  have : ((a.num + b.num : ℤ) : ℚ) = a + b := by push_cast [ha', hb']; ring
  rw [← this]
  exact Rat.den_intCast _

/-- The negation of a denominator-one rational has denominator one. -/
theorem den_one_neg {a : ℚ} (ha : a.den = 1) : (-a).den = 1 := by
  have ha' : (a.num : ℚ) = a := (Rat.den_eq_one_iff a).mp ha
  have : ((-a.num : ℤ) : ℚ) = -a := by push_cast [ha']; ring
  rw [← this]
  exact Rat.den_intCast _

/-- With nonnegative outer gaps, the tiling area lies within the
screen. -/
theorem tiling_area_contained (screen : Rect) (gaps : GapSettings)
    (h1 : 0 ≤ gaps.outerH) (h2 : 0 ≤ gaps.outerV) :
    screen.containsR (compute_tiling_area screen gaps) := by
  refine ⟨?_, ?_, ?_, ?_⟩
  · show screen.x ≤ screen.x + gaps.outerH
    linarith
  · show screen.x + gaps.outerH + (screen.w - 2 * gaps.outerH)
      ≤ screen.x + screen.w
    linarith
  · show screen.y ≤ screen.y + gaps.outerV
    linarith
  · show screen.y + gaps.outerV + (screen.h - 2 * gaps.outerV)
      ≤ screen.y + screen.h
    linarith

/-- With integral screen edges and integral outer gaps, the tiling
area has integral edges. -/
theorem tiling_area_iEdges (screen : Rect) (gaps : GapSettings)
    (hs : screen.iEdges) (hH : gaps.outerH.den = 1) (hV : gaps.outerV.den = 1) :
    (compute_tiling_area screen gaps).iEdges := by
  obtain ⟨d1, d2, d3, d4⟩ := hs
  refine ⟨den_one_add d1 hH, den_one_add d2 hV, ?_, ?_⟩
  · show (screen.x + gaps.outerH + (screen.w - 2 * gaps.outerH)).den = 1
    have : screen.x + gaps.outerH + (screen.w - 2 * gaps.outerH)
        = screen.x + screen.w + -gaps.outerH := by ring
    rw [this]
    exact den_one_add d3 (den_one_neg hH)
  · show (screen.y + gaps.outerV + (screen.h - 2 * gaps.outerV)).den = 1
    have : screen.y + gaps.outerV + (screen.h - 2 * gaps.outerV)
        = screen.y + screen.h + -gaps.outerV := by ring
    rw [this]
    exact den_one_add d4 (den_one_neg hV)

/-- A two-window horizontal layout with consistent size bookkeeping:
root `0` holds the bound windows `11` (node `1`) and `12` (node `2`),
each with size `1`, and the root records `total = 2`. -/
def c1demo : LState :=
  { tree := .node 0 [.node 1 [], .node 2 []]
    sel := fun _ => none
    info := fun n =>
      if n = 0 then ⟨1, 2, .horizontal, .horizontal, false, false⟩
      else ⟨1, 0, .horizontal, .horizontal, false, false⟩
    windows := fun n => if n = 1 then some 11 else if n = 2 then some 12 else none
    windowNodes := fun w =>
      if w = 11 then [(0, 1)] else if w = 12 then [(0, 2)] else []
    nextId := 3 }

/-- C1: the emitted-ids half of the claim holds in general: the window
ids `calculate_layout` returns are exactly the tree's bound window ids
in preorder, hence each bound id exactly once whenever no id is bound
at two nodes.  The containment half is false as claimed (see the
counterexample: the stack layout clamps frames to at least `100×100`);
it holds under the amendment's hypotheses: no fullscreen flags, no
stacked kinds and consistent size totals (`geoOKb`), zero inner gaps,
nonnegative integral outer gaps that fit inside the screen, and a
screen rect with integral edges. -/
theorem C1_layout_window_ids_and_containment (s : LState) (screen : Rect)
    (so : ℚ) (gaps : GapSettings) (slt : ℚ)
    (hp : HorizontalPlacement) (vp : VerticalPlacement)
    (hok : geoOKb
      { tree := s.tree, windows := s.windows, info := s.info
        screen := screen, stack_offset := so, gaps := gaps
        stack_line_thickness := slt, hplace := hp, vplace := vp } s.tree = true)
    (hgH : gaps.innerH = 0) (hgV : gaps.innerV = 0)
    (hoH : 0 ≤ gaps.outerH) (hoV : 0 ≤ gaps.outerV)
    (hdH : gaps.outerH.den = 1) (hdV : gaps.outerV.den = 1)
    (hsi : screen.iEdges)
    (hbw : 2 * gaps.outerH ≤ screen.w) (hbh : 2 * gaps.outerV ≤ screen.h) :
    ((s.calculate_layout screen so gaps slt hp vp).map Prod.fst
        = boundWids s.windows s.tree)
    ∧ ((boundWids s.windows s.tree).Nodup →
        ∀ wid ∈ boundWids s.windows s.tree,
          ((s.calculate_layout screen so gaps slt hp vp).map Prod.fst).count wid
            = 1)
    ∧ ∀ pr ∈ s.calculate_layout screen so gaps slt hp vp,
        Rect.containsR screen pr.2 := by
  have h1 : (s.calculate_layout screen so gaps slt hp vp).map Prod.fst
      = boundWids s.windows s.tree := apply_with_gaps_map_fst _ _ _
  refine ⟨h1, ?_, ?_⟩
  · intro hnd wid hmem
    rw [h1]
    exact List.count_eq_one_of_mem hnd hmem
  · intro pr hpr
    have hpr2 : pr ∈ apply_with_gaps
        { tree := s.tree, windows := s.windows, info := s.info
          screen := screen, stack_offset := so, gaps := gaps
          stack_line_thickness := slt, hplace := hp, vplace := vp }
        s.tree (compute_tiling_area screen gaps) := hpr
    have hti := tiling_area_iEdges screen gaps hsi hdH hdV
    have hwn : 0 ≤ (compute_tiling_area screen gaps).w := by
      show 0 ≤ screen.w - 2 * gaps.outerH
      linarith
    have hhn : 0 ≤ (compute_tiling_area screen gaps).h := by
      show 0 ≤ screen.h - 2 * gaps.outerV
      linarith
    have hin := apply_with_gaps_within _ hgH hgV s.tree hok
      (compute_tiling_area screen gaps) hti hwn hhn pr hpr2
    exact Rect.containsR_trans (tiling_area_contained screen gaps hoH hoV) hin

/-- C1 witness: the theorem applied to the concrete two-window layout
`c1demo` on a `100×100` screen with zero gaps. -/
theorem C1_witness :
    ((c1demo.calculate_layout ⟨0,0,100,100⟩ 10 ⟨0,0,0,0⟩ 0 .top .leftSide).map
        Prod.fst = boundWids c1demo.windows c1demo.tree)
    ∧ ((boundWids c1demo.windows c1demo.tree).Nodup →
        ∀ wid ∈ boundWids c1demo.windows c1demo.tree,
          ((c1demo.calculate_layout ⟨0,0,100,100⟩ 10 ⟨0,0,0,0⟩ 0
              .top .leftSide).map Prod.fst).count wid = 1)
    ∧ ∀ pr ∈ c1demo.calculate_layout ⟨0,0,100,100⟩ 10 ⟨0,0,0,0⟩ 0 .top .leftSide,
        Rect.containsR ⟨0,0,100,100⟩ pr.2 :=
  C1_layout_window_ids_and_containment c1demo ⟨0,0,100,100⟩ 10 ⟨0,0,0,0⟩ 0
    .top .leftSide
    (by simp [geoOKb, geoOKLb, c1demo, LayoutKind.is_group, LTree.topId,
      one_add_one_eq_two])
    rfl rfl (le_refl 0) (le_refl 0) (by decide) (by decide)
    (by simp [Rect.iEdges]) (by simp) (by simp)

end Rift
